import Mathlib

/-!
# Block reward / sync duties service (`main.go`)

A shallow embedding of the two HTTP handlers `getBlockReward` and
`getSyncDuties` together with their helpers `respondWithError`,
`getBeaconBlock` and `getCurrentSlot`.

* The response writer and the outbound network are made explicit: a handler
  takes an `Upstream` (what the consensus-layer and execution-layer sources
  answer) and threads a `Conn` that records, in order, everything written to
  the response and every upstream call issued.
* A Go run-time panic is recorded in `Conn.panicked`.
* Library routines the handlers rely on (`strconv.ParseUint`,
  `strconv.ParseInt`, `bytes.Contains`, `math/big`'s `Float`) are modelled
  after their documented behaviour.
-/

namespace SfTestTask

set_option maxRecDepth 20000

/-! ## Constants -/

def SLOTS_PER_EPOCH : Nat := 32

def StatusOK : Nat := 200
def StatusBadRequest : Nat := 400
def StatusNotFound : Nat := 404
def StatusInternalServerError : Nat := 500

/-- The constant `params.GWei` of go-ethereum: `1e9`. -/
def GWei : Nat := 1000000000

/-! ## strconv -/

/-- The two error kinds of `strconv.NumError`. -/
inductive NumError where
  | errSyntax
  | errRange
  deriving DecidableEq, Repr

def maxUint64 : Nat := 2 ^ 64 - 1

/-- The digit loop of `strconv.ParseUint` for base 10 and bit size 64:
`n` is the value accumulated so far, the list is what is left of the input. -/
def parseUintLoop : List Char → Nat → Nat × Option NumError
  | [], n => (n, none)
  | c :: cs, n =>
    if '0' ≤ c ∧ c ≤ '9' then
      let d := c.toNat - '0'.toNat
      -- cutoff = maxUint64/10 + 1
      if n ≥ maxUint64 / 10 + 1 then (maxUint64, some NumError.errRange)
      else
        let n1 := n * 10 + d
        if n1 > maxUint64 then (maxUint64, some NumError.errRange)
        else parseUintLoop cs n1
    else (0, some NumError.errSyntax)

/-- The call `strconv.ParseUint(s, 10, 64)`: value and error. -/
def ParseUint (s : String) : Nat × Option NumError :=
  if s.data = [] then (0, some NumError.errSyntax) else parseUintLoop s.data 0

/-- The call `strconv.ParseInt(s, 10, 64)`: value and error. -/
def ParseInt (s : String) : Int × Option NumError :=
  match s.data with
  | [] => (0, some NumError.errSyntax)
  | c :: cs =>
    let neg := c = '-'
    let rest := if c = '+' ∨ c = '-' then cs else c :: cs
    match ParseUint (String.mk rest) with
    | (_, some NumError.errSyntax) => (0, some NumError.errSyntax)
    | (un, _) =>
      let cutoff : Nat := 2 ^ 63
      if ¬ neg ∧ un ≥ cutoff then ((cutoff : Int) - 1, some NumError.errRange)
      else if neg ∧ un > cutoff then (-(cutoff : Int), some NumError.errRange)
      else (if neg then -(un : Int) else (un : Int), none)

/-- The call `strconv.FormatUint(n, 10)`. -/
def FormatUint (n : Nat) : String := Nat.repr n

/-! ## bytes -/

/-- The call `bytes.HasPrefix(s, sep)`. -/
def hasPrefix : List Nat → List Nat → Bool
  | _, [] => true
  | [], _ :: _ => false
  | b :: s, c :: sep => b == c && hasPrefix s sep

/-- The call `bytes.Contains(s, sep)`: whether `sep` occurs in `s` at some
offset. -/
def bytesContains : List Nat → List Nat → Bool
  | [], sep => hasPrefix [] sep
  | b :: s, sep => hasPrefix (b :: s) sep || bytesContains s sep

/-- The byte slice `[]byte("build")`. -/
def buildMarker : List Nat := [98, 117, 105, 108, 100]

/-! ## math/big: `Float` at precision 53

Every `big.Float` of the program is created by `big.NewFloat(0.0)`, which
fixes its precision to 53 bits and its rounding mode to `ToNearestEven`;
`SetInt`, `SetInt64` and `Quo` keep a non-zero precision of the receiver and
round their exact result to it.  The exponent of a `big.Float` is a 32-bit
integer, so no value of this program overflows or underflows.

A finite value is kept as sign, integer mantissa and binary exponent:
`(-1)^neg * mant * 2^exp`, with `mant = 0` (and `exp = 0`) for zero and
`2^52 ≤ mant < 2^53` otherwise. -/

structure BigFloat where
  neg : Bool
  mant : Nat
  exp : Int
  deriving DecidableEq, Repr

/-- Number of binary digits of `n`, `fuel` bounding their number. -/
def bitLenAux : Nat → Nat → Nat
  | 0, _ => 0
  | fuel + 1, n => if n = 0 then 0 else bitLenAux fuel (n / 2) + 1

/-- The method `BitLen` of a natural number. -/
def bitLen (n : Nat) : Nat := bitLenAux n n

/-- Rounding of the positive rational `num / den` to 53 mantissa bits, to
nearest, ties to even (`big.ToNearestEven`), with sign `neg`. -/
def roundToNearestEven (neg : Bool) (num den : Nat) : BigFloat :=
  if num = 0 then ⟨neg, 0, 0⟩
  else
    -- first guess of the exponent: the quotient scaled by `2^(-e0)` lies in `(2^52, 2^54)`
    let e0 : Int := (bitLen num : Int) - (bitLen den : Int) - 53
    let q0 := (num * 2 ^ (-e0).toNat) / (den * 2 ^ e0.toNat)
    let e : Int := if q0 < 2 ^ 53 then e0 else e0 + 1
    let n := num * 2 ^ (-e).toNat
    let d := den * 2 ^ e.toNat
    -- truncated mantissa, then the rounding decision on the remainder
    let q := n / d
    let r := n % d
    let inc : Bool := decide (2 * r > d) || (decide (2 * r = d) && decide (q % 2 = 1))
    let m := if inc then q + 1 else q
    if m = 2 ^ 53 then ⟨neg, 2 ^ 52, e + 1⟩ else ⟨neg, m, e⟩

namespace BigFloat

/-- The call `big.NewFloat(0.0).SetInt(x)`: `x` rounded to precision 53. -/
def SetInt (x : Int) : BigFloat :=
  if x = 0 then ⟨false, 0, 0⟩ else roundToNearestEven (decide (x < 0)) x.natAbs 1

/-- The call `big.NewFloat(0.0).SetInt64(x)` for a non-negative `x`. -/
def SetInt64 (x : Nat) : BigFloat := SetInt (x : Int)

/-- The call `z.Quo(x, y)` for a receiver `z` of precision 53 and a non-zero
`y`: the exact quotient rounded to precision 53. -/
def Quo (x y : BigFloat) : BigFloat :=
  if x.mant = 0 then ⟨x.neg != y.neg, 0, 0⟩
  else
    roundToNearestEven (x.neg != y.neg)
      (x.mant * 2 ^ x.exp.toNat * 2 ^ (-y.exp).toNat)
      (y.mant * 2 ^ y.exp.toNat * 2 ^ (-x.exp).toNat)

end BigFloat

/-! ### Decimal conversion (`decimal.go`, `ftoa.go`)

`Text('f', -1)` converts the value to an exact multi-precision decimal, cuts
it with `roundShortest` to the fewest digits that still identify the value
among the numbers of precision 53, and lays the digits out with `fmtF`. -/

/-- A multi-precision decimal: `0.d₁d₂…dₙ * 10^exp` with digits `mant`, most
significant first, no trailing zeros. -/
structure decimal where
  mant : List Nat
  exp : Int
  deriving DecidableEq, Repr

/-- Decimal digits of `n`, most significant first, put in front of `acc`;
`fuel` bounds the number of digits. -/
def utoaAux : Nat → Nat → List Nat → List Nat
  | 0, _, acc => acc
  | fuel + 1, n, acc =>
    if n < 10 then n :: acc else utoaAux fuel (n / 10) (n % 10 :: acc)

/-- The call `m.utoa(10)`, as digit values. -/
def utoa (n : Nat) : List Nat := utoaAux (n + 1) n []

/-- Drop the zeros at the end of a digit list. -/
def trimZeros (ds : List Nat) : List Nat :=
  (ds.reverse.dropWhile (fun d => d == 0)).reverse

namespace decimal

/-- The call `x.init(m, shift)`: the exact decimal representation of
`m * 2^shift`.  For a negative shift `m * 2^shift = m * 5^(-shift) / 10^(-shift)`. -/
def init (m : Nat) (shift : Int) : decimal :=
  if m = 0 then ⟨[], 0⟩
  else
    let k := (-shift).toNat
    let s := utoa (m * 2 ^ shift.toNat * 5 ^ k)
    ⟨trimZeros s, (s.length : Int) - (k : Int)⟩

/-- The method `at`: the i-th mantissa digit, `0` outside the mantissa. -/
def digitAt (d : decimal) (i : Nat) : Nat := d.mant.getD i 0

/-- The function `trim`. -/
def trim (d : decimal) : decimal :=
  let m := trimZeros d.mant
  ⟨m, if m.length = 0 then 0 else d.exp⟩

/-- The function `shouldRoundUp(x, n)`, for `n < len(x.mant)`. -/
def shouldRoundUp (d : decimal) (n : Nat) : Bool :=
  if d.digitAt n = 5 ∧ n + 1 = d.mant.length then
    decide (n > 0) && decide (d.digitAt (n - 1) % 2 ≠ 0)
  else decide (d.digitAt n ≥ 5)

/-- The loop of `roundUp` that finds the first digit below 9, going left
from position `n`. -/
def skipNines (ds : List Nat) : Nat → Nat
  | 0 => 0
  | n + 1 => if ds.getD n 0 ≥ 9 then skipNines ds n else n + 1

/-- The method `roundUp(n)`. -/
def roundUp (d : decimal) (n : Nat) : decimal :=
  if n ≥ d.mant.length then d
  else
    let n := skipNines d.mant n
    if n = 0 then ⟨[1], d.exp + 1⟩
    else ⟨(d.mant.take n).set (n - 1) (d.mant.getD (n - 1) 0 + 1), d.exp⟩

/-- The method `roundDown(n)`. -/
def roundDown (d : decimal) (n : Nat) : decimal :=
  if n ≥ d.mant.length then d else trim ⟨d.mant.take n, d.exp⟩

/-- The method `round(n)`. -/
def round (d : decimal) (n : Nat) : decimal :=
  if n ≥ d.mant.length then d
  else if shouldRoundUp d n then roundUp d n else roundDown d n

end decimal

/-- The digit loop of `roundShortest`, from index `i` on, `fuel` digits of
`d` being left to visit. -/
def roundShortestLoop (d lower upper : decimal) (inclusive : Bool) : Nat → Nat → decimal
  | 0, _ => d
  | fuel + 1, i =>
    let m := d.digitAt i
    let l := lower.digitAt i
    let u := upper.digitAt i
    let okdown : Bool := decide (l ≠ m) || (inclusive && decide (i + 1 = lower.mant.length))
    let okup : Bool :=
      decide (m ≠ u) && (inclusive || decide (m + 1 < u) || decide (i + 1 < upper.mant.length))
    if okdown && okup then d.round (i + 1)
    else if okdown then d.roundDown (i + 1)
    else if okup then d.roundUp (i + 1)
    else roundShortestLoop d lower upper inclusive fuel (i + 1)

/-- The function `roundShortest(d, x)`: the shortest decimal that rounds back
to `x` at precision 53.  The mantissa extended by one bit has its last bit
worth half a unit in the last place of `x`. -/
def roundShortest (d : decimal) (x : BigFloat) : decimal :=
  if d.mant.length = 0 then d
  else
    let mant := 2 * x.mant
    let exp := x.exp - 1
    let lower := decimal.init (mant - 1) exp
    let upper := decimal.init (mant + 1) exp
    let inclusive : Bool := decide (x.mant % 2 = 0)
    roundShortestLoop d lower upper inclusive d.mant.length 0

/-- The character of a decimal digit. -/
def digitChar (d : Nat) : Char := Char.ofNat (48 + d)

/-- The function `fmtF(buf, prec, d)`: the characters `ddddddd.ddddd`. -/
def fmtF (prec : Nat) (d : decimal) : List Char :=
  let intPart : List Char :=
    if d.exp > 0 then
      let m := min d.mant.length d.exp.toNat
      (d.mant.take m).map digitChar ++ List.replicate (d.exp.toNat - m) '0'
    else ['0']
  let frac : List Char :=
    if prec > 0 then
      '.' :: (List.range prec).map (fun (i : Nat) =>
        if d.exp + (i : Int) < 0 then '0' else digitChar (d.digitAt (d.exp + (i : Int)).toNat))
    else []
  intPart ++ frac

/-- The call `x.Text('f', -1)`: sign, then the shortest decimal that
identifies `x` at precision 53, in the form `ddd.ddd`. -/
def BigFloat.Text (x : BigFloat) : String :=
  let d0 := decimal.init x.mant x.exp
  let d := roundShortest d0 x
  let prec := ((d.mant.length : Int) - d.exp).toNat
  String.mk ((if x.neg then ['-'] else []) ++ fmtF prec d)

/-! ## Data model -/

/-- The fields of the consensus-layer envelope that the program reads:
`data.message.slot` and `data.message.body.execution_payload.block_number`. -/
structure beaconBlock where
  Slot : String
  Block_number : String
  deriving DecidableEq, Repr

/-- One entry of `syncDuties.Data`. -/
structure syncDuty where
  Pubkey : String
  deriving DecidableEq, Repr

structure BlockRewardResponse where
  Status : String
  Reward : String
  deriving DecidableEq, Repr

structure SyncDutiesResponse where
  Validators : List String
  deriving DecidableEq, Repr

structure ErrorResponse where
  Error : String
  deriving DecidableEq, Repr

/-- A transaction of an execution block; `Value` is a `*big.Int`. -/
structure Transaction where
  Value : Int
  deriving DecidableEq, Repr

/-- A receipt: `EffectiveGasPrice` is a `*big.Int`, `GasUsed` a `uint64`. -/
structure Receipt where
  EffectiveGasPrice : Int
  GasUsed : Nat
  deriving DecidableEq, Repr

/-- What the program reads of a `types.Block`.  The method `BaseFee()`
returns nil (`none`) for a block without a base fee, as pre-London blocks
are. -/
structure Block where
  Extra : List Nat
  Transactions : List Transaction
  BaseFee : Option Int
  GasUsed : Nat
  Hash : Nat
  deriving DecidableEq, Repr

/-- A Go `error` value; `none` is `nil`. -/
abbrev GoError := Option String

/-- What `http.DefaultClient.Do` gives back: an error, or a response with
its status code and its body as the JSON decoder reads it (`none` when the
body does not decode). -/
inductive HttpReply (α : Type) where
  | failed (err : String)
  | response (status : Nat) (body : Option α)
  deriving DecidableEq, Repr

/-- The answers of the two upstream sources, per request. -/
structure Upstream where
  /-- Whether `http.NewRequestWithContext` fails for the beacon block URL. -/
  newRequestFails : String → Bool
  /-- The reply to `GET /eth/v2/beacon/blocks/{slot}`. -/
  beaconBlocks : String → HttpReply beaconBlock
  /-- The error of `ethclient.Dial`. -/
  dial : GoError
  /-- The call `client.BlockByNumber`; `none` is an error. -/
  blockByNumber : Int → Option Block
  /-- The call `client.BlockReceipts` by block hash: both results. -/
  blockReceipts : Nat → List Receipt × GoError
  /-- The reply to `GET /eth/v1/beacon/states/{slot}/sync_committees`. -/
  syncCommittees : String → HttpReply (List String)
  /-- The reply to `POST /eth/v1/validator/duties/sync/{epoch}` with the
  given validator indices as body. -/
  dutiesSync : String → List String → HttpReply (List syncDuty)

/-- One item written to the `http.ResponseWriter`. -/
inductive Written where
  /-- The effect of `respondWithError`: `WriteHeader(code)`, then the body. -/
  | error (code : Nat) (body : ErrorResponse)
  | blockReward (body : BlockRewardResponse)
  | syncDuties (body : SyncDutiesResponse)
  deriving DecidableEq, Repr

/-- One call to an upstream source. -/
inductive Call where
  | beaconBlocks (slot : String)
  | dial
  | blockByNumber (number : Int)
  | blockReceipts (hash : Nat)
  | syncCommittees (slot : String)
  | dutiesSync (epoch : String) (indices : List String)
  deriving DecidableEq, Repr

/-- The observable course of one request: what was written to the response,
which upstream calls were issued, both in order, and whether the handler
panicked. -/
structure Conn where
  written : List Written
  calls : List Call
  panicked : Bool
  deriving DecidableEq, Repr

namespace Conn

def start : Conn := ⟨[], [], false⟩

def write (w : Conn) (x : Written) : Conn := { w with written := w.written ++ [x] }

def call (w : Conn) (c : Call) : Conn := { w with calls := w.calls ++ [c] }

def panic (w : Conn) : Conn := { w with panicked := true }

/-- The status code of the HTTP response: the first `WriteHeader` counts,
and a body written before any `WriteHeader` sends 200. -/
def statusCode (w : Conn) : Option Nat :=
  match w.written with
  | [] => none
  | Written.error code _ :: _ => some code
  | _ :: _ => some StatusOK

end Conn

/-- Whether a call goes to the execution-layer source. -/
def Call.isExecutionLayer : Call → Bool
  | Call.dial => true
  | Call.blockByNumber _ => true
  | Call.blockReceipts _ => true
  | _ => false

/-- Indexing of a Go slice, `none` standing for the out-of-range panic. -/
def sliceIndex {α : Type} (xs : List α) (i : Int) : Option α :=
  if i < 0 then none else xs.get? i.toNat

/-! ## The handlers -/

def respondWithError (w : Conn) (code : Nat) (message : String) : Conn :=
  w.write (Written.error code ⟨message⟩)

def getBeaconBlock (up : Upstream) (w : Conn) (slot : String) : Conn × beaconBlock × GoError :=
  let blockReward : beaconBlock := ⟨"", ""⟩
  if up.newRequestFails slot then
    (respondWithError w StatusInternalServerError "getBeaconBlock: failed to create request",
      blockReward, some "NewRequestWithContext")
  else
    let w := w.call (Call.beaconBlocks slot)
    match up.beaconBlocks slot with
    | HttpReply.failed e =>
      (respondWithError w StatusInternalServerError "getBeaconBlock: failed to get beacon block",
        blockReward, some e)
    | HttpReply.response status body =>
      -- here the variable `err` holds nil
      let err : GoError := none
      if status ≠ StatusOK then
        (respondWithError w StatusNotFound "getBeaconBlock: failed to find beacon block",
          blockReward, err)
      else
        match body with
        | none =>
          (respondWithError w StatusInternalServerError "getBeaconBlock: failed to decode beacon block",
            blockReward, some "Decode")
        | some decoded => (w, decoded, none)

def getCurrentSlot (up : Upstream) (w : Conn) : Conn × Nat × GoError :=
  match getBeaconBlock up w "head" with
  | (w, _, some err) => (w, 0, some err)
  | (w, blockReward, none) =>
    match ParseUint blockReward.Slot with
    | (slot, some _) =>
      (respondWithError w StatusInternalServerError "getCurrentSlot: failed to parse slot", slot, none)
    | (slot, none) => (w, slot, none)

def getBlockReward (up : Upstream) (slot : String) : Conn :=
  let w := Conn.start
  match ParseUint slot with
  | (_, some _) =>
    respondWithError w StatusInternalServerError "getBlockReward: failed to parse slot"
  | (slotInt, none) =>
    match getCurrentSlot up w with
    | (w, _, some _) =>
      respondWithError w StatusInternalServerError "getBlockReward: failed to get current slot"
    | (w, currentSlot, none) =>
      if slotInt > currentSlot then
        respondWithError w StatusBadRequest "getBlockReward: invalid slot"
      else
        match getBeaconBlock up w slot with
        | (w, _, some _) => w
        | (w, blockReward, none) =>
          let blockNumber := blockReward.Block_number
          let w := w.call Call.dial
          match up.dial with
          | some _ =>
            respondWithError w StatusInternalServerError "getBlockReward: failed to connect to RPC"
          | none =>
            let blockNumberInt := (ParseInt blockNumber).1
            let w := w.call (Call.blockByNumber blockNumberInt)
            match up.blockByNumber blockNumberInt with
            | none =>
              respondWithError w StatusInternalServerError "getBlockReward: failed to get block"
            | some block =>
              let extra := block.Extra
              let isMEV := bytesContains extra buildMarker
              let transactions := block.Transactions
              let respond := fun (w : Conn) (reward : BigFloat) =>
                w.write (Written.blockReward
                  ⟨if isMEV then "mev" else "vanilla", reward.Text⟩)
              if isMEV then
                match sliceIndex transactions ((transactions.length : Int) - 1) with
                | none => w.panic
                | some lastTransaction => respond w (BigFloat.SetInt lastTransaction.Value)
              else
                let w := w.call (Call.blockReceipts block.Hash)
                let (recepits, err) := up.blockReceipts block.Hash
                let w :=
                  if err ≠ none then
                    respondWithError w StatusInternalServerError "getBlockReward: failed to get receipts"
                  else w
                let fees := recepits.foldl
                  (fun (fees : Int) receipt => fees + receipt.EffectiveGasPrice * (receipt.GasUsed : Int)) 0
                -- `burned.Mul(burned, block.BaseFee())` dereferences its argument
                match block.BaseFee with
                | none => w.panic
                | some baseFee =>
                  let burned := (block.GasUsed : Int) * baseFee
                  let fees := fees - burned
                  respond w (BigFloat.Quo (BigFloat.SetInt fees) (BigFloat.SetInt64 GWei))

/-- The loop of `getSyncDuties` that collects the public keys: `i` runs
from its start value up to `len(syncDuties.Data)`, `fuel` bounds the number
of rounds. -/
def collectPubkeys (data : List syncDuty) : Nat → Nat → List String → List String
  | 0, _, pubkeys => pubkeys
  | fuel + 1, i, pubkeys =>
    if i < data.length then
      match data.get? i with
      | some duty => collectPubkeys data fuel (i + 1) (pubkeys ++ [duty.Pubkey])
      | none => pubkeys
    else pubkeys

def getSyncDuties (up : Upstream) (slot : String) : Conn :=
  let w := Conn.start
  match ParseUint slot with
  | (_, some _) =>
    respondWithError w StatusInternalServerError "getSyncDuties: invalid slot in getSyncDuties"
  | (slotInt, none) =>
    match getCurrentSlot up w with
    | (w, _, some _) =>
      respondWithError w StatusInternalServerError "getSyncDuties: failed to get current slot"
    | (w, currentSlot, none) =>
      if slotInt > currentSlot then
        respondWithError w StatusBadRequest "getSyncDuties: invalid slot"
      else
        -- the error of `http.NewRequest` is dropped by the code; the URL is
        -- well-formed, `slot` being a string of decimal digits
        let w := w.call (Call.syncCommittees slot)
        match up.syncCommittees slot with
        | HttpReply.failed _ =>
          respondWithError w StatusInternalServerError "getSyncDuties: failed to create request"
        | HttpReply.response status body =>
          if status ≠ StatusOK then
            respondWithError w StatusNotFound "getSyncDuties: failed to find sync_committees"
          else
            match body with
            | none =>
              respondWithError w StatusInternalServerError "getSyncDuties: failed to decode syncCommittee"
            | some validators =>
              -- `json.Marshal` of a `[]string` does not fail
              let validatorIndices := validators
              let epochInt := slotInt / SLOTS_PER_EPOCH
              let epoch := FormatUint epochInt
              let w := w.call (Call.dutiesSync epoch validatorIndices)
              match up.dutiesSync epoch validatorIndices with
              | HttpReply.failed _ =>
                respondWithError w StatusInternalServerError "getSyncDuties: failed to execute request"
              | HttpReply.response _ none =>
                respondWithError w StatusInternalServerError "getSyncDuties: failed to decode syncDuties"
              | HttpReply.response _ (some data) =>
                let pubkeys := collectPubkeys data data.length 0 []
                w.write (Written.syncDuties ⟨pubkeys⟩)

/-! ## Notions used to state the properties -/

/-- The consensus-layer source resolves the current head to slot `h`: the
lookup of `head` answers 200 with an envelope whose slot field reads `h`. -/
def headResolves (up : Upstream) (h : Nat) : Prop :=
  ∃ envelope, up.newRequestFails "head" = false ∧
    up.beaconBlocks "head" = HttpReply.response StatusOK (some envelope) ∧
    ParseUint envelope.Slot = (h, none)

/-- Everything written to the response so far is an error response. -/
def Conn.onlyErrors (w : Conn) : Prop :=
  ∀ x ∈ w.written, ∃ code body, x = Written.error code body

/-- Every call issued so far is a beacon block lookup. -/
def Conn.onlyBeaconCalls (w : Conn) : Prop :=
  ∀ c ∈ w.calls, ∃ slot, c = Call.beaconBlocks slot

/-- The state of a request before any execution-layer step: only error
responses written, only beacon block lookups issued, no panic. -/
def Conn.quiet (w : Conn) : Prop :=
  w.onlyErrors ∧ w.onlyBeaconCalls ∧ w.panicked = false

/-- The request for `slot` fetches the execution block `block`: a
block-by-number call is issued and answered with `block`. -/
def fetchesBlock (up : Upstream) (slot : String) (block : Block) : Prop :=
  ∃ n, Call.blockByNumber n ∈ (getBlockReward up slot).calls ∧ up.blockByNumber n = some block

/-- The reward responses written to the response, in order. -/
def Conn.rewards (w : Conn) : List BlockRewardResponse :=
  w.written.filterMap (fun x =>
    match x with
    | Written.blockReward body => some body
    | _ => none)

/-- The connection state of the vanilla branch of `getBlockReward` after the
call `client.BlockReceipts` and its error check, `w` being the state before
`ethclient.Dial` and `n` the block number looked up. -/
def receiptsStage (up : Upstream) (w : Conn) (n : Int) (block : Block) : Conn :=
  if (up.blockReceipts block.Hash).2 ≠ none then
    respondWithError
      (((w.call Call.dial).call (Call.blockByNumber n)).call (Call.blockReceipts block.Hash))
      StatusInternalServerError "getBlockReward: failed to get receipts"
  else
    ((w.call Call.dial).call (Call.blockByNumber n)).call (Call.blockReceipts block.Hash)

/-- The last stage of `getBlockReward`, from `extra := block.Extra()` to the
end of the handler, as a function of the connection state `w` reached after
the call `client.BlockByNumber` for block number `n` answered `block`.
That the handler runs exactly this is `getBlockReward_course`. -/
def rewardStage (up : Upstream) (w : Conn) (n : Int) (block : Block) : Conn :=
  if bytesContains block.Extra buildMarker then
    match sliceIndex block.Transactions ((block.Transactions.length : Int) - 1) with
    | none => ((w.call Call.dial).call (Call.blockByNumber n)).panic
    | some lastTransaction =>
      ((w.call Call.dial).call (Call.blockByNumber n)).write
        (Written.blockReward ⟨"mev", (BigFloat.SetInt lastTransaction.Value).Text⟩)
  else
    match block.BaseFee with
    | none => (receiptsStage up w n block).panic
    | some baseFee =>
      (receiptsStage up w n block).write
        (Written.blockReward ⟨"vanilla",
          (BigFloat.Quo
            (BigFloat.SetInt
              ((up.blockReceipts block.Hash).1.foldl
                (fun (fees : Int) receipt =>
                  fees + receipt.EffectiveGasPrice * (receipt.GasUsed : Int)) 0
                - (block.GasUsed : Int) * baseFee))
            (BigFloat.SetInt64 GWei)).Text⟩)

/-- Value of a string of decimal digits read after the value `acc`. -/
def digitsValue : List Char → Nat → Option Nat
  | [], acc => some acc
  | c :: cs, acc =>
    if '0' ≤ c ∧ c ≤ '9' then digitsValue cs (acc * 10 + (c.toNat - '0'.toNat)) else none

/-- Reading of an unsigned numeral `ddd` or `ddd.ddd` as `(n, k)`, standing
for `n / 10^k`. -/
def unsignedValue (cs : List Char) : Option (Nat × Nat) :=
  let ip := cs.takeWhile (fun c => c != '.')
  let rest := cs.dropWhile (fun c => c != '.')
  match rest with
  | [] => if ip = [] then none else (digitsValue ip 0).map (fun n => (n, 0))
  | _ :: fp =>
    if ip = [] ∨ fp = [] then none
    else (digitsValue (ip ++ fp) 0).map (fun n => (n, fp.length))

/-- Reading of a decimal numeral, with an optional leading minus sign, as
`(n, k)`, standing for `n / 10^k`. -/
def decimalValue (s : String) : Option (Int × Nat) :=
  match s.data with
  | '-' :: cs => (unsignedValue cs).map (fun p => (-(p.1 : Int), p.2))
  | cs => (unsignedValue cs).map (fun p => ((p.1 : Int), p.2))

/-- The string `s` is a decimal numeral whose value is exactly `num / den`. -/
def denotes (s : String) (num : Int) (den : Nat) : Prop :=
  match decimalValue s with
  | some (n, k) => n * (den : Int) = num * (10 : Int) ^ k
  | none => False

instance (s : String) (num : Int) (den : Nat) : Decidable (denotes s num den) := by
  unfold denotes
  split <;> infer_instance

/-! ## Notions used in the proofs -/

/-- Value of a list of decimal digits, most significant first. -/
def msdValue (ds : List Nat) : Nat := ds.foldl (fun a d => a * 10 + d) 0

/-- The decimal of the integer `x` counted in units of `10^(-e)`. -/
def scaledDecimal (x e : Nat) : decimal :=
  ⟨trimZeros (utoa x), ((utoa x).length : Int) - (e : Int)⟩

/-- The decimal `r` has proper digits and stands for the number `q / 10^e`. -/
def decimal.standsFor (r : decimal) (q e : Nat) : Prop :=
  (∀ d ∈ r.mant, d < 10) ∧ r.mant ≠ [] ∧
    ∃ c : Nat, r.exp + (e : Int) = (r.mant.length : Int) + (c : Int) ∧ msdValue r.mant * 10 ^ c = q

/-- The test `okdown` of `roundShortest` at digit `i`. -/
def okdown (d lower : decimal) (inclusive : Bool) (i : Nat) : Bool :=
  decide (lower.digitAt i ≠ d.digitAt i) || (inclusive && decide (i + 1 = lower.mant.length))

/-- The test `okup` of `roundShortest` at digit `i`. -/
def okup (d upper : decimal) (inclusive : Bool) (i : Nat) : Bool :=
  decide (d.digitAt i ≠ upper.digitAt i) &&
    (inclusive || decide (d.digitAt i + 1 < upper.digitAt i) || decide (i + 1 < upper.mant.length))

/-! ## Sample upstream answers -/

/-- Upstream answers for one request: the head is at slot `head`, the beacon
block of slot `slot` wraps the execution block number `number`, that block is
`block`, and the receipts of `block` are answered by `receipts`.  Every other
lookup fails. -/
def sampleUpstream (head slot number : String) (block : Block)
    (receipts : List Receipt × GoError) : Upstream where
  newRequestFails := fun _ => false
  beaconBlocks := fun s =>
    if s = "head" then HttpReply.response 200 (some ⟨head, "0"⟩)
    else if s = slot then HttpReply.response 200 (some ⟨slot, number⟩)
    else HttpReply.response 404 none
  dial := none
  blockByNumber := fun n => if n = (ParseInt number).1 then some block else none
  blockReceipts := fun h => if h = block.Hash then receipts else ([], some "not found")
  syncCommittees := fun s =>
    if s = slot then HttpReply.response 200 (some ["11", "22", "33"])
    else HttpReply.response 404 none
  dutiesSync := fun _ indices =>
    HttpReply.response 200 (some (indices.map (fun i => ⟨"0x" ++ i⟩)))

/-- The bytes of `"builder-payload"`. -/
def builderPayload : List Nat :=
  [98, 117, 105, 108, 100, 101, 114, 45, 112, 97, 121, 108, 111, 97, 100]

/-- A builder block whose last transaction pays 32000000000000000 wei. -/
def builderBlock : Block :=
  { Extra := builderPayload
    Transactions := [⟨1000⟩, ⟨32000000000000000⟩]
    BaseFee := some 5
    GasUsed := 71000
    Hash := 1 }

/-- A builder block whose last transaction pays `2^53 + 1` wei. -/
def oddValueBlock : Block :=
  { Extra := buildMarker
    Transactions := [⟨9007199254740993⟩]
    BaseFee := some 5
    GasUsed := 21000
    Hash := 2 }

/-- A builder block whose last transaction pays 4200000000000000 wei. -/
def smallValueBlock : Block :=
  { Extra := builderPayload
    Transactions := [⟨32000000000000000⟩, ⟨4200000000000000⟩]
    BaseFee := some 5
    GasUsed := 42000
    Hash := 6 }

/-- A builder block without any transaction. -/
def emptyBuilderBlock : Block :=
  { Extra := buildMarker
    Transactions := []
    BaseFee := some 5
    GasUsed := 0
    Hash := 3 }

/-- A block with empty extra-data, base fee 5 and 71000 gas used. -/
def plainBlock : Block :=
  { Extra := []
    Transactions := [⟨0⟩, ⟨0⟩]
    BaseFee := some 5
    GasUsed := 71000
    Hash := 4 }

/-- The two receipts `{price 10, gas 21000}` and `{price 20, gas 50000}`. -/
def plainReceipts : List Receipt := [⟨10, 21000⟩, ⟨20, 50000⟩]

/-- One receipt of 123457 gas at 1000000000001 wei per gas. -/
def largeReceipts : List Receipt := [⟨1000000000001, 123457⟩]

/-- A block with empty extra-data, base fee 7 and 123457 gas used. -/
def largeFeeBlock : Block :=
  { Extra := []
    Transactions := [⟨0⟩]
    BaseFee := some 7
    GasUsed := 123457
    Hash := 5 }

/-- A block with empty extra-data and no base fee, as the blocks before the
London fork are: `block.BaseFee()` is nil. -/
def preLondonBlock : Block :=
  { Extra := []
    Transactions := [⟨0⟩]
    BaseFee := none
    GasUsed := 21000
    Hash := 6 }

/-- Upstream answers where the head is at slot 200 and the consensus-layer
source has no block for any other slot (status 404), while the execution-layer
source knows block 0. -/
def missingSlotUpstream : Upstream where
  newRequestFails := fun _ => false
  beaconBlocks := fun s =>
    if s = "head" then HttpReply.response 200 (some ⟨"200", "0"⟩)
    else HttpReply.response 404 none
  dial := none
  blockByNumber := fun n => if n = 0 then some plainBlock else none
  blockReceipts := fun _ => (plainReceipts, none)
  syncCommittees := fun _ => HttpReply.response 404 none
  dutiesSync := fun _ _ => HttpReply.failed "unreachable"

/-! ## Helper lemmas -/

theorem respondWithError_written (w : Conn) (code : Nat) (message : String) :
    (respondWithError w code message).written = w.written ++ [Written.error code ⟨message⟩] := rfl

theorem respondWithError_calls (w : Conn) (code : Nat) (message : String) :
    (respondWithError w code message).calls = w.calls := rfl

theorem respondWithError_panicked (w : Conn) (code : Nat) (message : String) :
    (respondWithError w code message).panicked = w.panicked := rfl

theorem getCurrentSlot_of_headResolves (up : Upstream) (w : Conn) (h : Nat)
    (hh : headResolves up h) :
    getCurrentSlot up w = (w.call (Call.beaconBlocks "head"), h, none) := by
  obtain ⟨envelope, h1, h2, h3⟩ := hh
  simp [getCurrentSlot, getBeaconBlock, h1, h2, h3]

theorem collectPubkeys_eq (data : List syncDuty) :
    ∀ (fuel i : Nat) (pubkeys : List String), data.length ≤ i + fuel →
      collectPubkeys data fuel i pubkeys = pubkeys ++ (data.map syncDuty.Pubkey).drop i := by
  intro fuel
  induction fuel with
  | zero =>
    intro i pubkeys hle
    have hdrop : (data.map syncDuty.Pubkey).drop i = [] :=
      List.drop_eq_nil_of_le (by simpa using hle)
    simp [collectPubkeys, hdrop]
  | succ fuel ih =>
    intro i pubkeys hle
    unfold collectPubkeys
    by_cases hi : i < data.length
    · have hget : data.get? i = some (data.get ⟨i, hi⟩) := List.get?_eq_get hi
      have hi2 : i < (data.map syncDuty.Pubkey).length := by simpa using hi
      have hdrop : (data.map syncDuty.Pubkey).drop i =
          (data.get ⟨i, hi⟩).Pubkey :: (data.map syncDuty.Pubkey).drop (i + 1) := by
        rw [List.drop_eq_getElem_cons hi2]
        simp
      simp only [hi, if_true, hget]
      rw [ih (i + 1) _ (by omega), hdrop]
      simp
    · have hdrop : (data.map syncDuty.Pubkey).drop i = [] :=
        List.drop_eq_nil_of_le (by simp; omega)
      simp [hi, hdrop]

theorem quiet_start : Conn.start.quiet := by
  simp [Conn.quiet, Conn.onlyErrors, Conn.onlyBeaconCalls, Conn.start]

theorem quiet_respondWithError (w : Conn) (code : Nat) (message : String) (hw : w.quiet) :
    (respondWithError w code message).quiet := by
  obtain ⟨h1, h2, h3⟩ := hw
  refine ⟨?_, h2, h3⟩
  intro x hx
  rw [respondWithError_written, List.mem_append] at hx
  rcases hx with hx | hx
  · exact h1 x hx
  · exact ⟨code, ⟨message⟩, by simpa using hx⟩

theorem quiet_call_beaconBlocks (w : Conn) (slot : String) (hw : w.quiet) :
    (w.call (Call.beaconBlocks slot)).quiet := by
  obtain ⟨h1, h2, h3⟩ := hw
  refine ⟨h1, ?_, h3⟩
  intro c hc
  simp only [Conn.call, List.mem_append, List.mem_singleton] at hc
  rcases hc with hc | hc
  · exact h2 c hc
  · exact ⟨slot, hc⟩

theorem getBeaconBlock_quiet (up : Upstream) (w : Conn) (slot : String) (hw : w.quiet) :
    (getBeaconBlock up w slot).1.quiet := by
  unfold getBeaconBlock
  by_cases hn : up.newRequestFails slot = true
  · simpa [hn] using quiet_respondWithError w _ _ hw
  · have hq := quiet_call_beaconBlocks w slot hw
    simp only [hn, Bool.false_eq_true, if_false]
    cases up.beaconBlocks slot with
    | failed e => exact quiet_respondWithError _ _ _ hq
    | response status body =>
      by_cases hst : status = StatusOK
      · cases body with
        | none => simpa [hst] using quiet_respondWithError _ _ _ hq
        | some decoded => simpa [hst] using hq
      · simpa [hst] using quiet_respondWithError _ _ _ hq

theorem getCurrentSlot_quiet (up : Upstream) (w : Conn) (hw : w.quiet) :
    (getCurrentSlot up w).1.quiet := by
  unfold getCurrentSlot
  have hq := getBeaconBlock_quiet up w "head" hw
  rcases hb : getBeaconBlock up w "head" with ⟨w1, envelope, e⟩
  rw [hb] at hq
  cases e with
  | some err => exact hq
  | none =>
    rcases hp : ParseUint envelope.Slot with ⟨v, e⟩
    cases e with
    | some err => simpa [hp] using quiet_respondWithError _ _ _ hq
    | none => simpa [hp] using hq

theorem quiet_no_reward (w : Conn) (hw : w.quiet) (body : BlockRewardResponse) :
    Written.blockReward body ∉ w.written := by
  intro hmem
  obtain ⟨code, b, hx⟩ := hw.1 _ hmem
  cases hx

theorem quiet_no_blockByNumber (w : Conn) (hw : w.quiet) (n : Int) :
    Call.blockByNumber n ∉ w.calls := by
  intro hmem
  obtain ⟨slot, hx⟩ := hw.2.1 _ hmem
  cases hx

theorem receiptsStage_calls (up : Upstream) (w : Conn) (n : Int) (block : Block) :
    (receiptsStage up w n block).calls =
      w.calls ++ [Call.dial] ++ [Call.blockByNumber n] ++ [Call.blockReceipts block.Hash] := by
  unfold receiptsStage
  split <;> rfl

theorem receiptsStage_panicked (up : Upstream) (w : Conn) (n : Int) (block : Block) :
    (receiptsStage up w n block).panicked = w.panicked := by
  unfold receiptsStage
  split <;> rfl

theorem receiptsStage_no_reward (up : Upstream) (w : Conn) (n : Int) (block : Block)
    (hw : w.quiet) (body : BlockRewardResponse) :
    Written.blockReward body ∉ (receiptsStage up w n block).written := by
  have hno := quiet_no_reward w hw body
  unfold receiptsStage
  split
  · intro hmem
    simp only [respondWithError, Conn.write, Conn.call, List.mem_append,
      List.mem_singleton] at hmem
    rcases hmem with hmem | hmem
    · exact hno hmem
    · cases hmem
  · exact hno

theorem getBlockReward_eq_rewardStage (up : Upstream) (slot : String) (slotInt currentSlot : Nat)
    (w1 w2 : Conn) (envelope : beaconBlock) (block : Block)
    (hp : ParseUint slot = (slotInt, none))
    (hc : getCurrentSlot up Conn.start = (w1, currentSlot, none))
    (hgt : ¬ slotInt > currentSlot)
    (hb : getBeaconBlock up w1 slot = (w2, envelope, none))
    (hdial : up.dial = none)
    (hblk : up.blockByNumber (ParseInt envelope.Block_number).1 = some block) :
    getBlockReward up slot = rewardStage up w2 (ParseInt envelope.Block_number).1 block := by
  unfold getBlockReward rewardStage receiptsStage
  simp only [hp, hc, hgt, if_false, hb, hdial, hblk]
  by_cases hmev : bytesContains block.Extra buildMarker = true
  · simp only [hmev, if_true]
  · simp only [hmev, Bool.false_eq_true, if_false]

/-- The course of `getBlockReward`: either the request ends before an
execution block is obtained, with nothing but error responses written, or
the block-by-number call for some `n` answers `block` and the rest of the
handler runs on it. -/
theorem getBlockReward_course (up : Upstream) (slot : String) :
    ((∀ body, Written.blockReward body ∉ (getBlockReward up slot).written) ∧
      (getBlockReward up slot).panicked = false ∧
      ∀ n, Call.blockByNumber n ∈ (getBlockReward up slot).calls → up.blockByNumber n = none) ∨
    ∃ (w : Conn) (n : Int) (block : Block),
      w.quiet ∧ up.blockByNumber n = some block ∧
      (∀ m, Call.blockByNumber m ∈ (getBlockReward up slot).calls → m = n) ∧
      getBlockReward up slot = rewardStage up w n block := by
  have leftOf : ∀ w : Conn, w.quiet → getBlockReward up slot = w →
      ((∀ body, Written.blockReward body ∉ (getBlockReward up slot).written) ∧
        (getBlockReward up slot).panicked = false ∧
        ∀ n, Call.blockByNumber n ∈ (getBlockReward up slot).calls →
          up.blockByNumber n = none) := by
    intro w hw heq
    rw [heq]
    exact ⟨quiet_no_reward w hw, hw.2.2, fun n hn => absurd hn (quiet_no_blockByNumber w hw n)⟩
  rcases hp : ParseUint slot with ⟨slotInt, e⟩
  cases e with
  | some err =>
    left
    have hrun : getBlockReward up slot =
        respondWithError Conn.start StatusInternalServerError
          "getBlockReward: failed to parse slot" := by
      simp [getBlockReward, hp]
    exact leftOf _ (quiet_respondWithError _ _ _ quiet_start) hrun
  | none =>
    have hq1 := getCurrentSlot_quiet up Conn.start quiet_start
    rcases hc : getCurrentSlot up Conn.start with ⟨w1, currentSlot, e1⟩
    rw [hc] at hq1
    cases e1 with
    | some err =>
      left
      have hrun : getBlockReward up slot =
          respondWithError w1 StatusInternalServerError
            "getBlockReward: failed to get current slot" := by
        simp [getBlockReward, hp, hc]
      exact leftOf _ (quiet_respondWithError _ _ _ hq1) hrun
    | none =>
      by_cases hgt : slotInt > currentSlot
      · left
        have hrun : getBlockReward up slot =
            respondWithError w1 StatusBadRequest "getBlockReward: invalid slot" := by
          simp [getBlockReward, hp, hc, hgt]
        exact leftOf _ (quiet_respondWithError _ _ _ hq1) hrun
      · have hq2 := getBeaconBlock_quiet up w1 slot hq1
        rcases hb : getBeaconBlock up w1 slot with ⟨w2, envelope, e2⟩
        rw [hb] at hq2
        cases e2 with
        | some err =>
          left
          have hrun : getBlockReward up slot = w2 := by
            simp [getBlockReward, hp, hc, hgt, hb]
          exact leftOf _ hq2 hrun
        | none =>
          cases hdial : up.dial with
          | some err =>
            left
            have hrun : getBlockReward up slot =
                respondWithError (w2.call Call.dial) StatusInternalServerError
                  "getBlockReward: failed to connect to RPC" := by
              simp [getBlockReward, hp, hc, hgt, hb, hdial]
            rw [hrun]
            refine ⟨?_, hq2.2.2, ?_⟩
            · intro body hmem
              rw [respondWithError_written, List.mem_append] at hmem
              rcases hmem with hmem | hmem
              · exact quiet_no_reward w2 hq2 body hmem
              · simp at hmem
            · intro n hn
              simp only [respondWithError_calls, Conn.call, List.mem_append,
                List.mem_singleton] at hn
              rcases hn with hn | hn
              · exact absurd hn (quiet_no_blockByNumber w2 hq2 n)
              · cases hn
          | none =>
            cases hblk : up.blockByNumber (ParseInt envelope.Block_number).1 with
            | none =>
              left
              have hrun : getBlockReward up slot =
                  respondWithError
                    ((w2.call Call.dial).call
                      (Call.blockByNumber (ParseInt envelope.Block_number).1))
                    StatusInternalServerError "getBlockReward: failed to get block" := by
                simp [getBlockReward, hp, hc, hgt, hb, hdial, hblk]
              rw [hrun]
              refine ⟨?_, hq2.2.2, ?_⟩
              · intro body hmem
                rw [respondWithError_written, List.mem_append] at hmem
                rcases hmem with hmem | hmem
                · exact quiet_no_reward w2 hq2 body hmem
                · simp at hmem
              · intro n hn
                simp only [respondWithError_calls, Conn.call, List.mem_append,
                  List.mem_singleton] at hn
                rcases hn with (hn | hn) | hn
                · exact absurd hn (quiet_no_blockByNumber w2 hq2 n)
                · cases hn
                · cases hn
                  exact hblk
            | some block =>
              right
              have hrun : getBlockReward up slot =
                  rewardStage up w2 (ParseInt envelope.Block_number).1 block :=
                getBlockReward_eq_rewardStage up slot slotInt currentSlot w1 w2 envelope block
                  hp hc hgt hb hdial hblk
              refine ⟨w2, (ParseInt envelope.Block_number).1, block, hq2, hblk, ?_, ?_⟩
              · intro m hm
                have hno := quiet_no_blockByNumber w2 hq2 m
                rw [hrun] at hm
                unfold rewardStage at hm
                by_cases hmev : bytesContains block.Extra buildMarker = true
                · simp only [hmev, if_true] at hm
                  cases hidx : sliceIndex block.Transactions
                      ((block.Transactions.length : Int) - 1) with
                  | none =>
                    simp only [hidx, Conn.panic, Conn.call, List.mem_append,
                      List.mem_singleton] at hm
                    rcases hm with (hm | hm) | hm
                    · exact absurd hm hno
                    · cases hm
                    · cases hm
                      rfl
                  | some lastTransaction =>
                    simp only [hidx, Conn.write, Conn.call, List.mem_append,
                      List.mem_singleton] at hm
                    rcases hm with (hm | hm) | hm
                    · exact absurd hm hno
                    · cases hm
                    · cases hm
                      rfl
                · simp only [hmev, Bool.false_eq_true, if_false] at hm
                  have hcalls := receiptsStage_calls up w2 (ParseInt envelope.Block_number).1 block
                  have hm2 : Call.blockByNumber m ∈
                      (receiptsStage up w2 (ParseInt envelope.Block_number).1 block).calls := by
                    cases hfee : block.BaseFee with
                    | none => simpa [hfee, Conn.panic] using hm
                    | some baseFee => simpa [hfee, Conn.write] using hm
                  rw [hcalls] at hm2
                  simp only [List.mem_append, List.mem_singleton] at hm2
                  rcases hm2 with ((hm2 | hm2) | hm2) | hm2
                  · exact absurd hm2 hno
                  · cases hm2
                  · cases hm2
                    rfl
                  · cases hm2
              · exact hrun

theorem rewardStage_of_fetchesBlock (up : Upstream) (slot : String) (block : Block)
    (hf : fetchesBlock up slot block) :
    ∃ (w : Conn) (n : Int), w.quiet ∧ getBlockReward up slot = rewardStage up w n block := by
  obtain ⟨m, hm, hlook⟩ := hf
  rcases getBlockReward_course up slot with ⟨_, _, hnone⟩ | ⟨w, n, block2, hq, hblk, huniq, hrun⟩
  · rw [hnone m hm] at hlook
    cases hlook
  · have hmn := huniq m hm
    subst hmn
    rw [hblk] at hlook
    cases hlook
    exact ⟨w, m, hq, hrun⟩

theorem hasPrefix_iff (sep : List Nat) :
    ∀ s : List Nat, hasPrefix s sep = true ↔ ∃ post, s = sep ++ post := by
  induction sep with
  | nil =>
    intro s
    cases s <;> simp [hasPrefix]
  | cons c sep ih =>
    intro s
    cases s with
    | nil => simp [hasPrefix]
    | cons b s =>
      simp only [hasPrefix, Bool.and_eq_true, beq_iff_eq, ih s, List.cons_append, List.cons.injEq]
      constructor
      · rintro ⟨hbc, post, hpost⟩
        exact ⟨post, hbc, hpost⟩
      · rintro ⟨post, hbc, hpost⟩
        exact ⟨hbc, post, hpost⟩

theorem bytesContains_iff (sep : List Nat) :
    ∀ s : List Nat, bytesContains s sep = true ↔ ∃ pre post, s = pre ++ sep ++ post := by
  intro s
  induction s with
  | nil =>
    simp only [bytesContains, hasPrefix_iff]
    constructor
    · rintro ⟨post, hpost⟩
      exact ⟨[], post, by simpa using hpost⟩
    · rintro ⟨pre, post, h⟩
      have h2 := h.symm
      simp only [List.append_eq_nil] at h2
      exact ⟨[], by simp [h2.1.2]⟩
  | cons b s ih =>
    simp only [bytesContains, Bool.or_eq_true, hasPrefix_iff, ih]
    constructor
    · rintro (⟨post, hpost⟩ | ⟨pre, post, hpost⟩)
      · exact ⟨[], post, by simpa using hpost⟩
      · exact ⟨b :: pre, post, by simp [hpost]⟩
    · rintro ⟨pre, post, h⟩
      cases pre with
      | nil => exact Or.inl ⟨post, by simpa using h⟩
      | cons p pre =>
        simp only [List.cons_append, List.cons.injEq] at h
        exact Or.inr ⟨pre, post, by simpa using h.2⟩

theorem getBlockReward_of_answers (up : Upstream) (slot : String) (s h : Nat)
    (envelope : beaconBlock) (block : Block)
    (hs : ParseUint slot = (s, none)) (hh : headResolves up h) (hle : s ≤ h)
    (hreq : up.newRequestFails slot = false)
    (henv : up.beaconBlocks slot = HttpReply.response StatusOK (some envelope))
    (hdial : up.dial = none)
    (hblk : up.blockByNumber (ParseInt envelope.Block_number).1 = some block) :
    getBlockReward up slot =
      rewardStage up ((Conn.start.call (Call.beaconBlocks "head")).call (Call.beaconBlocks slot))
        (ParseInt envelope.Block_number).1 block := by
  have hnot : ¬ (h < s) := by omega
  have hb : getBeaconBlock up (Conn.start.call (Call.beaconBlocks "head")) slot =
      ((Conn.start.call (Call.beaconBlocks "head")).call (Call.beaconBlocks slot),
        envelope, none) := by
    simp [getBeaconBlock, hreq, henv]
  exact getBlockReward_eq_rewardStage up slot s h _ _ envelope block hs
    (getCurrentSlot_of_headResolves up _ h hh) hnot hb hdial hblk

theorem sliceIndex_last {α : Type} (xs : List α) :
    sliceIndex xs ((xs.length : Int) - 1) = xs.getLast? := by
  cases xs with
  | nil => simp [sliceIndex]
  | cons x xs =>
    have hi : ((((x :: xs).length : Nat) : Int) - 1) = ((xs.length : Nat) : Int) := by
      simp
    rw [hi]
    simp only [sliceIndex, Int.toNat_ofNat]
    have hneg : ¬ (((xs.length : Nat) : Int) < 0) := by omega
    rw [if_neg hneg, List.getLast?_eq_getElem?]
    simp

theorem foldl_fees (receipts : List Receipt) :
    ∀ acc : Int,
      receipts.foldl
        (fun (fees : Int) receipt => fees + receipt.EffectiveGasPrice * (receipt.GasUsed : Int)) acc
      = acc + (receipts.map (fun r => r.EffectiveGasPrice * (r.GasUsed : Int))).sum := by
  induction receipts with
  | nil => intro acc; simp
  | cons r rs ih =>
    intro acc
    simp only [List.foldl_cons, List.map_cons, List.sum_cons, ih]
    ring

theorem quiet_rewards (w : Conn) (hw : w.quiet) : w.rewards = [] := by
  unfold Conn.rewards
  rw [List.filterMap_eq_nil_iff]
  intro x hx
  obtain ⟨code, body, hxe⟩ := hw.1 x hx
  rw [hxe]

theorem rewards_write_reward (w : Conn) (body : BlockRewardResponse) :
    (w.write (Written.blockReward body)).rewards = w.rewards ++ [body] := by
  simp [Conn.rewards, Conn.write, List.filterMap_append]

theorem rewards_respondWithError (w : Conn) (code : Nat) (message : String) :
    (respondWithError w code message).rewards = w.rewards := by
  simp [Conn.rewards, respondWithError, Conn.write, List.filterMap_append]

theorem rewards_call (w : Conn) (c : Call) : (w.call c).rewards = w.rewards := rfl

/-! ### Digits -/

theorem utoaAux_eq_digits :
    ∀ (fuel n : Nat) (acc : List Nat), n < fuel → 0 < n →
      utoaAux fuel n acc = (Nat.digits 10 n).reverse ++ acc := by
  intro fuel
  induction fuel with
  | zero => intro n acc h; omega
  | succ fuel ih =>
    intro n acc hlt hpos
    unfold utoaAux
    by_cases h10 : n < 10
    · rw [if_pos h10, Nat.digits_of_lt 10 n (by omega) h10]
      rfl
    · rw [if_neg h10, ih (n / 10) _ (by omega) (by omega)]
      rw [Nat.digits_def' (by decide : 1 < 10) hpos]
      simp

theorem utoa_eq_digits (n : Nat) (hn : 0 < n) : utoa n = (Nat.digits 10 n).reverse :=
  by simpa [utoa] using utoaAux_eq_digits (n + 1) n [] (by omega) hn

theorem getD_digits_ten : ∀ (i n : Nat), (Nat.digits 10 n).getD i 0 = n / 10 ^ i % 10 := by
  intro i
  induction i with
  | zero =>
    intro n
    rcases Nat.eq_zero_or_pos n with h0 | hpos
    · simp [h0]
    · rw [Nat.digits_def' (by decide : 1 < 10) hpos]
      simp
  | succ i ih =>
    intro n
    rcases Nat.eq_zero_or_pos n with h0 | hpos
    · simp [h0]
    · rw [Nat.digits_def' (by decide : 1 < 10) hpos]
      simp only [List.getD_cons_succ, ih]
      rw [Nat.div_div_eq_div_mul, pow_succ']

theorem length_digits_ten (n len : Nat) (hlo : 10 ^ len ≤ 10 * n) (hhi : n < 10 ^ len) :
    (Nat.digits 10 n).length = len := by
  have hn : n ≠ 0 := by
    intro h0
    rw [h0] at hlo
    have := Nat.pos_pow_of_pos len (by decide : 0 < 10)
    omega
  have h1 := Nat.lt_base_pow_length_digits (b := 10) (m := n) (by decide)
  have h2 := Nat.base_pow_length_digits_le 10 n (by decide) hn
  have h3 : 10 ^ len < 10 ^ ((Nat.digits 10 n).length + 1) := by
    rw [pow_succ]
    omega
  have h4 : 10 ^ (Nat.digits 10 n).length < 10 ^ (len + 1) := by
    rw [pow_succ]
    omega
  have h5 := (Nat.pow_lt_pow_iff_right (by decide : 1 < 10)).1 h3
  have h6 := (Nat.pow_lt_pow_iff_right (by decide : 1 < 10)).1 h4
  omega

/-- The digit of index `j`, counted from the most significant one, of a
number with `len` digits. -/
theorem getD_utoa (n len j : Nat) (hlo : 10 ^ len ≤ 10 * n) (hhi : n < 10 ^ len)
    (hj : j < len) : (utoa n).getD j 0 = n / 10 ^ (len - 1 - j) % 10 := by
  have hn : 0 < n := by
    rcases Nat.eq_zero_or_pos n with h0 | hpos
    · rw [h0] at hlo
      have := Nat.pos_pow_of_pos len (by decide : 0 < 10)
      omega
    · exact hpos
  have hlen := length_digits_ten n len hlo hhi
  rw [utoa_eq_digits n hn, ← getD_digits_ten]
  rw [List.getD_eq_getElem?_getD, List.getD_eq_getElem?_getD, List.getElem?_reverse (by omega), hlen]

theorem length_utoa (n len : Nat) (hlo : 10 ^ len ≤ 10 * n) (hhi : n < 10 ^ len) :
    (utoa n).length = len := by
  have hn : 0 < n := by
    rcases Nat.eq_zero_or_pos n with h0 | hpos
    · rw [h0] at hlo
      have := Nat.pos_pow_of_pos len (by decide : 0 < 10)
      omega
    · exact hpos
  rw [utoa_eq_digits n hn, List.length_reverse]
  exact length_digits_ten n len hlo hhi

/-! ### Trailing zeros -/

theorem trimZeros_concat (s : List Nat) (x : Nat) :
    trimZeros (s ++ [x]) = if x = 0 then trimZeros s else s ++ [x] := by
  have h := List.rdropWhile_concat (p := fun d : Nat => d == 0) (l := s) x
  simp only [beq_iff_eq] at h
  exact h

theorem trimZeros_append_zeros (s : List Nat) :
    ∀ k : Nat, trimZeros (s ++ List.replicate k 0) = trimZeros s := by
  intro k
  induction k with
  | zero => simp
  | succ k ih =>
    rw [List.replicate_succ', ← List.append_assoc, trimZeros_concat]
    simpa using ih

theorem trimZeros_decomp (s : List Nat) : ∃ z, s = trimZeros s ++ List.replicate z 0 := by
  induction s using List.reverseRecOn with
  | nil => exact ⟨0, by simp [trimZeros]⟩
  | append_singleton s x ih =>
    obtain ⟨z, hz⟩ := ih
    rw [trimZeros_concat]
    by_cases hx : x = 0
    · refine ⟨z + 1, ?_⟩
      rw [if_pos hx, hx, List.replicate_succ', ← List.append_assoc, ← hz]
    · exact ⟨0, by simp [hx]⟩

theorem trimZeros_last_ne_zero (s : List Nat) (h : 0 < (trimZeros s).length) :
    (trimZeros s).getD ((trimZeros s).length - 1) 0 ≠ 0 := by
  have hne : s.rdropWhile (fun d : Nat => d == 0) ≠ [] := by
    intro hnil
    have : trimZeros s = [] := hnil
    rw [this] at h
    simp at h
  have hlast := List.rdropWhile_last_not (p := fun d : Nat => d == 0) (l := s) hne
  simp only [beq_iff_eq] at hlast
  intro h0
  apply hlast
  rw [List.getLast_eq_getElem]
  have hlt : (trimZeros s).length - 1 < (trimZeros s).length := by omega
  rw [List.getD_eq_getElem _ _ hlt] at h0
  exact h0

/-! ### Integers below `2^53` are kept exactly -/

theorem bitLenAux_spec :
    ∀ (fuel n : Nat), n ≤ fuel → 0 < n →
      2 ^ bitLenAux fuel n ≤ 2 * n ∧ n < 2 ^ bitLenAux fuel n := by
  intro fuel
  induction fuel with
  | zero => intro n h1 h2; omega
  | succ fuel ih =>
    intro n hle hpos
    unfold bitLenAux
    rw [if_neg (by omega)]
    rcases Nat.eq_zero_or_pos (n / 2) with h0 | hhalf
    · have hn1 : n = 1 := by omega
      subst hn1
      cases fuel <;> simp [bitLenAux]
    · obtain ⟨h1, h2⟩ := ih (n / 2) (by omega) hhalf
      rw [pow_succ]
      omega

theorem bitLen_spec (n : Nat) (hn : 0 < n) : 2 ^ bitLen n ≤ 2 * n ∧ n < 2 ^ bitLen n :=
  bitLenAux_spec n n (le_refl n) hn

theorem roundToNearestEven_small (neg : Bool) (v : Nat) (hv : 0 < v) (hlt : v < 2 ^ 53) :
    ∃ k : Nat, v * 2 ^ k < 2 ^ 53 ∧
      roundToNearestEven neg v 1 = ⟨neg, v * 2 ^ k, -(k : Int)⟩ := by
  obtain ⟨h1, h2⟩ := bitLen_spec v hv
  have hb53 : bitLen v < 54 := by
    apply (Nat.pow_lt_pow_iff_right (by decide : 1 < 2)).1
    have : (2 : Nat) ^ 54 = 2 * 2 ^ 53 := by norm_num
    omega
  obtain ⟨k, hk⟩ : ∃ k, bitLen v + k = 53 := ⟨53 - bitLen v, by omega⟩
  have hpow : 2 ^ bitLen v * 2 ^ k = 2 ^ 53 := by rw [← pow_add, hk]
  have hlo : 2 ^ 53 ≤ v * 2 ^ (k + 1) := by
    have : 2 ^ bitLen v * 2 ^ k ≤ 2 * v * 2 ^ k := Nat.mul_le_mul_right _ h1
    rw [pow_succ]
    calc 2 ^ 53 = 2 ^ bitLen v * 2 ^ k := hpow.symm
      _ ≤ 2 * v * 2 ^ k := this
      _ = v * (2 ^ k * 2) := by ring
  have hhi : v * 2 ^ k < 2 ^ 53 := by
    rw [← hpow]
    exact Nat.mul_lt_mul_of_pos_right h2 (Nat.pos_pow_of_pos k (by decide))
  refine ⟨k, hhi, ?_⟩
  have hone : bitLen 1 = 1 := by decide
  have he0 : ((bitLen v : Nat) : Int) - ((1 : Nat) : Int) - 53 = -((k : Int) + 1) := by omega
  have hq0 : ¬ (v * 2 ^ (k + 1) < 2 ^ 53) := by omega
  have hne : v * 2 ^ k ≠ 2 ^ 53 := by omega
  have t1 : (-(-((k : Int) + 1))).toNat = k + 1 := by omega
  have t2 : (-((k : Int) + 1)).toNat = 0 := by omega
  have t3 : (-((k : Int) + 1) + 1) = -(k : Int) := by omega
  have t4 : (-(-(k : Int))).toNat = k := by omega
  have t5 : (-(k : Int)).toNat = 0 := by omega
  unfold roundToNearestEven
  rw [if_neg (by omega)]
  simp only [hone, he0, t1, t2, pow_zero, mul_one, Nat.div_one, hq0, if_false, t3, t4, t5,
    Nat.mod_one, mul_zero]
  have hhi2 : v * 2 ^ k < 9007199254740992 := by
    have h := hhi
    norm_num at h
    exact h
  have hne2 : ¬ v * 2 ^ k = 9007199254740992 := by omega
  simp [hne2]

theorem SetInt_small (v : Nat) (hv : 0 < v) (hlt : v < 2 ^ 53) :
    ∃ k : Nat, v * 2 ^ k < 2 ^ 53 ∧
      BigFloat.SetInt (v : Int) = ⟨false, v * 2 ^ k, -(k : Int)⟩ := by
  obtain ⟨k, hk, hr⟩ := roundToNearestEven_small (decide ((v : Int) < 0)) v hv hlt
  refine ⟨k, hk, ?_⟩
  unfold BigFloat.SetInt
  rw [if_neg (by omega)]
  have hneg : decide ((v : Int) < 0) = false := by
    simp
  simpa [hneg] using hr

/-! ### The digits of the two bounds of `roundShortest` -/

theorem utoa_mul_pow_ten (v k : Nat) (hv : 0 < v) :
    utoa (v * 10 ^ k) = utoa v ++ List.replicate k 0 := by
  have hpos : 0 < v * 10 ^ k := Nat.mul_pos hv (Nat.pos_pow_of_pos k (by decide))
  rw [utoa_eq_digits _ hpos, utoa_eq_digits _ hv, mul_comm,
    Nat.digits_base_pow_mul (by decide : 1 < 10) hv]
  simp

theorem five_pow_lt_ten_pow (k : Nat) : 5 ^ (k + 1) < 10 ^ (k + 1) :=
  Nat.pow_lt_pow_left (by decide) (by omega)

theorem five_pow_mod_ten (k : Nat) : 5 ^ (k + 1) % 10 = 5 := by
  induction k with
  | zero => rfl
  | succ k ih =>
    rw [pow_succ, Nat.mul_mod, ih]

theorem utoa_last_ne_zero (n : Nat) (hn : n % 10 ≠ 0) : trimZeros (utoa n) = utoa n := by
  have hpos : 0 < n := by
    rcases Nat.eq_zero_or_pos n with h0 | hpos
    · rw [h0] at hn
      simp at hn
    · exact hpos
  rw [utoa_eq_digits n hpos, Nat.digits_def' (by decide : 1 < 10) hpos, List.reverse_cons,
    trimZeros_concat, if_neg hn]

/-- The leading digits of `v * 10^e + f`, for `f < 10^e`, are those of `v`. -/
theorem getD_utoa_upper (v e f n j up : Nat) (hlo : 10 ^ n ≤ 10 * v) (hhi : v < 10 ^ n)
    (hf : f < 10 ^ e) (hup : up = v * 10 ^ e + f) (hj : j < n) :
    (utoa up).getD j 0 = v / 10 ^ (n - 1 - j) % 10 := by
  have hBpos : 0 < 10 ^ e := Nat.pos_pow_of_pos _ (by decide)
  have h1 : 10 ^ (n + e) ≤ 10 * up := by
    rw [pow_add, hup]
    calc 10 ^ n * 10 ^ e ≤ 10 * v * 10 ^ e := Nat.mul_le_mul_right _ hlo
      _ = 10 * (v * 10 ^ e) := by ring
      _ ≤ 10 * (v * 10 ^ e + f) := Nat.mul_le_mul_left _ (Nat.le_add_right _ _)
  have h2 : up < 10 ^ (n + e) := by
    rw [pow_add, hup]
    calc v * 10 ^ e + f < v * 10 ^ e + 10 ^ e := by omega
      _ = (v + 1) * 10 ^ e := by ring
      _ ≤ 10 ^ n * 10 ^ e := Nat.mul_le_mul_right _ hhi
  rw [getD_utoa up (n + e) j h1 h2 (by omega)]
  have hexp : n + e - 1 - j = e + (n - 1 - j) := by omega
  rw [hexp, pow_add, ← Nat.div_div_eq_div_mul]
  have hdiv : up / 10 ^ e = v := by
    rw [hup, Nat.add_comm, Nat.add_mul_div_right _ _ hBpos, Nat.div_eq_of_lt hf, Nat.zero_add]
  rw [hdiv]

/-- The leading digits of `v * 10^e - f`, for `0 < f < 10^e`, are those of
`v`, down to the last digit of `v` that is not zero, excluded. -/
theorem getD_utoa_lower (v e f n j lo : Nat) (hlo : 10 ^ n ≤ 10 * v) (hhi : v < 10 ^ n)
    (hf : f < 10 ^ e) (hfpos : 0 < f) (hlow : lo + f = v * 10 ^ e) (hj : j < n)
    (hdvd : ¬ 10 ^ (n - 1 - j) ∣ v) :
    (utoa lo).getD j 0 = v / 10 ^ (n - 1 - j) % 10 ∧ (utoa lo).length = n + e := by
  have hBpos : 0 < 10 ^ e := Nat.pos_pow_of_pos _ (by decide)
  have hvpos : 0 < v := by
    rcases Nat.eq_zero_or_pos v with h0 | hpos
    · exact absurd (h0 ▸ dvd_zero _) hdvd
    · exact hpos
  have hepos : 0 < e := by
    rcases Nat.eq_zero_or_pos e with h0 | hpos
    · rw [h0] at hf
      simp at hf
      omega
    · exact hpos
  -- `v` is not the power `10^(n-1)`
  have hnpos : 0 < n := by omega
  have hvne : v ≠ 10 ^ (n - 1) := by
    intro heq
    apply hdvd
    rw [heq]
    exact pow_dvd_pow 10 (by omega)
  have hpow : 10 ^ n = 10 * 10 ^ (n - 1) := by
    rw [← pow_succ']
    congr 1
    omega
  have hv1 : 10 ^ n ≤ 10 * (v - 1) := by omega
  -- `lo = (v - 1) * 10^e + (10^e - f)`
  have hsplit : (v - 1) * 10 ^ e + 10 ^ e = v * 10 ^ e := by
    have : v - 1 + 1 = v := by omega
    calc (v - 1) * 10 ^ e + 10 ^ e = (v - 1 + 1) * 10 ^ e := by ring
      _ = v * 10 ^ e := by rw [this]
  have hloeq : lo = (10 ^ e - f) + (v - 1) * 10 ^ e := by omega
  have h1 : 10 ^ (n + e) ≤ 10 * lo := by
    rw [pow_add]
    calc 10 ^ n * 10 ^ e ≤ 10 * (v - 1) * 10 ^ e := Nat.mul_le_mul_right _ hv1
      _ = 10 * ((v - 1) * 10 ^ e) := by ring
      _ ≤ 10 * lo := by omega
  have h2 : lo < 10 ^ (n + e) := by
    rw [pow_add]
    calc lo < v * 10 ^ e := by omega
      _ ≤ 10 ^ n * 10 ^ e := Nat.mul_le_mul_right _ (le_of_lt hhi)
  refine ⟨?_, length_utoa lo _ h1 h2⟩
  rw [getD_utoa lo (n + e) j h1 h2 (by omega)]
  have hexp : n + e - 1 - j = e + (n - 1 - j) := by omega
  rw [hexp, pow_add, ← Nat.div_div_eq_div_mul]
  have hdiv : lo / 10 ^ e = v - 1 := by
    rw [hloeq, Nat.add_mul_div_right _ _ hBpos, Nat.div_eq_of_lt (by omega), Nat.zero_add]
  rw [hdiv]
  have hsucc := Nat.succ_div (v - 1) (10 ^ (n - 1 - j))
  have hv' : v - 1 + 1 = v := by omega
  rw [hv', if_neg hdvd] at hsucc
  rw [hsucc]
  rfl

/-! ### `roundShortest` keeps the digits of an integer below `2^53` -/

theorem roundShortestLoop_unchanged (d lower upper : decimal) (inclusive : Bool) :
    ∀ (fuel i : Nat),
      (∀ j, i ≤ j → j + 1 < d.mant.length →
        lower.digitAt j = d.digitAt j ∧ upper.digitAt j = d.digitAt j ∧
          j + 1 ≠ lower.mant.length) →
      roundShortestLoop d lower upper inclusive fuel i = d := by
  intro fuel
  induction fuel with
  | zero => intro i _; rfl
  | succ fuel ih =>
    intro i h
    have hrec := ih (i + 1) (fun j hj hlen => h j (by omega) hlen)
    unfold roundShortestLoop
    by_cases hlen : i + 1 < d.mant.length
    · obtain ⟨hl, hu, hne⟩ := h i (le_refl i) hlen
      simp [hl, hu, hne, hrec]
    · have hge : d.mant.length ≤ i + 1 := by omega
      have h1 : d.round (i + 1) = d := by simp [decimal.round, hge]
      have h2 : d.roundDown (i + 1) = d := by simp [decimal.roundDown, hge]
      have h3 : d.roundUp (i + 1) = d := by simp [decimal.roundUp, hge]
      simp only [h1, h2, h3, hrec, ite_self]

theorem init_scaled (v k : Nat) (hv : 0 < v) :
    decimal.init (v * 2 ^ k) (-(k : Int)) = ⟨trimZeros (utoa v), ((utoa v).length : Int)⟩ := by
  have hm : v * 2 ^ k ≠ 0 := Nat.pos_iff_ne_zero.1 (Nat.mul_pos hv (Nat.pos_pow_of_pos k (by decide)))
  have t1 : (-(-(k : Int))).toNat = k := by omega
  have t2 : (-(k : Int)).toNat = 0 := by omega
  have hval : v * 2 ^ k * 2 ^ 0 * 5 ^ k = v * 10 ^ k := by
    have : (10 : Nat) ^ k = 2 ^ k * 5 ^ k := by rw [← Nat.mul_pow]
    rw [this]
    ring
  unfold decimal.init
  rw [if_neg hm]
  simp only [t1, t2, hval, utoa_mul_pow_ten v k hv, trimZeros_append_zeros, List.length_append,
    List.length_replicate]
  congr 1
  omega

theorem odd_mul_five_pow_mod_ten (w k : Nat) (hw : w % 2 = 1) :
    w * 1 * 5 ^ (k + 1) % 10 = 5 := by
  rw [Nat.mul_one, Nat.mul_mod, five_pow_mod_ten]
  omega

theorem init_bound (w k : Nat) (hw : w % 2 = 1) :
    decimal.init w (-(k : Int) - 1) =
      ⟨utoa (w * 1 * 5 ^ (k + 1)), ((utoa (w * 1 * 5 ^ (k + 1))).length : Int) - ((k + 1 : Nat) : Int)⟩ := by
  have hm : w ≠ 0 := by omega
  have t1 : (-(-(k : Int) - 1)).toNat = k + 1 := by omega
  have t2 : (-(k : Int) - 1).toNat = 0 := by omega
  have hmod := odd_mul_five_pow_mod_ten w k hw
  unfold decimal.init
  rw [if_neg hm]
  simp only [t1, t2, pow_zero]
  rw [utoa_last_ne_zero _ (by omega)]

theorem div_pow_mod_ten_of_dvd (v e : Nat) (h : 10 ^ (e + 1) ∣ v) : v / 10 ^ e % 10 = 0 := by
  obtain ⟨c, hc⟩ := h
  subst hc
  rw [pow_succ, Nat.mul_assoc, Nat.mul_div_cancel_left _ (Nat.pos_pow_of_pos _ (by decide)),
    Nat.mul_mod_right]

theorem roundShortest_small (v k : Nat) (hv : 0 < v) :
    roundShortest ⟨trimZeros (utoa v), ((utoa v).length : Int)⟩ ⟨false, v * 2 ^ k, -(k : Int)⟩
      = ⟨trimZeros (utoa v), ((utoa v).length : Int)⟩ := by
  have hwpos : 0 < v * 2 ^ k := Nat.mul_pos hv (Nat.pos_pow_of_pos k (by decide))
  -- the number of digits of `v`
  have hn1 : 10 ^ (Nat.digits 10 v).length ≤ 10 * v :=
    Nat.base_pow_length_digits_le 10 v (by decide) (by omega)
  have hn2 : v < 10 ^ (Nat.digits 10 v).length := Nat.lt_base_pow_length_digits (by decide)
  have hlenv : (utoa v).length = (Nat.digits 10 v).length := by
    rw [utoa_eq_digits v hv, List.length_reverse]
  obtain ⟨z, hz⟩ := trimZeros_decomp (utoa v)
  have hlen_t : (trimZeros (utoa v)).length + z = (Nat.digits 10 v).length := by
    rw [← hlenv]
    conv_rhs => rw [hz]
    simp
  unfold roundShortest
  by_cases h0 : (trimZeros (utoa v)).length = 0
  · simp [h0]
  · rw [if_neg h0]
    simp only []
    rw [init_bound (2 * (v * 2 ^ k) - 1) k (by omega), init_bound (2 * (v * 2 ^ k) + 1) k (by omega)]
    apply roundShortestLoop_unchanged
    intro j _ hj
    simp only [decimal.digitAt] at hj ⊢
    -- the last digit kept is not zero
    have hlast := trimZeros_last_ne_zero (utoa v) (by omega)
    have hT : ∀ i, i < (trimZeros (utoa v)).length →
        (trimZeros (utoa v)).getD i 0 = v / 10 ^ ((Nat.digits 10 v).length - 1 - i) % 10 := by
      intro i hi
      rw [← getD_utoa v _ i hn1 hn2 (by omega)]
      conv_rhs => rw [hz]
      rw [List.getD_append _ _ _ _ hi]
    rw [hT _ (by omega)] at hlast
    have hdvd : ¬ 10 ^ ((Nat.digits 10 v).length - 1 - j) ∣ v := by
      intro hd
      apply hlast
      have hd2 : 10 ^ ((Nat.digits 10 v).length - 1 - ((trimZeros (utoa v)).length - 1) + 1) ∣ v :=
        dvd_trans (pow_dvd_pow 10 (by omega)) hd
      exact div_pow_mod_ten_of_dvd v _ hd2
    have hten : (10 : Nat) ^ (k + 1) = 2 ^ k * 2 * 5 ^ (k + 1) := by
      rw [show (10 : Nat) = 2 * 5 from rfl, Nat.mul_pow, pow_succ 2 k]
    have hfive := five_pow_lt_ten_pow k
    have hfpos : 0 < 5 ^ (k + 1) := Nat.pos_pow_of_pos _ (by decide)
    have hlow : (2 * (v * 2 ^ k) - 1) * 1 * 5 ^ (k + 1) + 5 ^ (k + 1) = v * 10 ^ (k + 1) := by
      have hs : 2 * (v * 2 ^ k) - 1 + 1 = 2 * (v * 2 ^ k) := by omega
      calc (2 * (v * 2 ^ k) - 1) * 1 * 5 ^ (k + 1) + 5 ^ (k + 1)
          = (2 * (v * 2 ^ k) - 1 + 1) * 5 ^ (k + 1) := by ring
        _ = 2 * (v * 2 ^ k) * 5 ^ (k + 1) := by rw [hs]
        _ = v * 10 ^ (k + 1) := by rw [hten]; ring
    have hupp : (2 * (v * 2 ^ k) + 1) * 1 * 5 ^ (k + 1) = v * 10 ^ (k + 1) + 5 ^ (k + 1) := by
      rw [hten]
      ring
    obtain ⟨hl, hllen⟩ := getD_utoa_lower v (k + 1) (5 ^ (k + 1)) _ j _ hn1 hn2 hfive hfpos hlow
      (by omega) hdvd
    have hu := getD_utoa_upper v (k + 1) (5 ^ (k + 1)) _ j _ hn1 hn2 hfive hupp (by omega)
    rw [hl, hu, hT j (by omega), hllen]
    refine ⟨rfl, rfl, by omega⟩

/-! ### The rendering of an integer below `2^53` -/

theorem digitChar_spec (d : Nat) (hd : d < 10) :
    ('0' ≤ digitChar d ∧ digitChar d ≤ '9') ∧ (digitChar d).toNat - '0'.toNat = d ∧
      (digitChar d != '.') = true ∧ digitChar d ≠ '-' := by
  interval_cases d <;> decide

theorem utoa_lt_ten (v : Nat) (hv : 0 < v) : ∀ d ∈ utoa v, d < 10 := by
  intro d hd
  rw [utoa_eq_digits v hv, List.mem_reverse] at hd
  exact Nat.digits_lt_base (by decide) hd

theorem foldr_eq_ofDigits (ds : List Nat) :
    ds.foldr (fun d a => a * 10 + d) 0 = Nat.ofDigits 10 ds := by
  induction ds with
  | nil => rfl
  | cons d ds ih =>
    simp only [List.foldr_cons, ih, Nat.ofDigits_cons]
    ring

theorem foldl_utoa (v : Nat) (hv : 0 < v) : (utoa v).foldl (fun a d => a * 10 + d) 0 = v := by
  rw [utoa_eq_digits v hv, List.foldl_reverse, foldr_eq_ofDigits, Nat.ofDigits_digits]

theorem digitsValue_map (ds : List Nat) :
    ∀ acc : Nat, (∀ d ∈ ds, d < 10) →
      digitsValue (ds.map digitChar) acc = some (ds.foldl (fun a d => a * 10 + d) acc) := by
  induction ds with
  | nil => intro acc _; rfl
  | cons d ds ih =>
    intro acc h
    obtain ⟨h1, h2, _, _⟩ := digitChar_spec d (h d (List.mem_cons_self _ _))
    simp only [List.map_cons, digitsValue, h1, and_self, if_true, h2, List.foldl_cons]
    exact ih _ (fun x hx => h x (List.mem_cons_of_mem _ hx))

theorem fmtF_integer (v : Nat) (hv : 0 < v) :
    fmtF 0 ⟨trimZeros (utoa v), ((utoa v).length : Int)⟩ = (utoa v).map digitChar := by
  obtain ⟨z, hz⟩ := trimZeros_decomp (utoa v)
  have hlen : (utoa v).length = (trimZeros (utoa v)).length + z := by
    conv_lhs => rw [hz]
    simp
  have hpos : 0 < (utoa v).length := by
    rw [utoa_eq_digits v hv, List.length_reverse]
    have := Nat.lt_base_pow_length_digits (b := 10) (m := v) (by decide)
    rcases Nat.eq_zero_or_pos (Nat.digits 10 v).length with h0 | h
    · rw [h0] at this
      simp at this
      omega
    · exact h
  have hexp : (0 : Int) < ((utoa v).length : Int) := by omega
  have hzero : digitChar 0 = '0' := by decide
  unfold fmtF
  simp only [hexp, if_true, Int.toNat_ofNat, lt_irrefl, if_false, List.append_nil]
  rw [hlen, Nat.min_eq_left (by omega), List.take_length, Nat.add_sub_cancel_left]
  conv_rhs => rw [hz, List.map_append, List.map_replicate, hzero]

theorem Text_SetInt_small (v : Nat) (hv : 0 < v) (hlt : v < 2 ^ 53) :
    (BigFloat.SetInt (v : Int)).Text = String.mk ((utoa v).map digitChar) := by
  obtain ⟨k, _, hk⟩ := SetInt_small v hv hlt
  rw [hk]
  unfold BigFloat.Text
  simp only [init_scaled v k hv, roundShortest_small v k hv]
  obtain ⟨z, hz⟩ := trimZeros_decomp (utoa v)
  have hlen : (utoa v).length = (trimZeros (utoa v)).length + z := by
    conv_lhs => rw [hz]
    simp
  have hprec : (((trimZeros (utoa v)).length : Int) - ((utoa v).length : Int)).toNat = 0 := by
    omega
  rw [hprec, fmtF_integer v hv]
  simp

/-- The rendering of the `big.Float` set to a non-negative integer below
`2^53` is the decimal numeral of that integer. -/
theorem denotes_Text_SetInt (v : Nat) (hlt : v < 2 ^ 53) :
    denotes (BigFloat.SetInt (v : Int)).Text (v : Int) 1 := by
  rcases Nat.eq_zero_or_pos v with h0 | hv
  · subst h0
    decide
  · rw [Text_SetInt_small v hv hlt]
    have hdig := utoa_lt_ten v hv
    have hne : utoa v ≠ [] := by
      intro h
      have := foldl_utoa v hv
      rw [h] at this
      simp at this
      omega
    have hval := digitsValue_map (utoa v) 0 hdig
    rw [foldl_utoa v hv] at hval
    have htake : ((utoa v).map digitChar).takeWhile (fun c => c != '.') = (utoa v).map digitChar := by
      rw [List.takeWhile_eq_self_iff]
      intro c hc
      obtain ⟨d, hd, rfl⟩ := List.mem_map.1 hc
      exact (digitChar_spec d (hdig d hd)).2.2.1
    have hdrop : ((utoa v).map digitChar).dropWhile (fun c => c != '.') = [] := by
      rw [List.dropWhile_eq_nil_iff]
      intro c hc
      obtain ⟨d, hd, rfl⟩ := List.mem_map.1 hc
      exact (digitChar_spec d (hdig d hd)).2.2.1
    have hmapne : (utoa v).map digitChar ≠ [] := by simpa using hne
    have huns : unsignedValue ((utoa v).map digitChar) = some (v, 0) := by
      unfold unsignedValue
      simp only [htake, hdrop, hmapne, if_false, hval, Option.map_some']
    have hdec : decimalValue (String.mk ((utoa v).map digitChar)) = some ((v : Int), 0) := by
      unfold decimalValue
      cases hu : utoa v with
      | nil => exact absurd hu hne
      | cons d ds =>
        have hd : d < 10 := hdig d (by rw [hu]; exact List.mem_cons_self _ _)
        have hminus := (digitChar_spec d hd).2.2.2
        rw [hu] at huns
        simp only [List.map_cons] at huns ⊢
        split
        · rename_i cs heq
          simp only [List.cons.injEq] at heq
          exact absurd heq.1 hminus
        · rw [huns]
          rfl
    unfold denotes
    rw [hdec]
    simp

/-! ### Rounding to nearest even -/

theorem scale_step (num den : Nat) (e : Int) :
    2 * (num * 2 ^ (-(e + 1)).toNat) * (den * 2 ^ e.toNat) =
      (num * 2 ^ (-e).toNat) * (den * 2 ^ (e + 1).toNat) := by
  rcases le_or_lt 0 e with he | he
  · obtain ⟨a, ha⟩ : ∃ a : Nat, e = (a : Int) := ⟨e.toNat, by omega⟩
    subst ha
    have t1 : (-((a : Int) + 1)).toNat = 0 := by omega
    have t2 : ((a : Int)).toNat = a := by omega
    have t3 : (-(a : Int)).toNat = 0 := by omega
    have t4 : ((a : Int) + 1).toNat = a + 1 := by omega
    rw [t1, t2, t3, t4, pow_succ]
    ring
  · obtain ⟨a, ha⟩ : ∃ a : Nat, e = -((a : Int) + 1) := ⟨(-e - 1).toNat, by omega⟩
    subst ha
    have t1 : (-(-((a : Int) + 1) + 1)).toNat = a := by omega
    have t2 : (-((a : Int) + 1)).toNat = 0 := by omega
    have t3 : (-(-((a : Int) + 1))).toNat = a + 1 := by omega
    have t4 : (-((a : Int) + 1) + 1).toNat = 0 := by omega
    rw [t1, t2, t3, t4, pow_succ]
    ring

/-- At the first guess of the exponent the scaled quotient lies in `[2^52, 2^54)`. -/
theorem scale_range (num den : Nat) (hnum : 0 < num) (hden : 0 < den) :
    2 ^ 52 * (den * 2 ^ ((bitLen num : Int) - (bitLen den : Int) - 53).toNat) ≤
        num * 2 ^ (-((bitLen num : Int) - (bitLen den : Int) - 53)).toNat ∧
      num * 2 ^ (-((bitLen num : Int) - (bitLen den : Int) - 53)).toNat <
        2 ^ 54 * (den * 2 ^ ((bitLen num : Int) - (bitLen den : Int) - 53).toNat) := by
  obtain ⟨ha1, ha2⟩ := bitLen_spec num hnum
  obtain ⟨hb1, hb2⟩ := bitLen_spec den hden
  generalize bitLen num = a at *
  generalize bitLen den = b at *
  rcases le_or_lt 0 ((a : Int) - (b : Int) - 53) with he | he
  · obtain ⟨g, hg⟩ : ∃ g : Nat, a = b + 53 + g := ⟨a - b - 53, by omega⟩
    subst hg
    have t1 : (((b + 53 + g : Nat) : Int) - (b : Int) - 53).toNat = g := by omega
    have t2 : (-(((b + 53 + g : Nat) : Int) - (b : Int) - 53)).toNat = 0 := by omega
    rw [t1, t2, pow_zero, Nat.mul_one]
    have hpow : 2 ^ (b + 53 + g) = 2 ^ b * 2 ^ 53 * 2 ^ g := by rw [pow_add, pow_add]
    rw [hpow] at ha1 ha2
    have hgpos : 0 < 2 ^ g := Nat.pos_pow_of_pos g (by decide)
    constructor
    · -- 2^52 * den * 2^g < 2^52 * 2^b * 2^g, twice that is at most 2 * num
      have h1 : den * 2 ^ g < 2 ^ b * 2 ^ g := Nat.mul_lt_mul_of_pos_right hb2 hgpos
      have h2 : 2 * (2 ^ 52 * (den * 2 ^ g)) ≤ 2 ^ b * 2 ^ 53 * 2 ^ g := by
        have : 2 * (2 ^ 52 * (2 ^ b * 2 ^ g)) = 2 ^ b * 2 ^ 53 * 2 ^ g := by ring
        rw [← this]
        exact Nat.mul_le_mul_left _ (Nat.mul_le_mul_left _ (le_of_lt h1))
      omega
    · have h1 : 2 ^ b * 2 ^ 53 * 2 ^ g ≤ 2 * den * 2 ^ 53 * 2 ^ g :=
        Nat.mul_le_mul_right _ (Nat.mul_le_mul_right _ hb1)
      have h2 : 2 * den * 2 ^ 53 * 2 ^ g = 2 ^ 54 * (den * 2 ^ g) := by ring
      omega
  · obtain ⟨g, hg⟩ : ∃ g : Nat, a + g = b + 53 := ⟨b + 53 - a, by omega⟩
    have t1 : ((a : Int) - (b : Int) - 53).toNat = 0 := by omega
    have t2 : (-((a : Int) - (b : Int) - 53)).toNat = g := by omega
    rw [t1, t2, pow_zero, Nat.mul_one]
    have hpow : 2 ^ a * 2 ^ g = 2 ^ b * 2 ^ 53 := by rw [← pow_add, hg, pow_add]
    have hgpos : 0 < 2 ^ g := Nat.pos_pow_of_pos g (by decide)
    constructor
    · have h1 : 2 ^ a * 2 ^ g ≤ 2 * num * 2 ^ g := Nat.mul_le_mul_right _ ha1
      have h2 : 2 ^ 52 * den < 2 ^ 52 * 2 ^ b := Nat.mul_lt_mul_of_pos_left hb2 (by norm_num)
      have h3 : 2 * (2 ^ 52 * 2 ^ b) = 2 ^ b * 2 ^ 53 := by ring
      have h4 : 2 * num * 2 ^ g = 2 * (num * 2 ^ g) := by ring
      omega
    · have h1 : num * 2 ^ g < 2 ^ a * 2 ^ g := Nat.mul_lt_mul_of_pos_right ha2 hgpos
      have h2 : 2 ^ b * 2 ^ 53 ≤ 2 * den * 2 ^ 53 := Nat.mul_le_mul_right _ hb1
      have h3 : 2 * den * 2 ^ 53 = 2 ^ 54 * den := by ring
      omega

theorem roundToNearestEven_spec (neg : Bool) (num den : Nat) (hnum : 0 < num) (hden : 0 < den)
    (hsmall : num * 2 ^ 31 < (2 ^ 54 - 1) * den) :
    ∃ m k : Nat, roundToNearestEven neg num den = ⟨neg, m, -(k : Int)⟩ ∧
      2 ^ 52 ≤ m ∧ m < 2 ^ 53 ∧ 30 ≤ k ∧
      2 * m * den ≤ num * 2 ^ (k + 1) + den ∧ num * 2 ^ (k + 1) ≤ 2 * m * den + den ∧
      ((2 * m * den = num * 2 ^ (k + 1) + den ∨ num * 2 ^ (k + 1) = 2 * m * den + den) →
        m % 2 = 0) := by
  have hr0 := scale_range num den hnum hden
  norm_num at hsmall
  unfold roundToNearestEven
  rw [if_neg (by omega)]
  simp only []
  generalize ((bitLen num : Int) - (bitLen den : Int) - 53) = e0 at hr0 ⊢
  -- the exponent that is kept
  have hre : ∃ e : Int,
      (if num * 2 ^ (-e0).toNat / (den * 2 ^ e0.toNat) < 2 ^ 53 then e0 else e0 + 1) = e ∧
      2 ^ 52 * (den * 2 ^ e.toNat) ≤ num * 2 ^ (-e).toNat ∧
      num * 2 ^ (-e).toNat < 2 ^ 53 * (den * 2 ^ e.toNat) := by
    have hdpos : 0 < den * 2 ^ e0.toNat := Nat.mul_pos hden (Nat.pos_pow_of_pos _ (by decide))
    by_cases hq : num * 2 ^ (-e0).toNat / (den * 2 ^ e0.toNat) < 2 ^ 53
    · refine ⟨e0, if_pos hq, hr0.1, ?_⟩
      exact (Nat.div_lt_iff_lt_mul hdpos).1 hq
    · refine ⟨e0 + 1, if_neg hq, ?_, ?_⟩
      · have hge : 2 ^ 53 * (den * 2 ^ e0.toNat) ≤ num * 2 ^ (-e0).toNat :=
          (Nat.le_div_iff_mul_le hdpos).1 (by omega)
        have hs := scale_step num den e0
        -- 2^53 * d0 * d1 ≤ n0 * d1 = 2 * n1 * d0
        have h1 : 2 ^ 53 * (den * 2 ^ e0.toNat) * (den * 2 ^ (e0 + 1).toNat) ≤
            2 * (num * 2 ^ (-(e0 + 1)).toNat) * (den * 2 ^ e0.toNat) := by
          rw [hs]
          exact Nat.mul_le_mul_right _ hge
        have h2 : 2 * (2 ^ 52 * (den * 2 ^ (e0 + 1).toNat)) * (den * 2 ^ e0.toNat) ≤
            2 * (num * 2 ^ (-(e0 + 1)).toNat) * (den * 2 ^ e0.toNat) := by
          calc 2 * (2 ^ 52 * (den * 2 ^ (e0 + 1).toNat)) * (den * 2 ^ e0.toNat)
              = 2 ^ 53 * (den * 2 ^ e0.toNat) * (den * 2 ^ (e0 + 1).toNat) := by ring
            _ ≤ _ := h1
        have h3 := Nat.le_of_mul_le_mul_right h2 hdpos
        omega
      · have hs := scale_step num den e0
        have h1 : 2 * (num * 2 ^ (-(e0 + 1)).toNat) * (den * 2 ^ e0.toNat) <
            2 * (2 ^ 53 * (den * 2 ^ (e0 + 1).toNat)) * (den * 2 ^ e0.toNat) := by
          rw [hs]
          have hd1 : 0 < den * 2 ^ (e0 + 1).toNat :=
            Nat.mul_pos hden (Nat.pos_pow_of_pos _ (by decide))
          calc num * 2 ^ (-e0).toNat * (den * 2 ^ (e0 + 1).toNat)
              < 2 ^ 54 * (den * 2 ^ e0.toNat) * (den * 2 ^ (e0 + 1).toNat) :=
                Nat.mul_lt_mul_of_pos_right hr0.2 hd1
            _ = 2 * (2 ^ 53 * (den * 2 ^ (e0 + 1).toNat)) * (den * 2 ^ e0.toNat) := by ring
        have h3 := Nat.lt_of_mul_lt_mul_right h1
        omega
  obtain ⟨e, he, h1, h2⟩ := hre
  simp only [he]
  clear he hr0
  -- the exponent is negative
  have hneg : e < -29 := by
    by_contra hcon
    rcases le_or_lt 0 e with h0 | h0
    · obtain ⟨a, ha⟩ : ∃ a : Nat, e = (a : Int) := ⟨e.toNat, by omega⟩
      subst ha
      have t1 : (-(a : Int)).toNat = 0 := by omega
      have t2 : ((a : Int)).toNat = a := by omega
      rw [t1, t2] at h1
      have hp : 1 ≤ 2 ^ a := Nat.pos_pow_of_pos a (by decide)
      have : den * 1 ≤ den * 2 ^ a := Nat.mul_le_mul_left _ hp
      omega
    · obtain ⟨a, ha, ha29⟩ : ∃ a : Nat, e = -(a : Int) ∧ a ≤ 29 := ⟨(-e).toNat, by omega, by omega⟩
      subst ha
      have t1 : (-(-(a : Int))).toNat = a := by omega
      have t2 : (-(a : Int)).toNat = 0 := by omega
      rw [t1, t2] at h1
      have hp : 2 ^ a ≤ 2 ^ 29 := Nat.pow_le_pow_right (by decide) ha29
      have h3 : num * 2 ^ a ≤ num * 2 ^ 29 := Nat.mul_le_mul_left _ hp
      norm_num at h1 h3
      omega
  obtain ⟨k, hk, hk29⟩ : ∃ k : Nat, e = -(k : Int) ∧ 29 < k := ⟨(-e).toNat, by omega, by omega⟩
  subst hk
  have t1 : (-(-(k : Int))).toNat = k := by omega
  have t2 : (-(k : Int)).toNat = 0 := by omega
  simp only [t1, t2, pow_zero, Nat.mul_one] at h1 h2 ⊢
  have hq1 : 2 ^ 52 ≤ num * 2 ^ k / den := (Nat.le_div_iff_mul_le hden).2 h1
  have hq2 : num * 2 ^ k / den < 2 ^ 53 := (Nat.div_lt_iff_lt_mul hden).2 h2
  have hN := Nat.div_add_mod (num * 2 ^ k) den
  have hrlt := Nat.mod_lt (num * 2 ^ k) hden
  have hpow : num * 2 ^ (k + 1) = 2 * (num * 2 ^ k) := by rw [pow_succ]; ring
  -- a carry into the next binade needs one more bit
  have hk31 : num * 2 ^ k / den + 1 = 2 ^ 53 → den ≤ 2 * (num * 2 ^ k % den) → 31 ≤ k := by
    intro hq hr
    by_contra hcon
    have hk30 : k = 30 := by omega
    rw [hk30] at hq hr hN
    norm_num at hq hN hr
    have hq2 : num * 1073741824 / den = 9007199254740991 := by omega
    rw [hq2] at hN
    omega
  generalize num * 2 ^ k / den = q at *
  generalize num * 2 ^ k % den = r at *
  generalize hn : num * 2 ^ k = n at *
  by_cases hinc : (decide (2 * r > den) || decide (2 * r = den) && decide (q % 2 = 1)) = true
  · have hinc2 : 2 * r > den ∨ (2 * r = den ∧ q % 2 = 1) := by simpa using hinc
    simp only [hinc, if_true]
    by_cases hcarry : q + 1 = 2 ^ 53
    · obtain ⟨j, hj⟩ : ∃ j : Nat, k = j + 1 := ⟨k - 1, by omega⟩
      subst hj
      have hj := hk31 hcarry (by omega)
      refine ⟨2 ^ 52, j, ?_, le_refl _, by norm_num, by omega, ?_, ?_, fun _ => by norm_num⟩
      · rw [if_pos hcarry]
        congr 1
        omega
      · have hq : q = 2 ^ 53 - 1 := by omega
        subst hq
        rw [hn]
        omega
      · have hq : q = 2 ^ 53 - 1 := by omega
        subst hq
        rw [hn]
        omega
    · have e1 : 2 * (q + 1) * den = 2 * (den * q) + 2 * den := by ring
      refine ⟨q + 1, k, by rw [if_neg hcarry], by omega, by omega, by omega, ?_, ?_, ?_⟩
      · rw [hpow, e1]
        omega
      · rw [hpow, e1]
        omega
      · rw [hpow, e1]
        intro h
        omega
  · have hinc2 : ¬ (2 * r > den ∨ (2 * r = den ∧ q % 2 = 1)) := by simpa using hinc
    simp only [hinc, Bool.false_eq_true, if_false]
    have hne : q ≠ 2 ^ 53 := by omega
    have e1 : 2 * q * den = 2 * (den * q) := by ring
    refine ⟨q, k, by rw [if_neg hne], hq1, hq2, by omega, ?_, ?_, ?_⟩
    · rw [hpow, e1]
      omega
    · rw [hpow, e1]
      omega
    · rw [hpow, e1]
      intro h
      omega

theorem SetInt_small_signed (x : Int) (hx : x ≠ 0) (hlt : x.natAbs < 2 ^ 53) :
    ∃ j : Nat, BigFloat.SetInt x = ⟨decide (x < 0), x.natAbs * 2 ^ j, -(j : Int)⟩ := by
  have hpos : 0 < x.natAbs := Int.natAbs_pos.2 hx
  obtain ⟨j, _, hr⟩ := roundToNearestEven_small (decide (x < 0)) x.natAbs hpos hlt
  refine ⟨j, ?_⟩
  unfold BigFloat.SetInt
  rw [if_neg hx, hr]

theorem SetInt64_gwei : BigFloat.SetInt64 (10 ^ 9) = ⟨false, 10 ^ 9 * 2 ^ 23, -23⟩ := by decide

/-- The quotient by `10^9` of an integer of magnitude `n < 2^23 * 10^9`: mantissa
`m` and exponent `-k` with `|n / 10^9 - m / 2^k| ≤ 1 / 2^(k+1)`, the bound
being attained only with an even mantissa. -/
theorem Quo_SetInt_spec (x : Int) (hx : x ≠ 0) (hlt : x.natAbs < 2 ^ 23 * 10 ^ 9) :
    ∃ m k : Nat,
      BigFloat.Quo (BigFloat.SetInt x) (BigFloat.SetInt64 (10 ^ 9)) =
        ⟨decide (x < 0), m, -(k : Int)⟩ ∧
      2 ^ 52 ≤ m ∧ m < 2 ^ 53 ∧ 30 ≤ k ∧
      2 * m * 10 ^ 9 ≤ x.natAbs * 2 ^ (k + 1) + 10 ^ 9 ∧
      x.natAbs * 2 ^ (k + 1) ≤ 2 * m * 10 ^ 9 + 10 ^ 9 ∧
      ((2 * m * 10 ^ 9 = x.natAbs * 2 ^ (k + 1) + 10 ^ 9 ∨
          x.natAbs * 2 ^ (k + 1) = 2 * m * 10 ^ 9 + 10 ^ 9) → m % 2 = 0) := by
  have hpos : 0 < x.natAbs := Int.natAbs_pos.2 hx
  obtain ⟨j, hj⟩ := SetInt_small_signed x hx (by
    have : (2 : Nat) ^ 23 * 10 ^ 9 < 2 ^ 53 := by norm_num
    omega)
  generalize x.natAbs = n at *
  have hjpos : 0 < 2 ^ j := Nat.pos_pow_of_pos j (by decide)
  have hcpos : 0 < 2 ^ 23 * 2 ^ j := Nat.mul_pos (by norm_num) hjpos
  have hnum : n * 2 ^ j * 2 ^ (-(j : Int)).toNat * 2 ^ (-(-23 : Int)).toNat = n * (2 ^ 23 * 2 ^ j) := by
    have t1 : (-(j : Int)).toNat = 0 := by omega
    have t2 : (-(-23 : Int)).toNat = 23 := by decide
    rw [t1, t2]
    ring
  have hden : 10 ^ 9 * 2 ^ 23 * 2 ^ (-23 : Int).toNat * 2 ^ (-(-(j : Int))).toNat =
      10 ^ 9 * (2 ^ 23 * 2 ^ j) := by
    have t1 : (-(-(j : Int))).toNat = j := by omega
    have t2 : (-23 : Int).toNat = 0 := by decide
    rw [t1, t2]
    ring
  have hmant : n * 2 ^ j ≠ 0 := Nat.pos_iff_ne_zero.1 (Nat.mul_pos hpos hjpos)
  have hquo : BigFloat.Quo (BigFloat.SetInt x) (BigFloat.SetInt64 (10 ^ 9)) =
      roundToNearestEven (decide (x < 0)) (n * (2 ^ 23 * 2 ^ j)) (10 ^ 9 * (2 ^ 23 * 2 ^ j)) := by
    rw [hj, SetInt64_gwei]
    unfold BigFloat.Quo
    simp only [hmant, if_false, hnum, hden, Bool.bne_false]
  generalize 2 ^ 23 * 2 ^ j = c at hcpos hquo
  have hsmall : n * c * 2 ^ 31 < (2 ^ 54 - 1) * (10 ^ 9 * c) := by
    have : n * 2 ^ 31 < (2 ^ 54 - 1) * 10 ^ 9 := by
      norm_num at hlt ⊢
      omega
    calc n * c * 2 ^ 31 = n * 2 ^ 31 * c := by ring
      _ < (2 ^ 54 - 1) * 10 ^ 9 * c := Nat.mul_lt_mul_of_pos_right this hcpos
      _ = (2 ^ 54 - 1) * (10 ^ 9 * c) := by ring
  obtain ⟨m, k, hr, hm1, hm2, hk, h1, h2, h3⟩ :=
    roundToNearestEven_spec (decide (x < 0)) (n * c) (10 ^ 9 * c) (Nat.mul_pos hpos hcpos)
      (Nat.mul_pos (by norm_num) hcpos) hsmall
  have e1 : 2 * m * (10 ^ 9 * c) = (2 * m * 10 ^ 9) * c := by ring
  have e2 : n * c * 2 ^ (k + 1) + 10 ^ 9 * c = (n * 2 ^ (k + 1) + 10 ^ 9) * c := by ring
  have e3 : n * c * 2 ^ (k + 1) = (n * 2 ^ (k + 1)) * c := by ring
  have e4 : 2 * m * (10 ^ 9 * c) + 10 ^ 9 * c = (2 * m * 10 ^ 9 + 10 ^ 9) * c := by ring
  refine ⟨m, k, by rw [hquo, hr], hm1, hm2, hk, ?_, ?_, ?_⟩
  · rw [e1, e2] at h1
    exact Nat.le_of_mul_le_mul_right h1 hcpos
  · rw [e3, e4] at h2
    exact Nat.le_of_mul_le_mul_right h2 hcpos
  · intro h
    apply h3
    rcases h with h | h
    · left
      rw [e1, e2, h]
    · right
      rw [e3, e4, h]

theorem msdValue_append (xs ys : List Nat) :
    msdValue (xs ++ ys) = msdValue xs * 10 ^ ys.length + msdValue ys := by
  induction ys using List.reverseRecOn with
  | nil => simp [msdValue]
  | append_singleton ys y ih =>
    have h1 : msdValue (xs ++ (ys ++ [y])) = msdValue (xs ++ ys) * 10 + y := by
      simp [msdValue, List.foldl_append]
    have h2 : msdValue (ys ++ [y]) = msdValue ys * 10 + y := by
      simp [msdValue, List.foldl_append]
    rw [h1, h2, ih, List.length_append, List.length_singleton, pow_succ]
    ring

theorem msdValue_replicate_zero (k : Nat) : msdValue (List.replicate k 0) = 0 := by
  induction k with
  | zero => rfl
  | succ k ih =>
    rw [List.replicate_succ', msdValue_append, ih]
    simp [msdValue]

theorem msdValue_append_zeros (xs : List Nat) (k : Nat) :
    msdValue (xs ++ List.replicate k 0) = msdValue xs * 10 ^ k := by
  rw [msdValue_append, msdValue_replicate_zero, List.length_replicate, Nat.add_zero]

theorem msdValue_zeros_append (xs : List Nat) (k : Nat) :
    msdValue (List.replicate k 0 ++ xs) = msdValue xs := by
  rw [msdValue_append, msdValue_replicate_zero, Nat.zero_mul, Nat.zero_add]

theorem digitsValue_map_msd (ds : List Nat) (h : ∀ d ∈ ds, d < 10) :
    digitsValue (ds.map digitChar) 0 = some (msdValue ds) :=
  digitsValue_map ds 0 h

theorem map_range_getD {α : Type} (l : List Nat) (g : Nat → α) :
    (List.range l.length).map (fun j => g (l.getD j 0)) = l.map g := by
  apply List.ext_getElem
  · simp
  · intro i h1 h2
    simp only [List.getElem_map, List.getElem_range]
    rw [List.getD_eq_getElem _ _ (by simpa using h2)]

theorem takeWhile_digits (ds : List Nat) (h : ∀ d ∈ ds, d < 10) (rest : List Char) :
    (ds.map digitChar ++ '.' :: rest).takeWhile (fun c => c != '.') = ds.map digitChar := by
  induction ds with
  | nil => simp
  | cons d ds ih =>
    have hd := (digitChar_spec d (h d (List.mem_cons_self _ _))).2.2.1
    simp only [List.map_cons, List.cons_append, List.takeWhile_cons, hd, if_true]
    rw [ih (fun x hx => h x (List.mem_cons_of_mem _ hx))]

theorem dropWhile_digits (ds : List Nat) (h : ∀ d ∈ ds, d < 10) (rest : List Char) :
    (ds.map digitChar ++ '.' :: rest).dropWhile (fun c => c != '.') = '.' :: rest := by
  induction ds with
  | nil => simp
  | cons d ds ih =>
    have hd := (digitChar_spec d (h d (List.mem_cons_self _ _))).2.2.1
    simp only [List.map_cons, List.cons_append, List.dropWhile_cons, hd, if_true]
    rw [ih (fun x hx => h x (List.mem_cons_of_mem _ hx))]

theorem takeWhile_digits_only (ds : List Nat) (h : ∀ d ∈ ds, d < 10) :
    (ds.map digitChar).takeWhile (fun c => c != '.') = ds.map digitChar := by
  rw [List.takeWhile_eq_self_iff]
  intro c hc
  obtain ⟨d, hd, rfl⟩ := List.mem_map.1 hc
  exact (digitChar_spec d (h d hd)).2.2.1

theorem dropWhile_digits_only (ds : List Nat) (h : ∀ d ∈ ds, d < 10) :
    (ds.map digitChar).dropWhile (fun c => c != '.') = [] := by
  rw [List.dropWhile_eq_nil_iff]
  intro c hc
  obtain ⟨d, hd, rfl⟩ := List.mem_map.1 hc
  exact (digitChar_spec d (h d hd)).2.2.1

/-- Reading of an integer numeral made of the digits `ds`. -/
theorem unsignedValue_integer (ds : List Nat) (h : ∀ d ∈ ds, d < 10) (hne : ds ≠ []) :
    unsignedValue (ds.map digitChar) = some (msdValue ds, 0) := by
  have hmapne : ds.map digitChar ≠ [] := by simpa using hne
  unfold unsignedValue
  simp only [takeWhile_digits_only ds h, dropWhile_digits_only ds h, hmapne, if_false,
    digitsValue_map_msd ds h, Option.map_some']

/-- Reading of a numeral with integer digits `ip` and fraction digits `fp`. -/
theorem unsignedValue_fraction (ip fp : List Nat) (hi : ∀ d ∈ ip, d < 10)
    (hf : ∀ d ∈ fp, d < 10) (hine : ip ≠ []) (hfne : fp ≠ []) :
    unsignedValue (ip.map digitChar ++ '.' :: fp.map digitChar) =
      some (msdValue (ip ++ fp), fp.length) := by
  have h1 : ip.map digitChar ≠ [] := by simpa using hine
  have h2 : fp.map digitChar ≠ [] := by simpa using hfne
  have hall : ∀ d ∈ ip ++ fp, d < 10 := by
    intro d hd
    rcases List.mem_append.1 hd with hd | hd
    · exact hi d hd
    · exact hf d hd
  have hval := digitsValue_map_msd (ip ++ fp) hall
  rw [List.map_append] at hval
  unfold unsignedValue
  simp only [takeWhile_digits ip hi, dropWhile_digits ip hi, h1, h2, or_self, if_false, hval,
    Option.map_some', List.length_map]

theorem digitChar_zero : digitChar 0 = '0' := by decide

theorem head_ne_minus (ds : List Nat) (h : ∀ d ∈ ds, d < 10) (hne : ds ≠ []) (rest tail : List Char) :
    ds.map digitChar ++ rest ≠ '-' :: tail := by
  cases ds with
  | nil => exact absurd rfl hne
  | cons d ds =>
    intro heq
    simp only [List.map_cons, List.cons_append, List.cons.injEq] at heq
    exact (digitChar_spec d (h d (List.mem_cons_self _ _))).2.2.2 heq.1

/-- The numeral that `fmtF` lays out for the digits `mant` with decimal exponent
`exp`, at the precision `Text` picks: it reads as `(n, s)` with
`n / 10^s = 0.mant * 10^exp`, stated at a scale `10^e` that makes both sides
integers. -/
theorem unsignedValue_fmtF (mant : List Nat) (exp : Int) (e c : Nat)
    (hvalid : ∀ d ∈ mant, d < 10) (hne : mant ≠ [])
    (hc : exp + (e : Int) = (mant.length : Int) + (c : Int)) :
    (∃ n s, unsignedValue (fmtF (((mant.length : Int) - exp).toNat) ⟨mant, exp⟩) = some (n, s) ∧
      n * 10 ^ e = msdValue mant * 10 ^ (c + s)) ∧
    ∀ tail, fmtF (((mant.length : Int) - exp).toNat) ⟨mant, exp⟩ ≠ '-' :: tail := by
  have hlenpos : 0 < mant.length := List.length_pos.2 hne
  rcases le_or_lt exp 0 with hexp | hexp
  · -- `0.000ddd`
    obtain ⟨a, ha⟩ : ∃ a : Nat, exp = -(a : Int) := ⟨(-exp).toNat, by omega⟩
    subst ha
    have hprec : (((mant.length : Int) - -(a : Int))).toNat = a + mant.length := by omega
    have hnot : ¬ (-(a : Int) > 0) := by omega
    have hprecpos : a + mant.length > 0 := by omega
    have hfrac : (List.range (a + mant.length)).map (fun (i : Nat) =>
        if -(a : Int) + (i : Int) < 0 then '0'
        else digitChar ((⟨mant, -(a : Int)⟩ : decimal).digitAt (-(a : Int) + (i : Int)).toNat))
        = (List.replicate a 0 ++ mant).map digitChar := by
      rw [List.range_add, List.map_append, List.map_append, List.map_map]
      congr 1
      · apply List.ext_getElem
        · simp
        · intro i h1 h2
          have hi : i < a := by simpa using h1
          have hneg : -(a : Int) + (i : Int) < 0 := by omega
          simp only [List.getElem_map, List.getElem_range, List.getElem_replicate, hneg, if_true,
            digitChar_zero]
      · rw [← map_range_getD mant digitChar]
        apply List.map_congr_left
        intro j _
        have hnn : ¬ (-(a : Int) + ((a + j : Nat) : Int) < 0) := by omega
        have hidx : (-(a : Int) + ((a + j : Nat) : Int)).toNat = j := by omega
        simp only [Function.comp, hnn, if_false, hidx, decimal.digitAt]
    have hfmt : fmtF (a + mant.length) ⟨mant, -(a : Int)⟩ =
        [0].map digitChar ++ '.' :: (List.replicate a 0 ++ mant).map digitChar := by
      unfold fmtF
      simp only [hnot, if_false, hprecpos, if_true, hfrac]
      rfl
    have hv2 : ∀ d ∈ List.replicate a 0 ++ mant, d < 10 := by
      intro d hd
      rcases List.mem_append.1 hd with hd | hd
      · rw [(List.mem_replicate.1 hd).2]
        decide
      · exact hvalid d hd
    rw [hprec, hfmt]
    refine ⟨⟨msdValue ([0] ++ (List.replicate a 0 ++ mant)), (List.replicate a 0 ++ mant).length,
      unsignedValue_fraction [0] _ (by simp) hv2 (by simp) (by simp [hne]), ?_⟩, ?_⟩
    · have h0 : msdValue ([0] ++ (List.replicate a 0 ++ mant)) = msdValue mant := by
        rw [← List.append_assoc]
        have : [0] ++ List.replicate a 0 = List.replicate (a + 1) 0 := by
          rw [List.replicate_succ]
          rfl
        rw [this, msdValue_zeros_append]
      rw [h0, List.length_append, List.length_replicate]
      have he : e = c + (a + mant.length) := by omega
      rw [he]
    · intro tail heq
      have := head_ne_minus [0] (by simp) (by simp)
        ('.' :: (List.replicate a 0 ++ mant).map digitChar) tail
      exact this heq
  · obtain ⟨p, hp⟩ : ∃ p : Nat, exp = (p : Int) := ⟨exp.toNat, by omega⟩
    subst hp
    have hppos : 0 < p := by omega
    have hgt : (p : Int) > 0 := by omega
    rcases le_or_lt mant.length p with hlen | hlen
    · -- `ddd000`
      have hprec : (((mant.length : Int) - (p : Int))).toNat = 0 := by omega
      have hfmt : fmtF 0 ⟨mant, (p : Int)⟩ = (mant ++ List.replicate (p - mant.length) 0).map digitChar := by
        unfold fmtF
        simp only [hgt, if_true, Int.toNat_ofNat, Nat.min_eq_left hlen, List.take_length,
          lt_irrefl, if_false, List.append_nil, List.map_append, List.map_replicate, digitChar_zero]
      have hv2 : ∀ d ∈ mant ++ List.replicate (p - mant.length) 0, d < 10 := by
        intro d hd
        rcases List.mem_append.1 hd with hd | hd
        · exact hvalid d hd
        · rw [(List.mem_replicate.1 hd).2]
          decide
      rw [hprec, hfmt]
      refine ⟨⟨_, 0, unsignedValue_integer _ hv2 (by simp [hne]), ?_⟩, ?_⟩
      · rw [msdValue_append_zeros, Nat.mul_assoc, ← pow_add]
        have he : p - mant.length + e = c + 0 := by omega
        rw [he]
      · intro tail heq
        rw [List.map_append] at heq
        exact head_ne_minus mant hvalid hne _ tail heq
    · -- `ddd.ddd`
      have hprec : (((mant.length : Int) - (p : Int))).toNat = mant.length - p := by omega
      have hprecpos : mant.length - p > 0 := by omega
      have hfrac : (List.range (mant.length - p)).map (fun (i : Nat) =>
          if (p : Int) + (i : Int) < 0 then '0'
          else digitChar ((⟨mant, (p : Int)⟩ : decimal).digitAt ((p : Int) + (i : Int)).toNat))
          = (mant.drop p).map digitChar := by
        have hdl : (mant.drop p).length = mant.length - p := by simp
        rw [← map_range_getD (mant.drop p) digitChar, hdl]
        apply List.map_congr_left
        intro j _
        have hnn : ¬ ((p : Int) + (j : Int) < 0) := by omega
        have hidx : ((p : Int) + (j : Int)).toNat = p + j := by omega
        simp only [hnn, if_false, hidx, decimal.digitAt, List.getD_eq_getElem?_getD,
          List.getElem?_drop]
      have hfmt : fmtF (mant.length - p) ⟨mant, (p : Int)⟩ =
          (mant.take p).map digitChar ++ '.' :: (mant.drop p).map digitChar := by
        unfold fmtF
        simp only [hgt, if_true, Int.toNat_ofNat, Nat.min_eq_right (le_of_lt hlen), Nat.sub_self,
          List.replicate_zero, List.append_nil, hprecpos, hfrac]
      have hvt : ∀ d ∈ mant.take p, d < 10 := fun d hd => hvalid d (List.mem_of_mem_take hd)
      have hvd : ∀ d ∈ mant.drop p, d < 10 := fun d hd => hvalid d (List.mem_of_mem_drop hd)
      have htne : mant.take p ≠ [] := by
        intro h
        have h2 : (mant.take p).length = min p mant.length := List.length_take _ _
        rw [h, List.length_nil] at h2
        omega
      have hdne : mant.drop p ≠ [] := by
        intro h
        have h2 : (mant.drop p).length = mant.length - p := List.length_drop _ _
        rw [h, List.length_nil] at h2
        omega
      rw [hprec, hfmt]
      refine ⟨⟨_, _, unsignedValue_fraction _ _ hvt hvd htne hdne, ?_⟩, ?_⟩
      · rw [List.take_append_drop, List.length_drop]
        have he : e = c + (mant.length - p) := by omega
        rw [he]
      · intro tail heq
        exact head_ne_minus (mant.take p) hvt htne _ tail heq

/-! ### Digit lists and the numbers they stand for -/

theorem msdValue_utoa (x : Nat) (hx : 0 < x) : msdValue (utoa x) = x := foldl_utoa x hx

theorem msdValue_lt (ds : List Nat) (h : ∀ d ∈ ds, d < 10) : msdValue ds < 10 ^ ds.length := by
  induction ds using List.reverseRecOn with
  | nil => simp [msdValue]
  | append_singleton ds d ih =>
    have hd : d < 10 := h d (by simp)
    have ih2 := ih (fun x hx => h x (by simp [hx]))
    have happ : msdValue (ds ++ [d]) = msdValue ds * 10 + d := by
      simp [msdValue, List.foldl_append]
    rw [happ, List.length_append, List.length_singleton, pow_succ]
    omega

theorem utoa_length_bounds (x : Nat) (hx : 0 < x) :
    10 ^ (utoa x).length ≤ 10 * x ∧ x < 10 ^ (utoa x).length := by
  rw [utoa_eq_digits x hx, List.length_reverse]
  exact ⟨Nat.base_pow_length_digits_le 10 x (by decide) (by omega),
    Nat.lt_base_pow_length_digits (by decide)⟩

theorem utoa_length_pos (x : Nat) (hx : 0 < x) : 0 < (utoa x).length := by
  obtain ⟨_, h2⟩ := utoa_length_bounds x hx
  rcases Nat.eq_zero_or_pos (utoa x).length with h0 | h
  · rw [h0] at h2
    simp at h2
    omega
  · exact h

theorem trimZeros_valid (s : List Nat) (h : ∀ d ∈ s, d < 10) : ∀ d ∈ trimZeros s, d < 10 := by
  obtain ⟨z, hz⟩ := trimZeros_decomp s
  intro d hd
  exact h d (by rw [hz]; exact List.mem_append_left _ hd)

theorem trimZeros_length_le (s : List Nat) : (trimZeros s).length ≤ s.length := by
  obtain ⟨z, hz⟩ := trimZeros_decomp s
  conv_rhs => rw [hz]
  simp

theorem msdValue_trimZeros (s : List Nat) :
    msdValue (trimZeros s) * 10 ^ (s.length - (trimZeros s).length) = msdValue s := by
  obtain ⟨z, hz⟩ := trimZeros_decomp s
  have hlen : s.length - (trimZeros s).length = z := by
    have h := congrArg List.length hz
    rw [List.length_append, List.length_replicate] at h
    omega
  rw [hlen]
  conv_rhs => rw [hz]
  rw [msdValue_append_zeros]

theorem getD_trimZeros (s : List Nat) (i : Nat) : (trimZeros s).getD i 0 = s.getD i 0 := by
  obtain ⟨z, hz⟩ := trimZeros_decomp s
  conv_rhs => rw [hz]
  rcases lt_or_le i (trimZeros s).length with hi | hi
  · rw [List.getD_append _ _ _ _ hi]
  · rw [List.getD_append_right _ _ _ _ hi, List.getD_eq_default _ _ hi]
    simp

theorem take_trimZeros (s : List Nat) (n : Nat) (hn : n ≤ (trimZeros s).length) :
    (trimZeros s).take n = s.take n := by
  obtain ⟨z, hz⟩ := trimZeros_decomp s
  conv_rhs => rw [hz]
  rw [List.take_append_of_le_length hn]

/-- The leading `i + 1` digits of `x` are the digits of `x / 10^(len - 1 - i)`. -/
theorem msdValue_take_utoa (x i : Nat) (hx : 0 < x) (hi : i < (utoa x).length) :
    msdValue ((utoa x).take (i + 1)) = x / 10 ^ ((utoa x).length - 1 - i) := by
  have hsplit := List.take_append_drop (i + 1) (utoa x)
  have hval := msdValue_append ((utoa x).take (i + 1)) ((utoa x).drop (i + 1))
  rw [hsplit, msdValue_utoa x hx] at hval
  have hdl : ((utoa x).drop (i + 1)).length = (utoa x).length - 1 - i := by
    rw [List.length_drop]
    omega
  have hlt := msdValue_lt ((utoa x).drop (i + 1))
    (fun d hd => utoa_lt_ten x hx d (List.mem_of_mem_drop hd))
  rw [hdl] at hval hlt
  symm
  apply Nat.div_eq_of_lt_le
  · omega
  · rw [Nat.add_mul, Nat.one_mul]
    omega

theorem trimZeros_utoa_ne_nil (x : Nat) (hx : 0 < x) : trimZeros (utoa x) ≠ [] := by
  intro h
  have hv := msdValue_trimZeros (utoa x)
  rw [h, msdValue_utoa x hx] at hv
  simp [msdValue] at hv
  omega

/-- The digits kept after trimming end at index `i` or before exactly when
`10^(len - 1 - i)` divides the number. -/
theorem trimZeros_length_le_iff (x i : Nat) (hx : 0 < x) (hi : i < (utoa x).length) :
    (trimZeros (utoa x)).length ≤ i + 1 ↔ 10 ^ ((utoa x).length - 1 - i) ∣ x := by
  obtain ⟨hb1, hb2⟩ := utoa_length_bounds x hx
  constructor
  · intro hle
    have hv := msdValue_trimZeros (utoa x)
    rw [msdValue_utoa x hx] at hv
    have hdv : 10 ^ ((utoa x).length - (trimZeros (utoa x)).length) ∣ x :=
      Dvd.intro_left _ hv
    exact dvd_trans (pow_dvd_pow 10 (by omega)) hdv
  · intro hdvd
    by_contra hcon
    have htpos : 0 < (trimZeros (utoa x)).length := by omega
    have hlast := trimZeros_last_ne_zero (utoa x) htpos
    have hle := trimZeros_length_le (utoa x)
    rw [getD_trimZeros, getD_utoa x _ _ hb1 hb2 (by omega)] at hlast
    apply hlast
    apply div_pow_mod_ten_of_dvd
    exact dvd_trans (pow_dvd_pow 10 (by omega)) hdvd

theorem scaledDecimal_standsFor (x e : Nat) (hx : 0 < x) : (scaledDecimal x e).standsFor x e := by
  refine ⟨trimZeros_valid _ (utoa_lt_ten x hx), trimZeros_utoa_ne_nil x hx,
    (utoa x).length - (trimZeros (utoa x)).length, ?_, ?_⟩
  · have := trimZeros_length_le (utoa x)
    simp only [scaledDecimal]
    omega
  · have := msdValue_trimZeros (utoa x)
    rw [msdValue_utoa x hx] at this
    exact this

theorem msdValue_ne_nil (ds : List Nat) (h : 0 < msdValue ds) : ds ≠ [] := by
  intro hnil
  rw [hnil] at h
  simp [msdValue] at h

/-- Cutting the decimal of `x` after `i + 1` digits gives the multiple of
`10^(len - 1 - i)` just below `x`. -/
theorem roundDown_standsFor (x e i : Nat) (hx : 0 < x)
    (hi : i + 1 < (trimZeros (utoa x)).length) :
    ((scaledDecimal x e).roundDown (i + 1)).standsFor
      (x / 10 ^ ((utoa x).length - 1 - i) * 10 ^ ((utoa x).length - 1 - i)) e := by
  have hle := trimZeros_length_le (utoa x)
  have hilen : i < (utoa x).length := by omega
  obtain ⟨hb1, hb2⟩ := utoa_length_bounds x hx
  have htake : (trimZeros (utoa x)).take (i + 1) = (utoa x).take (i + 1) :=
    take_trimZeros _ _ (by omega)
  have hval := msdValue_take_utoa x i hx hilen
  have hvalid : ∀ d ∈ (utoa x).take (i + 1), d < 10 :=
    fun d hd => utoa_lt_ten x hx d (List.mem_of_mem_take hd)
  have htl : ((utoa x).take (i + 1)).length = i + 1 := by
    rw [List.length_take]
    omega
  -- the leading part is not zero
  have hppos : 0 < x / 10 ^ ((utoa x).length - 1 - i) := by
    apply Nat.div_pos _ (Nat.pos_pow_of_pos _ (by decide))
    have h1 : 10 ^ ((utoa x).length - 1 - i) ≤ 10 ^ ((utoa x).length - 1) :=
      Nat.pow_le_pow_right (by decide) (by omega)
    have h2 : 10 ^ (utoa x).length = 10 ^ ((utoa x).length - 1) * 10 := by
      rw [← pow_succ]
      congr 1
      omega
    omega
  have htv := msdValue_trimZeros ((utoa x).take (i + 1))
  rw [hval, htl] at htv
  have htle := trimZeros_length_le ((utoa x).take (i + 1))
  rw [htl] at htle
  have hne : trimZeros ((utoa x).take (i + 1)) ≠ [] := by
    apply msdValue_ne_nil
    rcases Nat.eq_zero_or_pos (msdValue (trimZeros ((utoa x).take (i + 1)))) with h0 | h
    · rw [h0] at htv
      omega
    · exact h
  have hlenpos : (trimZeros ((utoa x).take (i + 1))).length ≠ 0 := by
    intro h0
    exact hne (List.length_eq_zero.1 h0)
  have hrd : (scaledDecimal x e).roundDown (i + 1) =
      ⟨trimZeros ((utoa x).take (i + 1)), ((utoa x).length : Int) - (e : Int)⟩ := by
    unfold decimal.roundDown
    simp only [scaledDecimal]
    rw [if_neg (by omega), htake]
    simp only [decimal.trim, hlenpos, if_false]
  rw [hrd]
  refine ⟨trimZeros_valid _ hvalid, hne,
    (i + 1 - (trimZeros ((utoa x).take (i + 1))).length) + ((utoa x).length - 1 - i), ?_, ?_⟩
  · simp only
    omega
  · rw [pow_add, ← Nat.mul_assoc, htv]

theorem msdValue_concat (ds : List Nat) (d : Nat) : msdValue (ds ++ [d]) = msdValue ds * 10 + d := by
  simp [msdValue, List.foldl_append]

theorem take_succ_getD (s : List Nat) (n : Nat) (hn : n < s.length) :
    s.take (n + 1) = s.take n ++ [s.getD n 0] := by
  rw [List.take_succ, List.getD_eq_getElem _ _ hn, List.getElem?_eq_getElem hn]
  rfl

/-- What the search of `roundUp` for a digit below 9 finds: either all of
the first `n` digits are 9, or the digits up to the one found, this one
raised by one, stand for the first `n` digits plus one. -/
theorem skipNines_spec (s : List Nat) (hvalid : ∀ d ∈ s, d < 10) :
    ∀ n, n ≤ s.length →
      (decimal.skipNines s n = 0 → msdValue (s.take n) + 1 = 10 ^ n) ∧
      (0 < decimal.skipNines s n →
        decimal.skipNines s n ≤ n ∧ s.getD (decimal.skipNines s n - 1) 0 < 9 ∧
        msdValue ((s.take (decimal.skipNines s n)).set (decimal.skipNines s n - 1)
            (s.getD (decimal.skipNines s n - 1) 0 + 1)) * 10 ^ (n - decimal.skipNines s n) =
          msdValue (s.take n) + 1) := by
  intro n
  induction n with
  | zero =>
    intro _
    exact ⟨fun _ => by simp [msdValue], fun h => by simp [decimal.skipNines] at h⟩
  | succ n ih =>
    intro hn
    have hlt : n < s.length := by omega
    obtain ⟨ih0, ihpos⟩ := ih (by omega)
    have hd : s.getD n 0 < 10 := by
      rw [List.getD_eq_getElem _ _ hlt]
      exact hvalid _ (List.getElem_mem _)
    have htake := take_succ_getD s n hlt
    by_cases h9 : s.getD n 0 ≥ 9
    · have hd9 : s.getD n 0 = 9 := by omega
      have hskip : decimal.skipNines s (n + 1) = decimal.skipNines s n := by
        simp only [decimal.skipNines, h9, if_true]
      rw [hskip, htake, msdValue_concat, hd9]
      constructor
      · intro h0
        have := ih0 h0
        rw [pow_succ]
        omega
      · intro hpos
        obtain ⟨h1, h2, h3⟩ := ihpos hpos
        refine ⟨by omega, h2, ?_⟩
        have hexp : n + 1 - decimal.skipNines s n = (n - decimal.skipNines s n) + 1 := by omega
        rw [hexp, pow_succ, ← Nat.mul_assoc, h3]
        omega
    · have hskip : decimal.skipNines s (n + 1) = n + 1 := by
        simp only [decimal.skipNines, h9, if_false]
      rw [hskip]
      constructor
      · intro h0
        omega
      · intro _
        refine ⟨le_refl _, by simpa using (by omega : s.getD n 0 < 9), ?_⟩
        have hlen : (s.take n).length = n := by
          rw [List.length_take]
          omega
        have hset : (s.take (n + 1)).set (n + 1 - 1) (s.getD (n + 1 - 1) 0 + 1) =
            s.take n ++ [s.getD n 0 + 1] := by
          rw [htake, Nat.add_sub_cancel, List.set_append, hlen, if_neg (by omega), Nat.sub_self]
          rfl
        rw [hset, htake, msdValue_concat, msdValue_concat, Nat.sub_self, pow_zero]
        omega

/-- Rounding the decimal of `x` up at `i + 1` digits gives the multiple of
`10^(len - 1 - i)` just above `x`. -/
theorem roundUp_standsFor (x e i : Nat) (hx : 0 < x)
    (hi : i + 1 < (trimZeros (utoa x)).length) :
    ((scaledDecimal x e).roundUp (i + 1)).standsFor
      ((x / 10 ^ ((utoa x).length - 1 - i) + 1) * 10 ^ ((utoa x).length - 1 - i)) e := by
  have hle := trimZeros_length_le (utoa x)
  have hilen : i < (utoa x).length := by omega
  have hTvalid := trimZeros_valid _ (utoa_lt_ten x hx)
  have htake : (trimZeros (utoa x)).take (i + 1) = (utoa x).take (i + 1) :=
    take_trimZeros _ _ (by omega)
  have hval := msdValue_take_utoa x i hx hilen
  obtain ⟨h0, hpos⟩ := skipNines_spec (trimZeros (utoa x)) hTvalid (i + 1) (by omega)
  rw [htake, hval] at h0 hpos
  unfold decimal.roundUp
  simp only [scaledDecimal]
  rw [if_neg (by omega)]
  by_cases hz : decimal.skipNines (trimZeros (utoa x)) (i + 1) = 0
  · rw [if_pos hz]
    refine ⟨by simp, by simp, (utoa x).length, by simp only [List.length_singleton]; omega, ?_⟩
    rw [h0 hz, ← pow_add]
    have : msdValue [1] = 1 := by simp [msdValue]
    rw [this, Nat.one_mul]
    congr 1
    omega
  · rw [if_neg hz]
    obtain ⟨h1, h2, h3⟩ := hpos (by omega)
    generalize decimal.skipNines (trimZeros (utoa x)) (i + 1) = n' at *
    have hlen : (((trimZeros (utoa x)).take n').set (n' - 1)
        ((trimZeros (utoa x)).getD (n' - 1) 0 + 1)).length = n' := by
      rw [List.length_set, List.length_take]
      omega
    refine ⟨?_, ?_, (utoa x).length - n', ?_, ?_⟩
    · intro d hd
      rcases List.mem_or_eq_of_mem_set hd with hd | hd
      · exact hTvalid d (List.mem_of_mem_take hd)
      · omega
    · intro hnil
      simp only at hnil
      rw [hnil] at hlen
      simp at hlen
      omega
    · simp only [hlen]
      omega
    · have hexp : (utoa x).length - n' = (i + 1 - n') + ((utoa x).length - 1 - i) := by omega
      rw [hexp, pow_add, ← Nat.mul_assoc, h3]

/-! ### The digit loop of `roundShortest` -/

theorem roundShortestLoop_succ (d lower upper : decimal) (inclusive : Bool) (fuel i : Nat) :
    roundShortestLoop d lower upper inclusive (fuel + 1) i =
      if okdown d lower inclusive i && okup d upper inclusive i then d.round (i + 1)
      else if okdown d lower inclusive i then d.roundDown (i + 1)
      else if okup d upper inclusive i then d.roundUp (i + 1)
      else roundShortestLoop d lower upper inclusive fuel (i + 1) := rfl

/-- The loop passes the digits where neither test holds and stops at the
first digit `k` where exactly one of them does. -/
theorem roundShortestLoop_at (d lower upper : decimal) (inclusive : Bool) (P : decimal → Prop)
    (k : Nat)
    (hskip : ∀ i < k, okdown d lower inclusive i = false ∧ okup d upper inclusive i = false)
    (hfire :
      (okdown d lower inclusive k = true ∧ okup d upper inclusive k = false ∧
        P (d.roundDown (k + 1))) ∨
      (okdown d lower inclusive k = false ∧ okup d upper inclusive k = true ∧
        P (d.roundUp (k + 1)))) :
    ∀ j i fuel, i + j = k → j < fuel →
      P (roundShortestLoop d lower upper inclusive fuel i) := by
  intro j
  induction j with
  | zero =>
    intro i fuel hi hfuel
    obtain ⟨f, hf⟩ : ∃ f, fuel = f + 1 := ⟨fuel - 1, by omega⟩
    have hik : i = k := by omega
    subst hf
    subst hik
    rw [roundShortestLoop_succ]
    rcases hfire with ⟨h1, h2, h3⟩ | ⟨h1, h2, h3⟩
    · simpa [h1, h2] using h3
    · simpa [h1, h2] using h3
  | succ j ih =>
    intro i fuel hi hfuel
    obtain ⟨f, hf⟩ : ∃ f, fuel = f + 1 := ⟨fuel - 1, by omega⟩
    subst hf
    obtain ⟨h1, h2⟩ := hskip i (by omega)
    rw [roundShortestLoop_succ]
    simp only [h1, h2, Bool.false_and, Bool.false_eq_true, if_false]
    exact ih (i + 1) f (by omega) (by omega)

theorem digitAt_scaledDecimal (x e i : Nat) (hx : 0 < x) (hi : i < (utoa x).length) :
    (scaledDecimal x e).digitAt i = x / 10 ^ ((utoa x).length - 1 - i) % 10 := by
  obtain ⟨hb1, hb2⟩ := utoa_length_bounds x hx
  simp only [decimal.digitAt, scaledDecimal]
  rw [getD_trimZeros, getD_utoa x _ i hb1 hb2 hi]

/-! ### Multiples of a power of ten between two numbers -/

theorem div_eq_of_no_multiple (a b g : Nat) (hg : 0 < g) (hab : a ≤ b)
    (h : ∀ m, g ∣ m → a < m → m ≤ b → False) : a / g = b / g := by
  have hle : a / g ≤ b / g := Nat.div_le_div_right hab
  rcases Nat.lt_or_ge (a / g) (b / g) with hlt | hge
  · exfalso
    apply h (b / g * g) (Dvd.intro_left _ rfl)
    · have h1 : a < (a / g + 1) * g := by
        rw [Nat.mul_comm]
        exact Nat.lt_mul_div_succ a hg
      have h2 : (a / g + 1) * g ≤ b / g * g := Nat.mul_le_mul_right _ hlt
      omega
    · exact Nat.div_mul_le_self b g
  · omega

theorem div_lt_of_multiple (a b g m : Nat) (hg : 0 < g) (hdvd : g ∣ m) (h1 : a < m)
    (h2 : m ≤ b) : a / g < b / g := by
  obtain ⟨c, hc⟩ := hdvd
  subst hc
  have ha : a / g < c := (Nat.div_lt_iff_lt_mul hg).2 (by rw [Nat.mul_comm]; exact h1)
  have hb : c ≤ b / g := (Nat.le_div_iff_mul_le hg).2 (by rw [Nat.mul_comm]; exact h2)
  omega

theorem digit_ne_of_div_lt (a b g : Nat) (h10 : a / (g * 10) = b / (g * 10))
    (hlt : a / g < b / g) : a / g % 10 ≠ b / g % 10 := by
  have ha := Nat.div_add_mod (a / g) 10
  have hb := Nat.div_add_mod (b / g) 10
  rw [Nat.div_div_eq_div_mul] at ha hb
  rw [h10] at ha
  omega

theorem multiple_unique (z m q l u f : Nat) (hm : z ∣ m) (hq : z ∣ q)
    (hlm : l ≤ m) (hmu : m ≤ u) (hlq : l ≤ q) (hqu : q ≤ u) (hu : u = l + 2 * f)
    (hsep : 2 * f < z) : m = q := by
  by_contra hne
  rcases Nat.lt_or_gt_of_ne hne with h | h
  · have hd : z ∣ q - m := Nat.dvd_sub' hq hm
    have := Nat.le_of_dvd (by omega) hd
    omega
  · have hd : z ∣ m - q := Nat.dvd_sub' hm hq
    have := Nat.le_of_dvd (by omega) hd
    omega

/-- The digit loop when the two bounds have as many digits as the value:
the result stands for the one multiple `q` of `10^z` between the bounds. -/
theorem shortest_aligned (L D U Q F e z : Nat) (incl : Bool)
    (hF : 0 < F) (hL : L + F = D) (hU : U = D + F) (hLpos : 0 < L)
    (hQL : L ≤ Q) (hQU : Q ≤ U) (hincl : (Q = L ∨ Q = U) → incl = true)
    (hz : 10 ^ z ∣ Q) (hsep : 2 * F < 10 ^ z)
    (hlenL : (utoa L).length = (utoa D).length) (hlenU : (utoa U).length = (utoa D).length) :
    (roundShortestLoop (scaledDecimal D e) (scaledDecimal L e) (scaledDecimal U e) incl
      (scaledDecimal D e).mant.length 0).standsFor Q e := by
  have hDpos : 0 < D := by omega
  have hUpos : 0 < U := by omega
  have hQpos : 0 < Q := by omega
  obtain ⟨hD1, hD2⟩ := utoa_length_bounds D hDpos
  obtain ⟨hL1, hL2⟩ := utoa_length_bounds L hLpos
  obtain ⟨hU1, hU2⟩ := utoa_length_bounds U hUpos
  rw [hlenL] at hL1 hL2
  rw [hlenU] at hU1 hU2
  have hlenQ : (utoa Q).length = (utoa D).length :=
    length_utoa Q _ (by omega) (by omega)
  have hlpos := utoa_length_pos D hDpos
  -- the digits of `Q`
  have htQne := trimZeros_utoa_ne_nil Q hQpos
  have htQle := trimZeros_length_le (utoa Q)
  rw [hlenQ] at htQle
  obtain ⟨k, hk⟩ : ∃ k, (trimZeros (utoa Q)).length = k + 1 :=
    ⟨(trimZeros (utoa Q)).length - 1, by
      have := List.length_pos.2 htQne
      omega⟩
  have hiffQ := fun i (hi : i < (utoa D).length) =>
    trimZeros_length_le_iff Q i hQpos (by rw [hlenQ]; exact hi)
  simp only [hlenQ] at hiffQ
  have hiffL := fun i (hi : i < (utoa D).length) =>
    trimZeros_length_le_iff L i hLpos (by rw [hlenL]; exact hi)
  simp only [hlenL] at hiffL
  have hiffU := fun i (hi : i < (utoa D).length) =>
    trimZeros_length_le_iff U i hUpos (by rw [hlenU]; exact hi)
  simp only [hlenU] at hiffU
  have hiffD := fun i (hi : i < (utoa D).length) => trimZeros_length_le_iff D i hDpos hi
  have hdigL := fun i (hi : i < (utoa D).length) =>
    digitAt_scaledDecimal L e i hLpos (by rw [hlenL]; exact hi)
  simp only [hlenL] at hdigL
  have hdigU := fun i (hi : i < (utoa D).length) =>
    digitAt_scaledDecimal U e i hUpos (by rw [hlenU]; exact hi)
  simp only [hlenU] at hdigU
  have hdigD := fun i (hi : i < (utoa D).length) => digitAt_scaledDecimal D e i hDpos hi
  have hF1 : 10 ^ ((utoa D).length - 1 - k) ∣ Q := (hiffQ k (by omega)).1 (by omega)
  have hF2 : ∀ g, (utoa D).length - 1 - k < g → ¬ 10 ^ g ∣ Q := by
    intro g hg hd
    rcases Nat.lt_or_ge g (utoa D).length with hlt | hge
    · have h1 := (hiffQ ((utoa D).length - 1 - g) (by omega)).2 (by
        have : (utoa D).length - 1 - ((utoa D).length - 1 - g) = g := by omega
        rw [this]
        exact hd)
      omega
    · have h1 : 10 ^ (utoa D).length ≤ 10 ^ g := Nat.pow_le_pow_right (by decide) hge
      have h2 := Nat.le_of_dvd hQpos hd
      omega
  have hzle : z ≤ (utoa D).length - 1 - k := by
    by_contra hcon
    exact hF2 z (by omega) hz
  have hUQ : ∀ M g, (utoa D).length - 1 - k ≤ g → 10 ^ g ∣ M → L ≤ M → M ≤ U → M = Q := by
    intro M g hg hd h1 h2
    exact multiple_unique (10 ^ z) M Q L U F (dvd_trans (pow_dvd_pow 10 (by omega)) hd) hz
      h1 h2 hQL hQU (by omega) hsep
  have hFG : F < 10 ^ ((utoa D).length - 1 - k) := by
    have : 10 ^ z ≤ 10 ^ ((utoa D).length - 1 - k) := Nat.pow_le_pow_right (by decide) hzle
    omega
  have hmantD : (scaledDecimal D e).mant.length = (trimZeros (utoa D)).length := rfl
  have hmantL : (scaledDecimal L e).mant.length = (trimZeros (utoa L)).length := rfl
  have hmantU : (scaledDecimal U e).mant.length = (trimZeros (utoa U)).length := rfl
  -- the loop reaches digit `k`
  have hreach : k < (trimZeros (utoa D)).length := by
    by_contra hcon
    have hk1 : 1 ≤ k := by
      have := List.length_pos.2 (trimZeros_utoa_ne_nil D hDpos)
      omega
    have hd := (hiffD (k - 1) (by omega)).1 (by omega)
    have heq := hUQ D _ (by omega) hd (by omega) (by omega)
    rw [heq] at hd
    exact hF2 _ (by omega) hd
  apply roundShortestLoop_at _ _ _ _ (fun r => r.standsFor Q e) k ?_ ?_ k 0 _ (by omega)
    (by rw [hmantD]; exact hreach)
  · -- before digit `k` the three numbers have the same digits
    intro i hi
    have hG : 0 < 10 ^ ((utoa D).length - 1 - i) := Nat.pos_pow_of_pos _ (by decide)
    have hno : ∀ M, 10 ^ ((utoa D).length - 1 - i) ∣ M → L ≤ M → M ≤ U → False := by
      intro M hd h1 h2
      have heq := hUQ M _ (by omega) hd h1 h2
      rw [heq] at hd
      exact hF2 _ (by omega) hd
    have hLD := div_eq_of_no_multiple L D _ hG (by omega)
      (fun M hd h1 h2 => hno M hd (by omega) (by omega))
    have hDU := div_eq_of_no_multiple D U _ hG (by omega)
      (fun M hd h1 h2 => hno M hd (by omega) (by omega))
    have htL : i + 1 ≠ (trimZeros (utoa L)).length := by
      intro heq
      exact hno L ((hiffL i (by omega)).1 (by omega)) (le_refl _) (by omega)
    constructor
    · simp only [okdown, hdigL i (by omega), hdigD i (by omega), hLD, hmantL]
      simp [htL]
    · simp only [okup, hdigU i (by omega), hdigD i (by omega), hDU]
      simp
  · -- at digit `k`
    have hG : 0 < 10 ^ ((utoa D).length - 1 - k) := Nat.pos_pow_of_pos _ (by decide)
    have hG10 : 0 < 10 ^ ((utoa D).length - 1 - k) * 10 := by omega
    have hno10 : ∀ M, 10 ^ ((utoa D).length - 1 - k) * 10 ∣ M → L ≤ M → M ≤ U → False := by
      intro M hd h1 h2
      rw [← pow_succ] at hd
      have heq := hUQ M _ (by omega) hd h1 h2
      rw [heq] at hd
      exact hF2 _ (by omega) hd
    have hLD10 := div_eq_of_no_multiple L D _ hG10 (by omega)
      (fun M hd h1 h2 => hno10 M hd (by omega) (by omega))
    have hDU10 := div_eq_of_no_multiple D U _ hG10 (by omega)
      (fun M hd h1 h2 => hno10 M hd (by omega) (by omega))
    by_cases hQD : Q ≤ D
    · left
      have hDU := div_eq_of_no_multiple D U _ hG (by omega)
        (fun M hd h1 h2 => by
          have := hUQ M _ (le_refl _) hd (by omega) h2
          omega)
      refine ⟨?_, ?_, ?_⟩
      · by_cases hLQ : L = Q
        · have hi := hincl (Or.inl hLQ.symm)
          have htL : k + 1 = (trimZeros (utoa L)).length := by rw [hLQ, hk]
          simp [okdown, hi, hmantL, htL]
        · have hlt := div_lt_of_multiple L D _ Q hG hF1 (by omega) hQD
          have hne := digit_ne_of_div_lt L D _ hLD10 hlt
          simp [okdown, hdigL k (by omega), hdigD k (by omega), hne]
      · simp only [okup, hdigU k (by omega), hdigD k (by omega), hDU]
        simp
      · by_cases ht : k + 1 < (trimZeros (utoa D)).length
        · have hr := roundDown_standsFor D e k hDpos ht
          have hQD2 := div_eq_of_no_multiple Q D _ hG hQD
            (fun M hd h1 h2 => by
              have := hUQ M _ (le_refl _) hd (by omega) (by omega)
              omega)
          rw [← hQD2, Nat.div_mul_cancel hF1] at hr
          exact hr
        · have hnoop : (scaledDecimal D e).roundDown (k + 1) = scaledDecimal D e := by
            unfold decimal.roundDown
            rw [if_pos (by rw [hmantD]; omega)]
          have hd := (hiffD k (by omega)).1 (by omega)
          have heq := hUQ D _ (le_refl _) hd (by omega) (by omega)
          rw [hnoop, ← heq]
          exact scaledDecimal_standsFor D e hDpos
    · right
      have hDQ : D < Q := by omega
      have hLD := div_eq_of_no_multiple L D _ hG (by omega)
        (fun M hd h1 h2 => by
          have := hUQ M _ (le_refl _) hd (by omega) (by omega)
          omega)
      have htL : k + 1 ≠ (trimZeros (utoa L)).length := by
        intro heq
        have hd := (hiffL k (by omega)).1 (by omega)
        have := hUQ L _ (le_refl _) hd (le_refl _) (by omega)
        omega
      refine ⟨?_, ?_, ?_⟩
      · simp only [okdown, hdigL k (by omega), hdigD k (by omega), hLD, hmantL]
        simp [htL]
      · have hlt := div_lt_of_multiple D U _ Q hG hF1 hDQ hQU
        have hne := digit_ne_of_div_lt D U _ hDU10 hlt
        by_cases hQU2 : Q = U
        · have hi := hincl (Or.inr hQU2)
          simp [okup, hdigU k (by omega), hdigD k (by omega), hne, hi]
        · have htU : k + 1 < (trimZeros (utoa U)).length := by
            by_contra hcon
            have hd := (hiffU k (by omega)).1 (by omega)
            have := hUQ U _ (le_refl _) hd (by omega) (le_refl _)
            omega
          simp [okup, hdigU k (by omega), hdigD k (by omega), hne, hmantU, htU]
      · have ht : k + 1 < (trimZeros (utoa D)).length := by
          by_contra hcon
          have hd := (hiffD k (by omega)).1 (by omega)
          have := hUQ D _ (le_refl _) hd (by omega) (by omega)
          omega
        have hr := roundUp_standsFor D e k hDpos ht
        have hlt := div_lt_of_multiple D Q _ Q hG hF1 hDQ (le_refl _)
        have hM1 : D < (D / 10 ^ ((utoa D).length - 1 - k) + 1) * 10 ^ ((utoa D).length - 1 - k) := by
          rw [Nat.mul_comm]
          exact Nat.lt_mul_div_succ D hG
        have hM2 : (D / 10 ^ ((utoa D).length - 1 - k) + 1) * 10 ^ ((utoa D).length - 1 - k) ≤ Q := by
          calc (D / 10 ^ ((utoa D).length - 1 - k) + 1) * 10 ^ ((utoa D).length - 1 - k)
              ≤ Q / 10 ^ ((utoa D).length - 1 - k) * 10 ^ ((utoa D).length - 1 - k) :=
                Nat.mul_le_mul_right _ hlt
            _ ≤ Q := Nat.div_mul_le_self _ _
        have heq := hUQ ((D / 10 ^ ((utoa D).length - 1 - k) + 1) * 10 ^ ((utoa D).length - 1 - k))
          ((utoa D).length - 1 - k) (le_refl _) (Dvd.intro_left _ rfl)
          (le_trans (by omega) (le_of_lt hM1)) (le_trans hM2 hQU)
        rw [heq] at hr
        exact hr

theorem utoa_length_mono (a b : Nat) (ha : 0 < a) (hab : a ≤ b) :
    (utoa a).length ≤ (utoa b).length := by
  obtain ⟨ha1, ha2⟩ := utoa_length_bounds a ha
  obtain ⟨hb1, hb2⟩ := utoa_length_bounds b (by omega)
  by_contra hcon
  have h1 : 10 ^ ((utoa b).length + 1) ≤ 10 ^ (utoa a).length :=
    Nat.pow_le_pow_right (by decide) (by omega)
  rw [pow_succ] at h1
  omega

/-- The digit loop when the lower bound has fewer digits than the value: the
value is rounded down to a power of ten at its first digit. -/
theorem shortest_below (L D U Q F e z : Nat) (incl : Bool)
    (hF : 0 < F) (hL : L + F = D) (hU : U = D + F) (hbig : 40 * F ≤ D)
    (hQL : L ≤ Q) (hQU : Q ≤ U) (hz : 10 ^ z ∣ Q) (hsep : 2 * F < 10 ^ z)
    (hlen : (utoa L).length < (utoa D).length) :
    (roundShortestLoop (scaledDecimal D e) (scaledDecimal L e) (scaledDecimal U e) incl
      (scaledDecimal D e).mant.length 0).standsFor Q e := by
  have hDpos : 0 < D := by omega
  have hLpos : 0 < L := by omega
  have hUpos : 0 < U := by omega
  have hQpos : 0 < Q := by omega
  obtain ⟨hD1, hD2⟩ := utoa_length_bounds D hDpos
  obtain ⟨hL1, hL2⟩ := utoa_length_bounds L hLpos
  have hLlen := utoa_length_pos L hLpos
  obtain ⟨t, ht⟩ : ∃ t, (utoa D).length = t + 2 := ⟨(utoa D).length - 2, by omega⟩
  have hT : 0 < 10 ^ t := Nat.pos_pow_of_pos _ (by decide)
  have hLT : 10 ^ (utoa L).length ≤ 10 ^ (t + 1) := Nat.pow_le_pow_right (by decide) (by omega)
  rw [ht] at hD1 hD2
  have e2 : 10 ^ (t + 2) = 10 ^ t * 100 := by rw [pow_add]; rfl
  have e1 : 10 ^ (t + 1) = 10 ^ t * 10 := by rw [pow_add]; rfl
  rw [e2] at hD1 hD2
  rw [e1] at hLT
  have hlenL : (utoa L).length = t + 1 := length_utoa L _ (by rw [e1]; omega) (by rw [e1]; omega)
  have hlenU : (utoa U).length = t + 2 := length_utoa U _ (by rw [e2]; omega) (by rw [e2]; omega)
  have hzle : z ≤ t + 1 := by
    by_contra hcon
    have h1 : 10 ^ (t + 2) ≤ 10 ^ z := Nat.pow_le_pow_right (by decide) (by omega)
    have h2 := Nat.le_of_dvd hQpos hz
    rw [e2] at h1
    omega
  have hQ : 10 ^ (t + 1) = Q :=
    multiple_unique (10 ^ z) _ Q L U F (pow_dvd_pow 10 hzle) hz (by rw [e1]; omega)
      (by rw [e1]; omega) hQL hQU (by omega) hsep
  have hdD := digitAt_scaledDecimal D e 0 hDpos (by omega)
  have hdL := digitAt_scaledDecimal L e 0 hLpos (by omega)
  have hdU := digitAt_scaledDecimal U e 0 hUpos (by omega)
  rw [ht] at hdD
  rw [hlenL] at hdL
  rw [hlenU] at hdU
  have x1 : t + 2 - 1 - 0 = t + 1 := by omega
  have x2 : t + 1 - 1 - 0 = t := by omega
  rw [x1] at hdD hdU
  rw [x2] at hdL
  have hqD : D / 10 ^ (t + 1) = 1 := Nat.div_eq_of_lt_le (by rw [e1]; omega) (by rw [e1]; omega)
  have hqU : U / 10 ^ (t + 1) = 1 := Nat.div_eq_of_lt_le (by rw [e1]; omega) (by rw [e1]; omega)
  have hqL : L / 10 ^ t = 9 := Nat.div_eq_of_lt_le (by omega) (by omega)
  rw [hqD] at hdD
  rw [hqU] at hdU
  rw [hqL] at hdL
  have hmantD : (scaledDecimal D e).mant.length = (trimZeros (utoa D)).length := rfl
  have hfuel : 0 < (trimZeros (utoa D)).length :=
    List.length_pos.2 (trimZeros_utoa_ne_nil D hDpos)
  apply roundShortestLoop_at _ _ _ _ (fun r => r.standsFor Q e) 0 ?_ ?_ 0 0 _ (by omega)
    (by rw [hmantD]; exact hfuel)
  · intro i hi
    omega
  · left
    refine ⟨?_, ?_, ?_⟩
    · simp [okdown, hdD, hdL]
    · simp [okup, hdD, hdU]
    · by_cases h1 : 0 + 1 < (trimZeros (utoa D)).length
      · have hr := roundDown_standsFor D e 0 hDpos h1
        rw [ht, x1, hqD, Nat.one_mul, hQ] at hr
        exact hr
      · have hnoop : (scaledDecimal D e).roundDown (0 + 1) = scaledDecimal D e := by
          unfold decimal.roundDown
          rw [if_pos (by rw [hmantD]; omega)]
        have hd := (trimZeros_length_le_iff D 0 hDpos (by omega)).1 (by omega)
        rw [ht, x1] at hd
        have hDQ : D = Q := by
          rw [← hQ, ← Nat.div_mul_cancel hd, hqD, Nat.one_mul]
        rw [hnoop, ← hDQ]
        exact scaledDecimal_standsFor D e hDpos

/-- The digit loop when the upper bound has more digits than the value: the
value is rounded up to a power of ten at its first digit. -/
theorem shortest_above (L D U Q F e z : Nat) (incl : Bool)
    (hF : 0 < F) (hL : L + F = D) (hU : U = D + F) (hbig : 40 * F ≤ D)
    (hQL : L ≤ Q) (hQU : Q ≤ U) (hincl : (Q = L ∨ Q = U) → incl = true)
    (hz : 10 ^ z ∣ Q) (hsep : 2 * F < 10 ^ z)
    (hlen : (utoa D).length < (utoa U).length) :
    (roundShortestLoop (scaledDecimal D e) (scaledDecimal L e) (scaledDecimal U e) incl
      (scaledDecimal D e).mant.length 0).standsFor Q e := by
  have hDpos : 0 < D := by omega
  have hLpos : 0 < L := by omega
  have hUpos : 0 < U := by omega
  have hQpos : 0 < Q := by omega
  obtain ⟨hD1, hD2⟩ := utoa_length_bounds D hDpos
  obtain ⟨hU1, hU2⟩ := utoa_length_bounds U hUpos
  have hDlen := utoa_length_pos D hDpos
  obtain ⟨t, ht⟩ : ∃ t, (utoa D).length = t + 1 := ⟨(utoa D).length - 1, by omega⟩
  have hT : 0 < 10 ^ t := Nat.pos_pow_of_pos _ (by decide)
  have hUT : 10 ^ (t + 2) ≤ 10 ^ (utoa U).length := Nat.pow_le_pow_right (by decide) (by omega)
  rw [ht] at hD1 hD2
  have e2 : 10 ^ (t + 2) = 10 ^ t * 100 := by rw [pow_add]; rfl
  have e1 : 10 ^ (t + 1) = 10 ^ t * 10 := by rw [pow_add]; rfl
  rw [e1] at hD1 hD2
  rw [e2] at hUT
  have hlenL : (utoa L).length = t + 1 := length_utoa L _ (by rw [e1]; omega) (by rw [e1]; omega)
  have hlenU : (utoa U).length = t + 2 := length_utoa U _ (by rw [e2]; omega) (by rw [e2]; omega)
  have hzle : z ≤ t + 1 := by
    by_contra hcon
    have h1 : 10 ^ (t + 2) ≤ 10 ^ z := Nat.pow_le_pow_right (by decide) (by omega)
    have h2 := Nat.le_of_dvd hQpos hz
    rw [e2] at h1
    omega
  have hQ : 10 ^ (t + 1) = Q :=
    multiple_unique (10 ^ z) _ Q L U F (pow_dvd_pow 10 hzle) hz (by rw [e1]; omega)
      (by rw [e1]; omega) hQL hQU (by omega) hsep
  have hdD := digitAt_scaledDecimal D e 0 hDpos (by omega)
  have hdL := digitAt_scaledDecimal L e 0 hLpos (by omega)
  have hdU := digitAt_scaledDecimal U e 0 hUpos (by omega)
  rw [ht] at hdD
  rw [hlenL] at hdL
  rw [hlenU] at hdU
  have x1 : t + 2 - 1 - 0 = t + 1 := by omega
  have x2 : t + 1 - 1 - 0 = t := by omega
  rw [x1] at hdU
  rw [x2] at hdD hdL
  have hqD : D / 10 ^ t = 9 := Nat.div_eq_of_lt_le (by omega) (by omega)
  have hqL : L / 10 ^ t = 9 := Nat.div_eq_of_lt_le (by omega) (by omega)
  have hqU : U / 10 ^ (t + 1) = 1 := Nat.div_eq_of_lt_le (by rw [e1]; omega) (by rw [e1]; omega)
  rw [hqD] at hdD
  rw [hqU] at hdU
  rw [hqL] at hdL
  have hmantD : (scaledDecimal D e).mant.length = (trimZeros (utoa D)).length := rfl
  have hmantL : (scaledDecimal L e).mant.length = (trimZeros (utoa L)).length := rfl
  have hmantU : (scaledDecimal U e).mant.length = (trimZeros (utoa U)).length := rfl
  have hfuel : 0 < (trimZeros (utoa D)).length :=
    List.length_pos.2 (trimZeros_utoa_ne_nil D hDpos)
  have htD : 0 + 1 < (trimZeros (utoa D)).length := by
    by_contra hcon
    have hd := (trimZeros_length_le_iff D 0 hDpos (by omega)).1 (by omega)
    rw [ht, x2] at hd
    have := Nat.div_mul_cancel hd
    rw [hqD] at this
    omega
  have htL : 0 + 1 ≠ (trimZeros (utoa L)).length := by
    intro hcon
    have hd := (trimZeros_length_le_iff L 0 hLpos (by omega)).1 (by omega)
    rw [hlenL, x2] at hd
    have := Nat.div_mul_cancel hd
    rw [hqL] at this
    omega
  apply roundShortestLoop_at _ _ _ _ (fun r => r.standsFor Q e) 0 ?_ ?_ 0 0 _ (by omega)
    (by rw [hmantD]; exact hfuel)
  · intro i hi
    omega
  · right
    refine ⟨?_, ?_, ?_⟩
    · simp only [okdown, hdD, hdL, hmantL]
      simp [htL]
    · by_cases hQU2 : Q = U
      · have hi := hincl (Or.inr hQU2)
        simp [okup, hdD, hdU, hi]
      · have htU : 0 + 1 < (trimZeros (utoa U)).length := by
          by_contra hcon
          have hd := (trimZeros_length_le_iff U 0 hUpos (by omega)).1 (by omega)
          rw [hlenU, x1] at hd
          have := Nat.div_mul_cancel hd
          rw [hqU, Nat.one_mul, hQ] at this
          omega
        simp only [okup, hdD, hdU, hmantU]
        simp [htU]
    · have hr := roundUp_standsFor D e 0 hDpos htD
      rw [ht, x2, hqD] at hr
      have : (9 + 1) * 10 ^ t = Q := by rw [← hQ, e1]; ring
      rw [this] at hr
      exact hr

/-- The digit loop ends at the one multiple of `10^z` between the bounds. -/
theorem shortest_interval (L D U Q F e z : Nat) (incl : Bool)
    (hF : 0 < F) (hL : L + F = D) (hU : U = D + F) (hbig : 40 * F ≤ D)
    (hQL : L ≤ Q) (hQU : Q ≤ U) (hincl : (Q = L ∨ Q = U) → incl = true)
    (hz : 10 ^ z ∣ Q) (hsep : 2 * F < 10 ^ z) :
    (roundShortestLoop (scaledDecimal D e) (scaledDecimal L e) (scaledDecimal U e) incl
      (scaledDecimal D e).mant.length 0).standsFor Q e := by
  have h1 := utoa_length_mono L D (by omega) (by omega)
  have h2 := utoa_length_mono D U (by omega) (by omega)
  rcases Nat.lt_or_ge (utoa L).length (utoa D).length with hlt | hge
  · exact shortest_below L D U Q F e z incl hF hL hU hbig hQL hQU hz hsep hlt
  · rcases Nat.lt_or_ge (utoa D).length (utoa U).length with hlt2 | hge2
    · exact shortest_above L D U Q F e z incl hF hL hU hbig hQL hQU hincl hz hsep hlt2
    · exact shortest_aligned L D U Q F e z incl hF hL hU (by omega) hQL hQU hincl hz hsep
        (by omega) (by omega)

/-! ### The shortest digits of a quotient by `10^9` -/

theorem init_neg_shift (w k : Nat) (hw : 0 < w) :
    decimal.init w (-(k : Int)) = scaledDecimal (w * 5 ^ k) k := by
  have t1 : (-(-(k : Int))).toNat = k := by omega
  have t2 : (-(k : Int)).toNat = 0 := by omega
  unfold decimal.init scaledDecimal
  rw [if_neg (by omega)]
  simp only [t1, t2, pow_zero, Nat.mul_one]

theorem scaledDecimal_mul_ten (x e : Nat) (hx : 0 < x) :
    scaledDecimal (x * 10) (e + 1) = scaledDecimal x e := by
  have h := utoa_mul_pow_ten x 1 hx
  rw [pow_one] at h
  unfold scaledDecimal
  rw [h, trimZeros_append_zeros]
  simp only [List.length_append, List.length_replicate, decimal.mk.injEq, true_and]
  push_cast
  omega

theorem two_five_lt_ten_pow (k : Nat) (hk : 30 ≤ k) : 2 * 5 ^ (k + 1) < 10 ^ (k - 8) := by
  obtain ⟨j, rfl⟩ : ∃ j, k = j + 30 := ⟨k - 30, by omega⟩
  have e1 : j + 30 + 1 = (j + 22) + 9 := by omega
  have e2 : j + 30 - 8 = j + 22 := by omega
  rw [e1, e2, pow_add 5 (j + 22) 9]
  have h10 : (10 : Nat) ^ (j + 22) = 2 ^ (j + 22) * 5 ^ (j + 22) := by rw [← Nat.mul_pow]
  have h2 : (2 : Nat) ^ 22 ≤ 2 ^ (j + 22) := Nat.pow_le_pow_right (by decide) (by omega)
  have h5 : 0 < 5 ^ (j + 22) := Nat.pos_pow_of_pos _ (by decide)
  rw [h10]
  have h3 : 2 * (5 ^ (j + 22) * 5 ^ 9) = 3906250 * 5 ^ (j + 22) := by ring
  rw [h3]
  have h4 : 3906250 * 5 ^ (j + 22) < 2 ^ 22 * 5 ^ (j + 22) :=
    Nat.mul_lt_mul_of_pos_right (by norm_num) h5
  exact lt_of_lt_of_le h4 (Nat.mul_le_mul_right _ h2)

/-- The decimal that `Text` lays out for the quotient of a non-zero `x` below
`2^23 * 10^9` in absolute value by `10^9` stands for `|x| / 10^9` exactly. -/
theorem roundShortest_Quo (x : Int) (hx : x ≠ 0) (hlt : x.natAbs < 2 ^ 23 * 10 ^ 9) :
    ∃ k : Nat, 8 ≤ k ∧
      (BigFloat.Quo (BigFloat.SetInt x) (BigFloat.SetInt64 (10 ^ 9))).neg = decide (x < 0) ∧
      (roundShortest
        (decimal.init (BigFloat.Quo (BigFloat.SetInt x) (BigFloat.SetInt64 (10 ^ 9))).mant
          (BigFloat.Quo (BigFloat.SetInt x) (BigFloat.SetInt64 (10 ^ 9))).exp)
        (BigFloat.Quo (BigFloat.SetInt x) (BigFloat.SetInt64 (10 ^ 9)))).standsFor
        (x.natAbs * 10 ^ (k - 8)) (k + 1) := by
  obtain ⟨m, k, hq, hm1, hm2, hk, ha, hb, htie⟩ := Quo_SetInt_spec x hx hlt
  refine ⟨k, by omega, by rw [hq], ?_⟩
  rw [hq]
  have hmpos : 0 < m := by
    have : 0 < 2 ^ 52 := Nat.pos_pow_of_pos _ (by decide)
    omega
  have hF : 0 < 5 ^ (k + 1) := Nat.pos_pow_of_pos _ (by decide)
  have h10 : (10 : Nat) ^ (k + 1) = 10 ^ 9 * 10 ^ (k - 8) := by
    rw [← pow_add]
    congr 1
    omega
  have h25 : (2 : Nat) ^ (k + 1) * 5 ^ (k + 1) = 10 ^ 9 * 10 ^ (k - 8) := by
    rw [← Nat.mul_pow]
    exact h10
  have hpos9 : 0 < 10 ^ 9 := by norm_num
  -- the bounds of the rounding, at the scale `10^(k+1)`
  have hQU : x.natAbs * 10 ^ (k - 8) ≤ 2 * m * 5 ^ (k + 1) + 5 ^ (k + 1) := by
    apply Nat.le_of_mul_le_mul_left _ hpos9
    calc 10 ^ 9 * (x.natAbs * 10 ^ (k - 8))
        = x.natAbs * 2 ^ (k + 1) * 5 ^ (k + 1) := by rw [Nat.mul_assoc x.natAbs, h25]; ring
      _ ≤ (2 * m * 10 ^ 9 + 10 ^ 9) * 5 ^ (k + 1) := Nat.mul_le_mul_right _ hb
      _ = 10 ^ 9 * (2 * m * 5 ^ (k + 1) + 5 ^ (k + 1)) := by ring
  have hQL : 2 * m * 5 ^ (k + 1) ≤ x.natAbs * 10 ^ (k - 8) + 5 ^ (k + 1) := by
    apply Nat.le_of_mul_le_mul_left _ hpos9
    calc 10 ^ 9 * (2 * m * 5 ^ (k + 1))
        = 2 * m * 10 ^ 9 * 5 ^ (k + 1) := by ring
      _ ≤ (x.natAbs * 2 ^ (k + 1) + 10 ^ 9) * 5 ^ (k + 1) := Nat.mul_le_mul_right _ ha
      _ = 10 ^ 9 * (x.natAbs * 10 ^ (k - 8) + 5 ^ (k + 1)) := by
        rw [Nat.add_mul, Nat.mul_assoc x.natAbs, h25]; ring
  have htieL : x.natAbs * 10 ^ (k - 8) + 5 ^ (k + 1) = 2 * m * 5 ^ (k + 1) → m % 2 = 0 := by
    intro h
    apply htie
    left
    apply Nat.eq_of_mul_eq_mul_right hF
    calc 2 * m * 10 ^ 9 * 5 ^ (k + 1)
        = 10 ^ 9 * (2 * m * 5 ^ (k + 1)) := by ring
      _ = 10 ^ 9 * (x.natAbs * 10 ^ (k - 8) + 5 ^ (k + 1)) := by rw [h]
      _ = (x.natAbs * 2 ^ (k + 1) + 10 ^ 9) * 5 ^ (k + 1) := by
        rw [Nat.add_mul, Nat.mul_assoc x.natAbs, h25]; ring
  have htieU : x.natAbs * 10 ^ (k - 8) = 2 * m * 5 ^ (k + 1) + 5 ^ (k + 1) → m % 2 = 0 := by
    intro h
    apply htie
    right
    apply Nat.eq_of_mul_eq_mul_right hF
    calc x.natAbs * 2 ^ (k + 1) * 5 ^ (k + 1)
        = 10 ^ 9 * (x.natAbs * 10 ^ (k - 8)) := by rw [Nat.mul_assoc x.natAbs, h25]; ring
      _ = 10 ^ 9 * (2 * m * 5 ^ (k + 1) + 5 ^ (k + 1)) := by rw [h]
      _ = (2 * m * 10 ^ 9 + 10 ^ 9) * 5 ^ (k + 1) := by ring
  -- the three decimals of `roundShortest`
  have hd0 : decimal.init m (-(k : Int)) = scaledDecimal (2 * m * 5 ^ (k + 1)) (k + 1) := by
    rw [init_neg_shift m k hmpos, ← scaledDecimal_mul_ten _ k (Nat.mul_pos hmpos (Nat.pos_pow_of_pos _ (by decide)))]
    congr 1
    ring
  have hexp : -(k : Int) - 1 = -((k + 1 : Nat) : Int) := by push_cast; ring
  have hlo : decimal.init (2 * m - 1) (-(k : Int) - 1) =
      scaledDecimal ((2 * m - 1) * 5 ^ (k + 1)) (k + 1) := by
    rw [hexp, init_neg_shift _ _ (by omega)]
  have hup : decimal.init (2 * m + 1) (-(k : Int) - 1) =
      scaledDecimal ((2 * m + 1) * 5 ^ (k + 1)) (k + 1) := by
    rw [hexp, init_neg_shift _ _ (by omega)]
  have hne : (scaledDecimal (2 * m * 5 ^ (k + 1)) (k + 1)).mant.length ≠ 0 := by
    have := List.length_pos.2 (trimZeros_utoa_ne_nil (2 * m * 5 ^ (k + 1))
      (Nat.mul_pos (by omega) hF))
    exact Nat.pos_iff_ne_zero.1 this
  unfold roundShortest
  simp only [hd0, if_neg hne, hlo, hup]
  have hLeq : (2 * m - 1) * 5 ^ (k + 1) + 5 ^ (k + 1) = 2 * m * 5 ^ (k + 1) := by
    have : 2 * m - 1 + 1 = 2 * m := by omega
    rw [← Nat.succ_mul, Nat.succ_eq_add_one, this]
  have hUeq : (2 * m + 1) * 5 ^ (k + 1) = 2 * m * 5 ^ (k + 1) + 5 ^ (k + 1) := by ring
  have hbig : 40 * 5 ^ (k + 1) ≤ 2 * m * 5 ^ (k + 1) :=
    Nat.mul_le_mul_right _ (by
      have : (2 : Nat) ^ 52 = 4503599627370496 := by norm_num
      omega)
  exact shortest_interval _ _ _ (x.natAbs * 10 ^ (k - 8)) (5 ^ (k + 1)) (k + 1) (k - 8)
    (decide (m % 2 = 0)) hF hLeq hUeq hbig (by omega) (by omega)
    (by
      intro h
      rcases h with h | h
      · exact decide_eq_true (htieL (by omega))
      · exact decide_eq_true (htieU (by omega)))
    (Dvd.intro_left _ rfl) (two_five_lt_ten_pow k hk)

/-- The text of the quotient of `x` by `10^9` at precision 53 is a decimal
numeral of value exactly `x / 10^9`, for every `x` below `2^23 * 10^9` in
absolute value: up to there the numbers of precision 53 lie closer together
than `10^(-9)`. -/
theorem denotes_Text_Quo (x : Int) (hlt : x.natAbs < 2 ^ 23 * 10 ^ 9) :
    denotes (BigFloat.Quo (BigFloat.SetInt x) (BigFloat.SetInt64 (10 ^ 9))).Text x (10 ^ 9) := by
  by_cases hx : x = 0
  · subst hx
    decide
  · obtain ⟨k, hk8, hneg, hvalid, hne, c, hc, hval⟩ := roundShortest_Quo x hx hlt
    unfold BigFloat.Text
    simp only [hneg]
    generalize roundShortest _ _ = r at hvalid hne hc hval ⊢
    obtain ⟨mant, exp⟩ := r
    simp only at hvalid hne hc hval ⊢
    obtain ⟨⟨n, s, huns, hn⟩, hminus⟩ := unsignedValue_fmtF mant exp (k + 1) c hvalid hne hc
    have h10 : (10 : Nat) ^ (k + 1) = 10 ^ 9 * 10 ^ (k - 8) := by
      rw [← pow_add]
      congr 1
      omega
    have hpos : 0 < 10 ^ (k - 8) := Nat.pos_pow_of_pos _ (by decide)
    have hnat : n * 10 ^ 9 = x.natAbs * 10 ^ s := by
      apply Nat.eq_of_mul_eq_mul_right hpos
      calc n * 10 ^ 9 * 10 ^ (k - 8) = n * 10 ^ (k + 1) := by rw [h10]; ring
        _ = msdValue mant * 10 ^ c * 10 ^ s := by rw [hn, pow_add]; ring
        _ = x.natAbs * 10 ^ s * 10 ^ (k - 8) := by rw [hval]; ring
    have hint : (n : Int) * ((10 ^ 9 : Nat) : Int) = (x.natAbs : Int) * (10 : Int) ^ s := by
      exact_mod_cast hnat
    by_cases hlt0 : x < 0
    · have hdec : decimalValue (String.mk ((if decide (x < 0) = true then ['-'] else []) ++
          fmtF (((mant.length : Int) - exp).toNat) ⟨mant, exp⟩)) = some (-(n : Int), s) := by
        simp only [hlt0, decide_True, if_true, List.singleton_append]
        unfold decimalValue
        simp only [huns, Option.map_some']
      unfold denotes
      rw [hdec]
      simp only
      have habs : (x.natAbs : Int) = -x := by omega
      rw [habs] at hint
      rw [neg_mul, hint, neg_mul, neg_neg]
    · have hdec : decimalValue (String.mk ((if decide (x < 0) = true then ['-'] else []) ++
          fmtF (((mant.length : Int) - exp).toNat) ⟨mant, exp⟩)) = some ((n : Int), s) := by
        simp only [hlt0, decide_False, Bool.false_eq_true, if_false, List.nil_append]
        unfold decimalValue
        split
        · rename_i cs heq
          exact absurd heq (hminus cs)
        · rw [huns]
          rfl
      unfold denotes
      rw [hdec]
      simp only
      have habs : (x.natAbs : Int) = x := by omega
      rw [habs] at hint
      exact hint

/-- The bound of `denotes_Text_Quo` cannot be raised: from `2^23` on the
numbers of precision 53 lie further apart than `10^(-9)`, and the text of
`(2^23 * 10^9 + 1) / 10^9` is `8388608.000000002`. -/
theorem Text_Quo_at_bound :
    (8388608000000001 : Int) = 2 ^ 23 * 10 ^ 9 + 1 ∧
      (BigFloat.Quo (BigFloat.SetInt 8388608000000001) (BigFloat.SetInt64 (10 ^ 9))).Text
        = "8388608.000000002" ∧
      ¬ denotes "8388608.000000002" 8388608000000001 (10 ^ 9) := by
  decide

/-- A block without `build` in its extra-data that carries no base fee:
`burned.Mul(burned, block.BaseFee())` dereferences nil, and the handler panics
before it writes a response. -/
theorem missing_base_fee_panics :
    (getBlockReward (sampleUpstream "200" "100" "555" preLondonBlock (plainReceipts, none))
        "100").panicked = true ∧
      (getBlockReward (sampleUpstream "200" "100" "555" preLondonBlock (plainReceipts, none))
        "100").written = [] := by
  decide

/-! ## Properties -/

/-- C5: when the requested slot `s` lies above the successfully resolved
head slot `h`, both handlers answer with status 400 and a single error body,
and the only upstream call issued is the lookup of the head: no
execution-layer call and no further consensus-layer call. -/
theorem future_slot_rejected (up : Upstream) (slot : String) (s h : Nat)
    (hs : ParseUint slot = (s, none)) (hh : headResolves up h) (hlt : s > h) :
    ((getBlockReward up slot).statusCode = some 400 ∧
      (getBlockReward up slot).written =
        [Written.error StatusBadRequest ⟨"getBlockReward: invalid slot"⟩] ∧
      (getBlockReward up slot).calls = [Call.beaconBlocks "head"] ∧
      (getBlockReward up slot).calls.any Call.isExecutionLayer = false ∧
      (getBlockReward up slot).panicked = false) ∧
    ((getSyncDuties up slot).statusCode = some 400 ∧
      (getSyncDuties up slot).written =
        [Written.error StatusBadRequest ⟨"getSyncDuties: invalid slot"⟩] ∧
      (getSyncDuties up slot).calls = [Call.beaconBlocks "head"] ∧
      (getSyncDuties up slot).calls.any Call.isExecutionLayer = false ∧
      (getSyncDuties up slot).panicked = false) := by
  have hb : getBlockReward up slot =
      respondWithError (Conn.start.call (Call.beaconBlocks "head")) StatusBadRequest
        "getBlockReward: invalid slot" := by
    simp [getBlockReward, hs, getCurrentSlot_of_headResolves up _ h hh, hlt]
  have hd : getSyncDuties up slot =
      respondWithError (Conn.start.call (Call.beaconBlocks "head")) StatusBadRequest
        "getSyncDuties: invalid slot" := by
    simp [getSyncDuties, hs, getCurrentSlot_of_headResolves up _ h hh, hlt]
  rw [hb, hd]
  refine ⟨⟨rfl, rfl, rfl, rfl, rfl⟩, ⟨rfl, rfl, rfl, rfl, rfl⟩⟩

theorem future_slot_rejected_witness :
    (getBlockReward (sampleUpstream "200" "300" "555" builderBlock ([], none)) "300").statusCode
        = some 400 ∧
      (getBlockReward (sampleUpstream "200" "300" "555" builderBlock ([], none)) "300").calls
        = [Call.beaconBlocks "head"] ∧
      (getSyncDuties (sampleUpstream "200" "300" "555" builderBlock ([], none)) "300").statusCode
        = some 400 ∧
      (getSyncDuties (sampleUpstream "200" "300" "555" builderBlock ([], none)) "300").calls
        = [Call.beaconBlocks "head"] := by
  have h := future_slot_rejected (sampleUpstream "200" "300" "555" builderBlock ([], none))
    "300" 300 200 (by decide) ⟨⟨"200", "0"⟩, by decide, by decide, by decide⟩ (by decide)
  exact ⟨h.1.1, h.1.2.2.1, h.2.1, h.2.2.2.1⟩

/-- C8 (as the code has it): when the slot path parameter does not parse as
an unsigned 64-bit decimal integer, both handlers answer with status 500 and
a single error body, and issue no upstream call. -/
theorem unparsable_slot_rejected (up : Upstream) (slot : String)
    (hs : (ParseUint slot).2 ≠ none) :
    ((getBlockReward up slot).statusCode = some 500 ∧
      (getBlockReward up slot).written =
        [Written.error StatusInternalServerError ⟨"getBlockReward: failed to parse slot"⟩] ∧
      (getBlockReward up slot).calls = [] ∧
      (getBlockReward up slot).panicked = false) ∧
    ((getSyncDuties up slot).statusCode = some 500 ∧
      (getSyncDuties up slot).written =
        [Written.error StatusInternalServerError ⟨"getSyncDuties: invalid slot in getSyncDuties"⟩] ∧
      (getSyncDuties up slot).calls = [] ∧
      (getSyncDuties up slot).panicked = false) := by
  rcases hp : ParseUint slot with ⟨v, e⟩
  cases e with
  | none => simp [hp] at hs
  | some e =>
    have hb : getBlockReward up slot =
        respondWithError Conn.start StatusInternalServerError
          "getBlockReward: failed to parse slot" := by
      simp [getBlockReward, hp]
    have hd : getSyncDuties up slot =
        respondWithError Conn.start StatusInternalServerError
          "getSyncDuties: invalid slot in getSyncDuties" := by
      simp [getSyncDuties, hp]
    rw [hb, hd]
    exact ⟨⟨rfl, rfl, rfl, rfl⟩, ⟨rfl, rfl, rfl, rfl⟩⟩

theorem unparsable_slot_rejected_witness :
    (getBlockReward missingSlotUpstream "12a").statusCode = some 500 ∧
      (getBlockReward missingSlotUpstream "12a").calls = [] ∧
      (getSyncDuties missingSlotUpstream "12a").statusCode = some 500 ∧
      (getSyncDuties missingSlotUpstream "12a").calls = [] := by
  have h := unparsable_slot_rejected missingSlotUpstream "12a" (by decide)
  exact ⟨h.1.1, h.1.2.2.1, h.2.1, h.2.2.2.1⟩

/-- C8 (as stated) fails: the slot parameter `12a` does not parse, and
neither handler answers with status 400. -/
theorem unparsable_slot_not_400 :
    (ParseUint "12a").2 ≠ none ∧
      (getBlockReward missingSlotUpstream "12a").statusCode ≠ some 400 ∧
      (getSyncDuties missingSlotUpstream "12a").statusCode ≠ some 400 := by
  decide

/-- C9: for a slot `s` not above the head, when the sync-committee lookup
and the duty-assignment call both succeed, the calls issued are the head
lookup, the sync-committee lookup for the requested slot, and the
duty-assignment call for epoch `s / 32` with exactly the validator indices of
the sync-committee answer; the response is the single body whose validators
are the pubkey fields of the duty-assignment answer, in the same order and of
the same number. -/
theorem sync_duties_pubkeys (up : Upstream) (slot : String) (s h status : Nat)
    (validators : List String) (data : List syncDuty)
    (hs : ParseUint slot = (s, none)) (hh : headResolves up h) (hle : s ≤ h)
    (hc : up.syncCommittees slot = HttpReply.response StatusOK (some validators))
    (hd : up.dutiesSync (FormatUint (s / 32)) validators = HttpReply.response status (some data)) :
    (getSyncDuties up slot).calls =
        [Call.beaconBlocks "head", Call.syncCommittees slot,
          Call.dutiesSync (FormatUint (s / 32)) validators] ∧
      (getSyncDuties up slot).written =
        [Written.syncDuties ⟨data.map syncDuty.Pubkey⟩] ∧
      (data.map syncDuty.Pubkey).length = data.length ∧
      (getSyncDuties up slot).panicked = false := by
  have hcollect : collectPubkeys data data.length 0 [] = data.map syncDuty.Pubkey := by
    rw [collectPubkeys_eq data data.length 0 [] (by omega)]
    simp
  have hnot : ¬ (h < s) := by omega
  have hrun : getSyncDuties up slot =
      ((((Conn.start.call (Call.beaconBlocks "head")).call (Call.syncCommittees slot)).call
        (Call.dutiesSync (FormatUint (s / 32)) validators)).write
          (Written.syncDuties ⟨data.map syncDuty.Pubkey⟩)) := by
    simp [getSyncDuties, hs, getCurrentSlot_of_headResolves up _ h hh, hnot, hc, hd,
      hcollect, SLOTS_PER_EPOCH, StatusOK]
  rw [hrun]
  exact ⟨rfl, rfl, by simp, rfl⟩

theorem sync_duties_pubkeys_witness :
    (getSyncDuties (sampleUpstream "200" "100" "555" builderBlock ([], none)) "100").calls =
        [Call.beaconBlocks "head", Call.syncCommittees "100",
          Call.dutiesSync "3" ["11", "22", "33"]] ∧
      (getSyncDuties (sampleUpstream "200" "100" "555" builderBlock ([], none)) "100").written =
        [Written.syncDuties ⟨["0x11", "0x22", "0x33"]⟩] := by
  have h := sync_duties_pubkeys (sampleUpstream "200" "100" "555" builderBlock ([], none))
    "100" 100 200 200 ["11", "22", "33"] [⟨"0x11"⟩, ⟨"0x22"⟩, ⟨"0x33"⟩]
    (by decide) ⟨⟨"200", "0"⟩, by decide, by decide, by decide⟩ (by decide)
    (by decide) (by decide)
  exact ⟨h.1, h.2.1⟩

/-- C1: whenever `getBlockReward` produces a reward response for the
execution block it fetched, the status of that response is `mev` exactly
when the extra-data of the block contains the bytes of `build` at some
position, and `vanilla` exactly when it does not. -/
theorem status_mev_iff_build (up : Upstream) (slot : String) (block : Block)
    (body : BlockRewardResponse) (hf : fetchesBlock up slot block)
    (hw : Written.blockReward body ∈ (getBlockReward up slot).written) :
    (body.Status = "mev" ↔ ∃ pre post, block.Extra = pre ++ buildMarker ++ post) ∧
      (body.Status = "vanilla" ↔ ¬ ∃ pre post, block.Extra = pre ++ buildMarker ++ post) := by
  obtain ⟨w, n, hq, hrun⟩ := rewardStage_of_fetchesBlock up slot block hf
  have hno := quiet_no_reward w hq body
  rw [hrun] at hw
  unfold rewardStage at hw
  rw [← bytesContains_iff]
  by_cases hmev : bytesContains block.Extra buildMarker = true
  · simp only [hmev, if_true] at hw
    cases hidx : sliceIndex block.Transactions ((block.Transactions.length : Int) - 1) with
    | none =>
      simp only [hidx, Conn.panic, Conn.call] at hw
      exact absurd hw hno
    | some lastTransaction =>
      simp only [hidx, Conn.write, Conn.call, List.mem_append, List.mem_singleton] at hw
      rcases hw with hw | hw
      · exact absurd hw hno
      · cases hw
        simp [hmev]
  · simp only [hmev, Bool.false_eq_true, if_false] at hw
    have hbody : body.Status = "vanilla" := by
      have hnr := receiptsStage_no_reward up w n block hq body
      cases hfee : block.BaseFee with
      | none =>
        rw [hfee] at hw
        exact absurd hw hnr
      | some baseFee =>
        rw [hfee] at hw
        simp only [Conn.write, List.mem_append, List.mem_singleton] at hw
        rcases hw with hw | hw
        · exact absurd hw hnr
        · cases hw
          rfl
    simp [hmev, hbody]

theorem status_mev_iff_build_witness :
    ("mev" = "mev" ↔ ∃ pre post, builderBlock.Extra = pre ++ buildMarker ++ post) ∧
      ("mev" = "vanilla" ↔ ¬ ∃ pre post, builderBlock.Extra = pre ++ buildMarker ++ post) :=
  status_mev_iff_build (sampleUpstream "200" "100" "555" builderBlock ([], none)) "100"
    builderBlock ⟨"mev", "32000000000000000"⟩ ⟨555, by decide, by decide⟩ (by decide)

/-- C4 (code evaluated at the failing input): for a block whose extra-data
is `build` and whose transaction list is empty, `getBlockReward` indexes the
transaction list at `-1` and panics; nothing is written to the response, in
particular no error response. -/
theorem empty_builder_block_panics :
    bytesContains emptyBuilderBlock.Extra buildMarker = true ∧
      emptyBuilderBlock.Transactions = [] ∧
      sliceIndex emptyBuilderBlock.Transactions
        ((emptyBuilderBlock.Transactions.length : Int) - 1) = none ∧
      (getBlockReward (sampleUpstream "200" "100" "555" emptyBuilderBlock ([], none)) "100").panicked
        = true ∧
      (getBlockReward (sampleUpstream "200" "100" "555" emptyBuilderBlock ([], none)) "100").written
        = [] := by
  decide

/-- C6 (code evaluated at the failing input): for a block on the vanilla
branch whose receipt fetch returns an error, `getBlockReward` writes the
error response and then goes on to write a reward response computed from the
missing receipts. -/
theorem receipts_error_still_rewards :
    bytesContains plainBlock.Extra buildMarker = false ∧
      (getBlockReward (sampleUpstream "200" "100" "555" plainBlock ([], some "timeout")) "100").written
        = [Written.error StatusInternalServerError ⟨"getBlockReward: failed to get receipts"⟩,
            Written.blockReward ⟨"vanilla", "-0.000355"⟩] := by
  decide

/-- C7 (code evaluated at the failing input): when the consensus-layer
source answers the lookup of slot 100 with status 404, `getBeaconBlock`
writes the 404 error and returns a nil error with an empty envelope;
`getBlockReward` goes on, looks up execution block 0 and writes a reward
response after the error. -/
theorem not_found_returns_nil_error :
    missingSlotUpstream.beaconBlocks "100" = HttpReply.response 404 none ∧
      (getBeaconBlock missingSlotUpstream Conn.start "100").2.2 = none ∧
      (getBeaconBlock missingSlotUpstream Conn.start "100").1.written =
        [Written.error StatusNotFound ⟨"getBeaconBlock: failed to find beacon block"⟩] ∧
      Call.blockByNumber 0 ∈ (getBlockReward missingSlotUpstream "100").calls ∧
      (getBlockReward missingSlotUpstream "100").written =
        [Written.error StatusNotFound ⟨"getBeaconBlock: failed to find beacon block"⟩,
          Written.blockReward ⟨"vanilla", "0.000855"⟩] := by
  decide

/-- C10 (as the code has it): for slot 100 with the head at 200, an
envelope with block number 555, a block whose extra-data is
`builder-payload` and whose last transaction has value 32000000000000000 wei,
`getBlockReward` writes the single response with status `mev` and reward
`32000000000000000`: the value in wei, not scaled. -/
theorem scenario_mev_reward (up : Upstream) (envelope : beaconBlock) (block : Block)
    (t : Transaction) (hh : headResolves up 200)
    (hreq : up.newRequestFails "100" = false)
    (henv : up.beaconBlocks "100" = HttpReply.response StatusOK (some envelope))
    (hnum : envelope.Block_number = "555")
    (hdial : up.dial = none)
    (hblk : up.blockByNumber 555 = some block)
    (hextra : block.Extra = builderPayload)
    (hlast : block.Transactions.getLast? = some t)
    (hval : t.Value = 32000000000000000) :
    (getBlockReward up "100").written =
        [Written.blockReward ⟨"mev", "32000000000000000"⟩] ∧
      (getBlockReward up "100").panicked = false := by
  have hparse : (ParseInt envelope.Block_number).1 = 555 := by
    rw [hnum]
    decide
  have hrun := getBlockReward_of_answers up "100" 100 200 envelope block (by decide) hh
    (by decide) hreq henv hdial (by rw [hparse]; exact hblk)
  have hmev : bytesContains block.Extra buildMarker = true := by
    rw [hextra]
    decide
  have htext : (BigFloat.SetInt 32000000000000000).Text = "32000000000000000" := by decide
  rw [hrun]
  unfold rewardStage
  simp only [hmev, if_true, sliceIndex_last, hlast, hval, htext]
  exact ⟨rfl, rfl⟩

theorem scenario_mev_reward_witness :
    (getBlockReward (sampleUpstream "200" "100" "555" builderBlock ([], none)) "100").written =
        [Written.blockReward ⟨"mev", "32000000000000000"⟩] ∧
      (getBlockReward (sampleUpstream "200" "100" "555" builderBlock ([], none)) "100").panicked
        = false :=
  scenario_mev_reward (sampleUpstream "200" "100" "555" builderBlock ([], none))
    ⟨"100", "555"⟩ builderBlock ⟨32000000000000000⟩
    ⟨⟨"200", "0"⟩, by decide, by decide, by decide⟩ (by decide) (by decide) (by decide)
    (by decide) (by decide) (by decide) (by decide) (by decide)

/-- C10 (as stated) fails: in the scenario the response with status `mev`
and reward `0.032` is not what `getBlockReward` writes. -/
theorem scenario_reward_not_scaled :
    builderBlock.Extra = builderPayload ∧
      builderBlock.Transactions.getLast? = some ⟨32000000000000000⟩ ∧
      Written.blockReward ⟨"mev", "0.032"⟩ ∉
        (getBlockReward (sampleUpstream "200" "100" "555" builderBlock ([], none)) "100").written := by
  decide

/-- C2 (as the code has it): for a fetched block whose extra-data contains
`build` and whose transaction list is not empty, `getBlockReward` does not
panic, issues no receipts call, and writes exactly one reward response: its
status is `mev` and its reward is the rendering `Text('f', -1)` of the
precision-53 `big.Float` nearest to the value of the last transaction,
whatever the receipts of the block are.  When that value is non-negative and
below `2^53`, the reward is a decimal numeral of exactly that value. -/
theorem mev_reward_of_last_value (up : Upstream) (slot : String) (block : Block)
    (t : Transaction) (hf : fetchesBlock up slot block)
    (hbuild : ∃ pre post, block.Extra = pre ++ buildMarker ++ post)
    (hlast : block.Transactions.getLast? = some t) :
    (getBlockReward up slot).rewards = [⟨"mev", (BigFloat.SetInt t.Value).Text⟩] ∧
      (getBlockReward up slot).panicked = false ∧
      (getBlockReward up slot).calls.all (fun c => c != Call.blockReceipts block.Hash) = true ∧
      (0 ≤ t.Value → t.Value < 2 ^ 53 → denotes (BigFloat.SetInt t.Value).Text t.Value 1) := by
  obtain ⟨w, n, hq, hrun⟩ := rewardStage_of_fetchesBlock up slot block hf
  have hmev : bytesContains block.Extra buildMarker = true := (bytesContains_iff _ _).2 hbuild
  rw [hrun]
  unfold rewardStage
  simp only [hmev, if_true, sliceIndex_last, hlast]
  refine ⟨?_, hq.2.2, ?_, ?_⟩
  · rw [rewards_write_reward, rewards_call, rewards_call, quiet_rewards w hq]
    rfl
  · simp only [Conn.write, Conn.call, List.all_append, List.all_cons, List.all_nil,
      Bool.and_true, Bool.and_eq_true, List.all_eq_true, bne_iff_ne, ne_eq]
    refine ⟨⟨?_, by simp⟩, by simp⟩
    intro c hc
    obtain ⟨s, hs⟩ := hq.2.1 c hc
    rw [hs]
    simp
  · intro h0 hlt
    obtain ⟨v, hv⟩ := Int.eq_ofNat_of_zero_le h0
    rw [hv] at hlt ⊢
    exact denotes_Text_SetInt v (by exact_mod_cast hlt)

theorem mev_reward_of_last_value_witness :
    (getBlockReward (sampleUpstream "200" "100" "555" smallValueBlock (plainReceipts, none))
        "100").rewards = [⟨"mev", "4200000000000000"⟩] ∧
      (getBlockReward (sampleUpstream "200" "100" "555" smallValueBlock (plainReceipts, none))
        "100").panicked = false ∧
      denotes "4200000000000000" 4200000000000000 1 := by
  have h := mev_reward_of_last_value
    (sampleUpstream "200" "100" "555" smallValueBlock (plainReceipts, none))
    "100" smallValueBlock ⟨4200000000000000⟩ ⟨555, by decide, by decide⟩
    ⟨[], [101, 114, 45, 112, 97, 121, 108, 111, 97, 100], by decide⟩ (by decide)
  have htext : (BigFloat.SetInt 4200000000000000).Text = "4200000000000000" := by decide
  simp only [htext] at h
  exact ⟨h.1, h.2.1, h.2.2.2 (by decide) (by decide)⟩

/-- C2 (as stated) fails: the block has extra-data `build` and a single
transaction of value `2^53 + 1 = 9007199254740993` wei; the reward written is
`9007199254740992`, which is not a numeral of value 9007199254740993. -/
theorem last_value_not_exact :
    bytesContains oddValueBlock.Extra buildMarker = true ∧
      oddValueBlock.Transactions.getLast? = some ⟨9007199254740993⟩ ∧
      (getBlockReward (sampleUpstream "200" "100" "555" oddValueBlock ([], none)) "100").written
        = [Written.blockReward ⟨"mev", "9007199254740992"⟩] ∧
      ¬ denotes "9007199254740992" 9007199254740993 1 := by
  decide

/-- C3 (as the code has it): for a fetched block whose extra-data does not
contain `build`, that carries a base fee, and whose receipts call returns
without error, let `fees` be the sum of `effectiveGasPrice * gasUsed` over the
receipts less `gasUsed * baseFee` of the block.  Then `getBlockReward` does not
panic and writes exactly one reward response: its status is `vanilla` and its
reward is the rendering `Text('f', -1)` of the precision-53 quotient by `10^9`
of the precision-53 `big.Float` nearest to `fees`.  When `fees` is below
`2^23 * 10^9` wei in absolute value, the reward is a decimal numeral of
exactly the value `fees / 10^9`. -/
theorem vanilla_reward_of_fees (up : Upstream) (slot : String) (block : Block)
    (baseFee fees : Int)
    (hf : fetchesBlock up slot block)
    (hplain : ¬ ∃ pre post, block.Extra = pre ++ buildMarker ++ post)
    (hfee : block.BaseFee = some baseFee)
    (hfetched : (up.blockReceipts block.Hash).2 = none)
    (hfees : fees =
      ((up.blockReceipts block.Hash).1.map
        (fun r => r.EffectiveGasPrice * (r.GasUsed : Int))).sum
      - (block.GasUsed : Int) * baseFee) :
    (getBlockReward up slot).rewards =
        [⟨"vanilla",
          (BigFloat.Quo (BigFloat.SetInt fees) (BigFloat.SetInt64 (10 ^ 9))).Text⟩] ∧
      (getBlockReward up slot).panicked = false ∧
      (fees.natAbs < 2 ^ 23 * 10 ^ 9 →
        denotes (BigFloat.Quo (BigFloat.SetInt fees) (BigFloat.SetInt64 (10 ^ 9))).Text
          fees (10 ^ 9)) := by
  obtain ⟨w, n, hq, hrun⟩ := rewardStage_of_fetchesBlock up slot block hf
  have hmev : ¬ bytesContains block.Extra buildMarker = true :=
    fun h => hplain ((bytesContains_iff _ _).1 h)
  have hgwei : GWei = 10 ^ 9 := by decide
  have hstage : receiptsStage up w n block =
      ((w.call Call.dial).call (Call.blockByNumber n)).call (Call.blockReceipts block.Hash) := by
    simp [receiptsStage, hfetched]
  rw [hrun]
  unfold rewardStage
  simp only [hmev, Bool.false_eq_true, if_false, hfee, hstage, foldl_fees, zero_add, hgwei,
    ← hfees]
  refine ⟨?_, hq.2.2, denotes_Text_Quo fees⟩
  rw [rewards_write_reward, rewards_call, rewards_call, rewards_call, quiet_rewards w hq]
  rfl

theorem vanilla_reward_of_fees_witness :
    (getBlockReward (sampleUpstream "200" "100" "555" plainBlock (plainReceipts, none))
        "100").rewards = [⟨"vanilla", "0.000855"⟩] ∧
      (getBlockReward (sampleUpstream "200" "100" "555" plainBlock (plainReceipts, none))
        "100").panicked = false ∧
      denotes "0.000855" (10 * 21000 + 20 * 50000 - 71000 * 5) (10 ^ 9) := by
  have h := vanilla_reward_of_fees
    (sampleUpstream "200" "100" "555" plainBlock (plainReceipts, none)) "100" plainBlock 5
    (10 * 21000 + 20 * 50000 - 71000 * 5)
    ⟨555, by decide, by decide⟩
    (fun hb => absurd ((bytesContains_iff _ _).2 hb) (by decide)) (by decide) (by decide)
    (by decide)
  have htext : (BigFloat.Quo (BigFloat.SetInt (10 * 21000 + 20 * 50000 - 71000 * 5))
      (BigFloat.SetInt64 (10 ^ 9))).Text = "0.000855" := by decide
  rw [htext] at h
  exact ⟨h.1, h.2.1, h.2.2 (by decide)⟩

/-- C3 (as stated) fails: with one receipt of 123457 gas at 1000000000001
wei per gas, base fee 7 and 123457 gas used, the fees less the burned part
are 123456999999259258 wei; the handler does not panic and the reward written
is `123456999.99925926`, which is not a numeral of value
`123456999999259258 / 10^9`. -/
theorem vanilla_reward_not_exact :
    bytesContains largeFeeBlock.Extra buildMarker = false ∧
      (1000000000001 * 123457 - 123457 * 7 : Int) = 123456999999259258 ∧
      (getBlockReward (sampleUpstream "200" "100" "555" largeFeeBlock (largeReceipts, none))
        "100").written = [Written.blockReward ⟨"vanilla", "123456999.99925926"⟩] ∧
      (getBlockReward (sampleUpstream "200" "100" "555" largeFeeBlock (largeReceipts, none))
        "100").panicked = false ∧
      ¬ denotes "123456999.99925926" (1000000000001 * 123457 - 123457 * 7) (10 ^ 9) := by
  decide

end SfTestTask
